import Mathlib

/-!
# Wire codec and session router of the vehicle-signal gateway (package `utils`)

A shallow embedding of the compression reference implementation and the token signature of
`common.go`, and of the correlation tag, the hub and the session pool of
`managerhandlers.go`.  A Go byte
slice or string is a list of byte values; a Go run-time fault (an index or a
slice bound out of range, an integer division by zero) is the result `none`.
Arithmetic on the Go type `byte` is taken modulo 256, arithmetic on `int` is
64-bit two's complement.
-/

namespace Utils

/-- The Go byte slice or string: the list of its byte values. -/
abbrev Bytes := List Nat

/-- The bytes of an ASCII text. -/
def str (s : String) : Bytes := s.toList.map Char.toNat

/-- The Go slice expression `s[lo:hi]`, which faults unless `lo ≤ hi ≤ len(s)` (the capacity
of a slice is taken to be its length). -/
def slice (s : Bytes) (lo hi : Nat) : Option Bytes :=
  if lo ≤ hi ∧ hi ≤ s.length then some ((s.take hi).drop lo) else none

/-- The Go slice expression `s[lo:]`, which faults unless `lo ≤ len(s)`. -/
def sliceFrom (s : Bytes) (lo : Nat) : Option Bytes :=
  if lo ≤ s.length then some (s.drop lo) else none

/-- Subtraction on the Go type `byte` (wraps modulo 256). -/
def bsub (a b : Nat) : Nat := (a + 256 - b % 256) % 256

/-! ## Timestamp codec -/

/-- Source `twoToOneByte`: two ASCII digits to their value, in byte arithmetic. -/
def twoToOneByte (twoByte : Bytes) : Option Nat := do
  let a ← twoByte[0]?
  let b ← twoByte[1]?
  pure ((bsub a 48 * 10 + bsub b 48) % 256)

/-- Source `compressTS`: packs the quoted instant `"YYYY-MM-DDTHH:MM:SSZ"` into 4 bytes. -/
def compressTS (ts : Bytes) : Option Bytes := do
  let second ← (slice ts 18 20).bind twoToOneByte
  let minute ← (slice ts 15 17).bind twoToOneByte
  let hour ← (slice ts 12 14).bind twoToOneByte
  let day ← (slice ts 9 11).bind twoToOneByte
  let month ← (slice ts 6 8).bind twoToOneByte
  let y ← ts[4]?
  let year := bsub y 48
  let c3 := ((minute &&& 0x3) * 64 + second) % 256
  let c2 := ((hour &&& 0xF) * 16 + minute / 4) % 256
  let c1 := ((month &&& 0x3) * 64 + day * 2 + hour / 16) % 256
  let c0 := (year * 4 + month / 4) % 256
  pure [c0, c1, c2, c3]

/-- Source `decompressTs`: rebuilds the 22-byte quoted instant, with the year prefix `202`. -/
def decompressTs (tsCompressed : Bytes) : Option Bytes := do
  let c0 ← tsCompressed[0]?
  let c1 ← tsCompressed[1]?
  let c2 ← tsCompressed[2]?
  let c3 ← tsCompressed[3]?
  let month := ((c1 &&& 0xC0) / 64 + (c0 &&& 0x3) * 4) % 256
  let day := (c1 &&& 0x3E) / 2
  let hour := ((c2 &&& 0xF0) / 16 + (c1 &&& 0x1) * 16) % 256
  let minute := ((c3 &&& 0xC0) / 64 + (c2 &&& 0x0F) * 4) % 256
  let second := c3 &&& 0x3F
  pure [34, 50, 48, 50, (c0 / 4 + 48) % 256, 45,
        (month / 10 + 48) % 256, (month % 10 + 48) % 256, 45,
        (day / 10 + 48) % 256, (day % 10 + 48) % 256, 84,
        (hour / 10 + 48) % 256, (hour % 10 + 48) % 256, 58,
        (minute / 10 + 48) % 256, (minute % 10 + 48) % 256, 58,
        (second / 10 + 48) % 256, (second % 10 + 48) % 256, 90, 34]

/-- The quoted literal `"202y-mo-dThh:mi:sZ"` with two-digit decimal fields. -/
def tsLiteral (y mo d h mi s : Nat) : Bytes :=
  [34, 50, 48, 50, 48 + y, 45, 48 + mo / 10, 48 + mo % 10, 45,
   48 + d / 10, 48 + d % 10, 84, 48 + h / 10, 48 + h % 10, 58,
   48 + mi / 10, 48 + mi % 10, 58, 48 + s / 10, 48 + s % 10, 90, 34]

/-! ## Token dictionary -/

/-- Source `codelist` after `jsonToStructList`: the 26 entries of `codeList.Code`. -/
def codeList : List Bytes :=
  [str "action", str "requestId", str "value", str "ts", str "path", str "subscriptionId",
   str "data", str "dp", str "filter", str "authorization",
   str "get", str "set", str "subscribe", str "unsubscribe", str "subscription",
   str "nuint8", str "uint8", str "nuint16", str "uint16", str "nuint24", str "uint24",
   str "nuint32", str "uint32", str "bool", str "float", str "unknown"]

def CODELISTINDEXREQID : Nat := 1
def CODELISTINDEXVALUE : Nat := 2
def CODELISTINDEXTS : Nat := 3
def CODELISTINDEXPATH : Nat := 4
def CODELISTINDEXSUBID : Nat := 5
def CODELISTKEYS : Nat := 10
def CODELISTKEYVALUES : Nat := 15

/-- The loop of `getCodeListIndex` over the entries from position `i` on. -/
def getCodeListIndexFrom (token : Bytes) : List Bytes → Nat → Nat
  | [], _ => 255
  | c :: cs, i => if c = token then i else getCodeListIndexFrom token cs (i + 1)

/-- Source `getCodeListIndex`: position of the token in the code list, 255 when absent. -/
def getCodeListIndex (token : Bytes) : Nat :=
  getCodeListIndexFrom token codeList 0

/-! ## Decimal conversions of the Go library (`strconv.Itoa`, `strconv.Atoi`) -/

/-- Decimal digits of `n`, most significant first, pushed in front of `acc`. -/
def digitsAux : Nat → Nat → Bytes → Bytes
  | 0, _, acc => acc
  | fuel + 1, n, acc =>
    if n < 10 then (48 + n) :: acc else digitsAux fuel (n / 10) ((48 + n % 10) :: acc)

/-- The canonical decimal text of a natural number. -/
def natDec (n : Nat) : Bytes := digitsAux (n + 1) n []

/-- Library `strconv.Itoa`: canonical decimal text, with a leading `-` when negative. -/
def Itoa (n : Int) : Bytes :=
  if n < 0 then 45 :: natDec n.natAbs else natDec n.natAbs

/-- Value of a run of ASCII digits read left to right from `acc`; `none` on another byte. -/
def parseAcc : Nat → Bytes → Option Nat
  | acc, [] => some acc
  | acc, c :: t => if 48 ≤ c ∧ c ≤ 57 then parseAcc (acc * 10 + (c - 48)) t else none

/-- A non-empty run of ASCII digits. -/
def parseDigits (s : Bytes) : Option Nat :=
  if s = [] then none else parseAcc 0 s

/-- Library `strconv.Atoi` with 64-bit `int`: the value and whether the error is nil.
A syntax error gives 0; a range error gives the nearest 64-bit value. -/
def Atoi (s : Bytes) : Int × Bool :=
  let neg := s.head? = some 45
  let body := if s.head? = some 45 ∨ s.head? = some 43 then s.tail else s
  match parseDigits body with
  | none => (0, false)
  | some un =>
    if neg then (if un > 2 ^ 63 then (-(2 ^ 63 : Int), false) else (-(un : Int), true))
    else (if un ≥ 2 ^ 63 then ((2 ^ 63 : Int) - 1, false) else ((un : Int), true))

/-- Wrap-around of 64-bit signed `int` arithmetic. -/
def wrap64 (x : Int) : Int := (x + 2 ^ 63) % 2 ^ 64 - 2 ^ 63

/-- The Go conversion `byte(x)` of an `int`. -/
def byteOfInt (x : Int) : Nat := (x % 256).toNat

/-! ## Value codec -/

/-- Source `getIntType`. -/
def getIntType (byteSize : Nat) (isPos : Bool) : Bytes :=
  if byteSize = 1 then (if isPos then str "uint8" else str "nuint8")
  else if byteSize = 2 then (if isPos then str "uint16" else str "nuint16")
  else if byteSize = 3 then (if isPos then str "uint24" else str "nuint24")
  else (if isPos then str "uint32" else str "nuint32")

/-- Source `compressIntValue`.  In the three wider branches `intVal` is at least 256, so
its masks are taken on the natural number `intVal.toNat`. -/
def compressIntValue (value : Bytes) : Option Bytes := do
  let text ← slice value 1 (value.length - 1)
  let parsed := (Atoi text).1
  let isPos := decide (¬ parsed < 0)
  let intVal := if parsed < 0 then wrap64 (parsed * -1) else parsed
  let n := intVal.toNat
  if intVal < 256 then
    pure [(getCodeListIndex (getIntType 1 isPos) + 128) % 256, byteOfInt intVal]
  else if intVal < 65536 then
    pure [(getCodeListIndex (getIntType 2 isPos) + 128) % 256,
          ((n &&& 0xFF00) / 256) % 256, (n &&& 0x00FF) % 256]
  else if intVal < 16777216 then
    pure [(getCodeListIndex (getIntType 3 isPos) + 128) % 256,
          ((n &&& 0xFF0000) / 65536) % 256, ((n &&& 0xFF00) / 256) % 256, (n &&& 0x00FF) % 256]
  else if intVal < 4294967296 then
    pure [(getCodeListIndex (getIntType 4 isPos) + 128) % 256,
          ((n &&& 0xFF000000) / 16777216) % 256, ((n &&& 0xFF0000) / 65536) % 256,
          ((n &&& 0xFF00) / 256) % 256, (n &&& 0x00FF) % 256]
  else
    pure value

/-- Source `compressBoolValue`. -/
def compressBoolValue (value : Bytes) : Bytes :=
  [(getCodeListIndex (str "bool") + 128) % 256, if value = str "\"true\"" then 1 else 0]

/-- Source `compressOtherValue`. -/
def compressOtherValue (value : Bytes) : Bytes :=
  [(getCodeListIndex (str "unknown") + 128) % 256] ++ value

/-- A value of the Go type `float64` as far as its comparisons go: a finite number, one of
the two infinities, or NaN. -/
inductive FloatVal where
  | finite (q : ℚ)
  | posInf
  | negInf
  | nan

/-- The Go comparison `a < b` on `float64`: the order of the numbers, with the infinities
at the two ends; every comparison with NaN is false. -/
def FloatVal.lt : FloatVal → FloatVal → Bool
  | FloatVal.finite a, FloatVal.finite b => decide (a < b)
  | FloatVal.finite _, FloatVal.posInf => true
  | FloatVal.negInf, FloatVal.finite _ => true
  | FloatVal.negInf, FloatVal.posInf => true
  | _, _ => false

/-- The Go product `f * -1.0` on `float64`. -/
def FloatVal.neg : FloatVal → FloatVal
  | FloatVal.finite q => FloatVal.finite (-q)
  | FloatVal.posInf => FloatVal.negInf
  | FloatVal.negInf => FloatVal.posInf
  | FloatVal.nan => FloatVal.nan

/-- The floating-point services of the Go library that the codec calls on numbers; they are
parameters of the model. -/
structure FloatLib where
  /-- The number `strconv.ParseFloat(text, 32)` returns with a nil error on a text that is
  none of the special values (`NaN`, `Inf`, `Infinity`); `none` when the error is not nil. -/
  parseNumber : Bytes → Option ℚ
  /-- The 4 little-endian bytes written by `float32ToByte(float32(ParseFloat(text, 32)))`. -/
  encode : Bytes → Bytes
  /-- The text `fmt.Sprintf("%f", f)` of the float32 read from 4 little-endian bytes. -/
  format : Bytes → Bytes

/-- An ASCII letter in lower case, as the library compares the special values. -/
def asciiLower (b : Nat) : Nat := if 65 ≤ b ∧ b ≤ 90 then b + 32 else b

/-- Library `strconv.ParseFloat` on the special values: `NaN` without a sign, and `Inf` or
`Infinity` with an optional sign, in any mix of cases. -/
def specialFloat (text : Bytes) : Option FloatVal :=
  let low := text.map asciiLower
  if low = str "nan" then some FloatVal.nan
  else if low = str "inf" ∨ low = str "+inf" ∨ low = str "infinity" ∨ low = str "+infinity"
  then some FloatVal.posInf
  else if low = str "-inf" ∨ low = str "-infinity" then some FloatVal.negInf
  else none

/-- Library `strconv.ParseFloat(text, 32)`: the value when the error is nil. -/
def parseFloat32 (fl : FloatLib) (text : Bytes) : Option FloatVal :=
  match specialFloat text with
  | some f => some f
  | none => (fl.parseNumber text).map FloatVal.finite

/-- The constant `1.175494351E-38` of `isFloatType`. -/
def minFloat32 : ℚ := 1175494351 / 10 ^ 47

/-- The constant `3.402823466E+38` of `isFloatType`. -/
def maxFloat32 : ℚ := 3402823466 * 10 ^ 29

/-- Source `isFloatType`: the text parses, and its magnitude is neither below the smaller
constant nor above the larger one. -/
def isFloatType (fl : FloatLib) (value : Bytes) : Bool :=
  match parseFloat32 fl value with
  | none => false
  | some parsed =>
    let fVal := if parsed.lt (FloatVal.finite 0) then parsed.neg else parsed
    if fVal.lt (FloatVal.finite minFloat32) ∨ (FloatVal.finite maxFloat32).lt fVal then false
    else true

/-- Source `AnalyzeValueType`. -/
def AnalyzeValueType (fl : FloatLib) (value : Bytes) : Nat :=
  if (Atoi value).2 then 1
  else if value = str "true" ∨ value = str "false" then 2
  else if isFloatType fl value then 3
  else 0

/-- Source `compressFloatValue`. -/
def compressFloatValue (fl : FloatLib) (value : Bytes) : Option Bytes := do
  let text ← slice value 1 (value.length - 1)
  let buf := fl.encode text
  let b0 ← buf[0]?
  let b1 ← buf[1]?
  let b2 ← buf[2]?
  let b3 ← buf[3]?
  pure [(getCodeListIndex (str "float") + 128) % 256, b0, b1, b2, b3]

/-- Source `compressValue`. -/
def compressValue (fl : FloatLib) (value : Bytes) : Option Bytes := do
  let text ← slice value 1 (value.length - 1)
  let kind := AnalyzeValueType fl text
  if kind = 1 then compressIntValue value
  else if kind = 2 then pure (compressBoolValue value)
  else if kind = 3 then compressFloatValue fl value
  else pure (compressOtherValue value)

/-- Library `strings.Index` for a one-byte pattern: first position of `c`, or -1. -/
def stringsIndex : Bytes → Nat → Int
  | [], _ => -1
  | b :: t, c => if b = c then 0 else
    let r := stringsIndex t c
    if r < 0 then -1 else r + 1

/-- Source `decompressOneValue`: the decoded literal and the number of bytes read. -/
def decompressOneValue (fl : FloatLib) (valueCompressed : Bytes) : Option (Bytes × Nat) := do
  let b0 ← valueCompressed[0]?
  let tag ← codeList[bsub b0 128]?
  if tag = str "nuint8" ∨ tag = str "uint8" then
    let valueLead := if tag = str "nuint8" then str "\"-" else str "\""
    let b1 : Nat ← valueCompressed[1]?
    pure (valueLead ++ Itoa (b1 : Int) ++ str "\"", 2)
  else if tag = str "nuint16" ∨ tag = str "uint16" then
    let valueLead := if tag = str "nuint16" then str "\"-" else str "\""
    let b1 : Nat ← valueCompressed[1]?
    let b2 : Nat ← valueCompressed[2]?
    pure (valueLead ++ Itoa ((b1 : Int) * 256 + b2) ++ str "\"", 3)
  else if tag = str "nuint24" ∨ tag = str "uint24" then
    let valueLead := if tag = str "nuint24" then str "\"-" else str "\""
    let b1 : Nat ← valueCompressed[1]?
    let b2 : Nat ← valueCompressed[2]?
    let b3 : Nat ← valueCompressed[3]?
    pure (valueLead ++ Itoa ((b1 : Int) * 65536 + (b2 : Int) * 256 + b3) ++ str "\"", 4)
  else if tag = str "nuint32" ∨ tag = str "uint32" then
    let valueLead := if tag = str "nuint32" then str "\"-" else str "\""
    let b1 : Nat ← valueCompressed[1]?
    let b2 : Nat ← valueCompressed[2]?
    let b3 : Nat ← valueCompressed[3]?
    let b4 : Nat ← valueCompressed[4]?
    pure (valueLead ++ Itoa ((b1 : Int) * 16777216 + (b2 : Int) * 65536 + (b3 : Int) * 256 + b4)
      ++ str "\"", 5)
  else if tag = str "bool" then
    let b1 : Nat ← valueCompressed[1]?
    pure (if b1 = 0 then str "\"false\"" else str "\"true\"", 2)
  else if tag = str "float" then
    let raw ← slice valueCompressed 1 5
    pure (str "\"" ++ fl.format raw ++ str "\"", 5)
  else
    let rest ← sliceFrom valueCompressed 3
    let bytesRead := (stringsIndex rest 34 + 4).toNat
    let text ← slice valueCompressed 1 bytesRead
    pure (text, bytesRead)

/-- Source `decompressValue`, the loop from position `index` with the text decoded so far.
Every iteration advances `index`, so `len + 1` rounds of fuel are never used up. -/
def decompressValueLoop (fl : FloatLib) (valueCompressed : Bytes) :
    Nat → Nat → Bytes → Option (Bytes × Nat)
  | 0, _, _ => none
  | fuel + 1, index, unCompressedValue => do
    let c ← valueCompressed[index]?
    if c = 91 ∨ c = 93 ∨ c = 44 ∨ c = 123 then
      let unCompressedValue := unCompressedValue ++ [c]
      if c = 93 ∨ c = 123 then pure (unCompressedValue, index + 1)
      else decompressValueLoop fl valueCompressed fuel (index + 1) unCompressedValue
    else
      let rest ← sliceFrom valueCompressed index
      let (unCompressedOneValue, bytesRead) ← decompressOneValue fl rest
      let unCompressedValue := unCompressedValue ++ unCompressedOneValue
      let unCompressedValue :=
        if index + bytesRead < valueCompressed.length
            ∧ valueCompressed[index + bytesRead]? = some c
        then unCompressedValue ++ [44] else unCompressedValue
      if index = 0 then pure (unCompressedValue, index + bytesRead)
      else decompressValueLoop fl valueCompressed fuel (index + bytesRead) unCompressedValue

/-- Source `decompressValue`: a single value or a bracketed array of values. -/
def decompressValue (fl : FloatLib) (valueCompressed : Bytes) : Option (Bytes × Nat) :=
  decompressValueLoop fl valueCompressed (valueCompressed.length + 1) 0 []

/-! ## Path dictionary -/

/-- The Go comparison `a <= b` of strings: bytewise lexicographic order. -/
def strLe : Bytes → Bytes → Bool
  | [], _ => true
  | _ :: _, [] => false
  | a :: as, b :: bs => if a < b then true else if b < a then false else strLe as bs

/-- Library `sort.Search`, the loop on the interval `[i, j)`; the interval shrinks in
every round. -/
def searchLoop (f : Nat → Bool) : Nat → Nat → Nat → Nat
  | 0, i, _ => i
  | fuel + 1, i, j =>
    if i < j then
      let h := (i + j) / 2
      if !f h then searchLoop f fuel (h + 1) j else searchLoop f fuel i h
    else i

/-- Library `sort.Search(n, f)`. -/
def sortSearch (n : Nat) (f : Nat → Bool) : Nat := searchLoop f n 0 n

/-- Source `compressPath` over the loaded `pathList.Path`.  The unquoted text is sliced
only when the comparison function or the equality test runs, which needs a non-empty list. -/
def compressPath (pathList : List Bytes) (path : Bytes) : Option Bytes :=
  if pathList.length = 0 then some path
  else do
    let text ← slice path 1 (path.length - 1)
    let index := sortSearch pathList.length (fun i => strLe text (pathList.getD i []))
    if index < pathList.length ∧ pathList[index]? = some text then
      pure [((index &&& 0xFF00) / 256) % 256, (index &&& 0x00FF) % 256]
    else pure path

/-- Source `decompressPath`. -/
def decompressPath (pathList : List Bytes) (index : Bytes) : Option Bytes := do
  let i0 ← index[0]?
  let i1 ← index[1]?
  let entry ← pathList[i0 * 256 + i1]?
  pure (str "\"" ++ entry ++ str "\"")

/-- The literal `"p"`: the text between two quote marks. -/
def quoted (p : Bytes) : Bytes := 34 :: (p ++ [34])

/-- The path list is sorted ascending in the order of Go string comparison. -/
def SortedPaths (pathList : List Bytes) : Prop :=
  List.Pairwise (fun a b => strLe a b = true) pathList

/-! ## Message codec -/

/-- Source `NextQuoteMark`: the scan from position `i` over the remaining bytes. -/
def nextQuoteFrom : Bytes → Nat → Option Nat
  | [], _ => none
  | b :: t, i => if b = 34 then some i else nextQuoteFrom t (i + 1)

/-- Source `NextQuoteMark`: the first quote mark at or after `offset`, else `offset`. -/
def NextQuoteMark (message : Bytes) (offset : Nat) : Nat :=
  (nextQuoteFrom (message.drop offset) offset).getD offset

/-- Source `readUncompressedMessage`: a quoted literal or a single byte. -/
def readUncompressedMessage (message : Bytes) (offset : Nat) : Option Bytes := do
  let c ← message[offset]?
  if c = 34 then
    let offset2 := NextQuoteMark message (offset + 1)
    slice message offset (offset2 + 1)
  else pure [c]

/-- Source `readCompressedMessage`: the text of one token and the number of bytes read. -/
def readCompressedMessage (fl : FloatLib) (pathList : List Bytes) (message : Bytes)
    (offset : Nat) : Option (Bytes × Nat) := do
  let m ← message[offset]?
  if m ≥ 128 then
    let idx := bsub m 128
    let tok1 ←
      if idx < CODELISTKEYVALUES then do
        let entry ← codeList[idx]?
        let t := [34] ++ entry ++ [34]
        pure (if m < CODELISTKEYS + 128 then t ++ [58] else t)
      else pure []
    let (tok2, bytesRead) ←
      if idx = CODELISTINDEXPATH then do
        let rest ← sliceFrom message (offset + 1)
        let p ← decompressPath pathList rest
        pure (tok1 ++ p, 1 + 2)
      else if idx = getCodeListIndex (str "ts") then do
        let rest ← sliceFrom message (offset + 1)
        let t ← decompressTs rest
        pure (tok1 ++ t, 1 + 4)
      else if idx = CODELISTINDEXVALUE ∨ idx = CODELISTINDEXREQID
          ∨ idx = CODELISTINDEXSUBID then do
        let rest ← sliceFrom message (offset + 1)
        let (value, bytes) ← decompressValue fl rest
        pure (tok1 ++ value, 1 + bytes)
      else pure (tok1, 1)
    if idx < CODELISTKEYVALUES ∧ idx ≠ getCodeListIndex (str "action")
        ∧ idx ≠ getCodeListIndex (str "filter")
        ∧ idx ≠ getCodeListIndex (str "authorization")
        ∧ offset + bytesRead ≠ message.length then do
      let next ← message[offset + bytesRead]?
      if next ≠ 125 ∧ next ≠ 93 then do
        let prev ← message[offset + bytesRead - 1]?
        if prev ≠ 123 ∧ prev ≠ 91 then pure (tok2 ++ [44], bytesRead)
        else pure (tok2, bytesRead)
      else pure (tok2, bytesRead)
    else pure (tok2, bytesRead)
  else
    if offset + 1 < message.length ∧ m = 125 ∧ message[offset + 1]? = some 123 then
      pure ([m, 44], 1)
    else pure ([m], 1)

/-- The token loop of `DecompressMessage`; every token consumes at least one byte. -/
def decompressLoop (fl : FloatLib) (pathList : List Bytes) (message : Bytes) :
    Nat → Nat → Bytes → Option Bytes
  | 0, _, _ => none
  | fuel + 1, offset, message2 =>
    if offset < message.length then do
      let (uncompressedToken, compressedLen) ← readCompressedMessage fl pathList message offset
      decompressLoop fl pathList message fuel (offset + compressedLen)
        (message2 ++ uncompressedToken)
    else pure message2

/-- Source `DecompressMessage`, over the loaded code list and path list. -/
def DecompressMessage (fl : FloatLib) (pathList : List Bytes) (message : Bytes) :
    Option Bytes :=
  if message.length = 0 then some message
  else do
    let lead := if message.head? ≠ some 123 then [123] else []
    let message2 ← decompressLoop fl pathList message (message.length + 1) 0 lead
    pure (if message.getLast? ≠ some 125 then message2 ++ [125] else message2)

/-- The loop variables of `CompressMessage`. -/
structure CompressState where
  offset : Nat
  tokenState : Nat
  isArray : Bool
  message2 : Bytes

/-- One round of the token loop of `CompressMessage`. -/
def compressStep (fl : FloatLib) (pathList : List Bytes) (message : Bytes)
    (st : CompressState) : Option CompressState := do
  let token ← readUncompressedMessage message st.offset
  let offset := st.offset + token.length
  if token.length = 1 then
    let t0 := token.headD 0
    if t0 ≠ 32 ∧ t0 ≠ 44 then
      if (t0 = 123 ∧ offset = 1) ∨ (t0 = 125 ∧ offset = message.length) ∨ t0 = 58 then
        pure { st with offset := offset }
      else
        let isArray := if t0 = 93 then false else if t0 = 91 then true else st.isArray
        pure { st with offset := offset, isArray := isArray, message2 := st.message2 ++ token }
    else pure { st with offset := offset }
  else
    let text ← slice token 1 (token.length - 1)
    let listIndex := getCodeListIndex text
    let listLen := codeList.length % 256
    if listIndex < listLen then
      let message2 := st.message2 ++ [(listIndex + 128) % 256]
      if listIndex = CODELISTINDEXTS ∨ listIndex = CODELISTINDEXVALUE
          ∨ listIndex = CODELISTINDEXPATH ∨ listIndex = CODELISTINDEXREQID
          ∨ listIndex = CODELISTINDEXSUBID then
        pure { offset := offset, tokenState := listIndex, isArray := false, message2 := message2 }
      else pure { st with offset := offset, message2 := message2 }
    else if st.tokenState = CODELISTINDEXTS then do
      let c ← compressTS token
      pure { st with offset := offset, tokenState := 255, message2 := st.message2 ++ c }
    else if st.tokenState = CODELISTINDEXVALUE ∨ st.tokenState = CODELISTINDEXREQID
        ∨ st.tokenState = CODELISTINDEXSUBID then do
      let c ← compressValue fl token
      pure { st with offset := offset,
                     tokenState := if st.isArray = false then 255 else st.tokenState,
                     message2 := st.message2 ++ c }
    else if st.tokenState = CODELISTINDEXPATH then do
      let c ← compressPath pathList token
      pure { st with offset := offset, tokenState := 255, message2 := st.message2 ++ c }
    else do
      let next ← message[offset]?
      pure { st with offset := offset,
                     message2 := if next = 58 then st.message2 ++ token ++ [58]
                                 else st.message2 ++ token }

/-- The token loop of `CompressMessage`; every token has at least one byte. -/
def compressLoop (fl : FloatLib) (pathList : List Bytes) (message : Bytes) :
    Nat → CompressState → Option Bytes
  | 0, _ => none
  | fuel + 1, st =>
    if st.offset < message.length then do
      let st2 ← compressStep fl pathList message st
      compressLoop fl pathList message fuel st2
    else pure st.message2

/-- Source `CompressMessage`, over the loaded code list and path list.  Its closing log
statements evaluate `DecompressMessage(message2)` and divide by `len(message2)`. -/
def CompressMessage (fl : FloatLib) (pathList : List Bytes) (message : Bytes) :
    Option Bytes := do
  let message2 ← compressLoop fl pathList message (message.length + 1)
    { offset := 0, tokenState := 255, isArray := false, message2 := [] }
  let _ ← DecompressMessage fl pathList message2
  if message2.length = 0 then none else pure message2

/-! ## Notions used to state the properties -/

/-- The list starts with an ASCII digit. -/
def HeadDigit (l : Bytes) : Prop := ∃ c t, l = c :: t ∧ 48 ≤ c ∧ c ≤ 57

/-- The `w` bytes of `a` in big-endian order (base-256 digits, most significant first). -/
def bigEndian : Nat → Nat → Bytes
  | 0, _ => []
  | w + 1, a => (a / 256 ^ w % 256) :: bigEndian w a

/-- The payload width the encoder chooses for the magnitude `a`. -/
def intWidth (a : Nat) : Nat :=
  if a < 256 then 1 else if a < 65536 then 2 else if a < 16777216 then 3 else 4

/-- The compact form of the integer `n`: tag byte for width and sign, big-endian magnitude. -/
def intEncoding (n : Int) : Bytes :=
  (128 + getCodeListIndex (getIntType (intWidth n.natAbs) (decide (0 ≤ n))))
    :: bigEndian (intWidth n.natAbs) n.natAbs

/-- The quoted literal `"abcy-mo-dThh:mi:sZ"` whose first three year digits are `a`, `b`, `c`. -/
def tsLiteralYear (a b c y mo d h mi s : Nat) : Bytes :=
  [34, 48 + a, 48 + b, 48 + c, 48 + y, 45, 48 + mo / 10, 48 + mo % 10, 45,
   48 + d / 10, 48 + d % 10, 84, 48 + h / 10, 48 + h % 10, 58,
   48 + mi / 10, 48 + mi % 10, 58, 48 + s / 10, 48 + s % 10, 90, 34]

/-! ## Session router (file `managerhandlers.go`) -/

/-- Library `strings.Index(s, sub)`, the scan from position `i` over the remaining bytes. -/
def stringsIndexFrom (sub : Bytes) : Bytes → Nat → Int
  | [], i => if sub = [] then (i : Int) else -1
  | c :: t, i =>
    if sub.isPrefixOf (c :: t) then (i : Int) else stringsIndexFrom sub t (i + 1)

/-- Library `strings.Index(s, sub)`: position of the first occurrence of `sub`, or -1. -/
def stringsIndexStr (s sub : Bytes) : Int := stringsIndexFrom sub s 0

/-- Library `strings.Contains(s, sub)`. -/
def stringsContains (s sub : Bytes) : Bool := decide (0 ≤ stringsIndexStr s sub)

/-- Source `RemoveInternalData`: the response without the `"RouterId":"mgrId?clientId",`
field, and the client id.  `routerIdStart` is the only offset that can be negative; the
slice `response[routerIdStart:]` then faults. -/
def RemoveInternalData (response : Bytes) : Option (Bytes × Int) :=
  let found := stringsIndexStr response (str "RouterId")
  if found - 1 < 0 then none
  else do
    let routerIdStart := (found - 1).toNat
    let fromRouterId ← sliceFrom response routerIdStart
    let clientIdStart := (stringsIndexStr fromRouterId (str "?") + 1).toNat + routerIdStart
    let clientIdStop := NextQuoteMark response clientIdStart
    let clientIdText ← slice response clientIdStart clientIdStop
    let clientId := (Atoi clientIdText).1
    let fromStop ← sliceFrom response clientIdStop
    let routerIdStop := (stringsIndexStr fromStop (str ",") + 1).toNat + clientIdStop
    let head ← slice response 0 routerIdStart
    let rest ← sliceFrom response routerIdStop
    pure (head ++ rest, clientId)

/-- The two channel arrays of the WebSocket hub. -/
inductive HubChannel where
  | clientBackend
  | appClient
  deriving DecidableEq

/-- Source `WsWSsession.TransportHubFrontendWSsession`, one round of its loop for a response
read from the server core: the channel array, the index and the message of the send
statement.  An index outside the array is a fault. -/
def wsHubDeliver (backendLen appLen : Nat) (response : Bytes) :
    Option (HubChannel × Int × Bytes) := do
  let (trimmedResponse, clientId) ← RemoveInternalData response
  if stringsContains trimmedResponse (str "\"subscription\"") then
    if 0 ≤ clientId ∧ clientId < backendLen then
      pure (HubChannel.clientBackend, clientId, trimmedResponse)
    else none
  else
    if 0 ≤ clientId ∧ clientId < appLen then
      pure (HubChannel.appClient, clientId, trimmedResponse)
    else none

/-- What the handler sees of a request: whether its `Upgrade` header is `websocket`, the
subprotocols it offers, and whether `Upgrader.Upgrade` succeeds. -/
structure UpgradeRequest where
  upgradeHeader : Bool
  subprotocols : List Bytes
  upgradeOk : Bool

/-- The two tasks of a WebSocket session, with the slot of their channels. -/
inductive SessionTask where
  | frontend (slot : Int) (isCompressProtocol : Bool)
  | backend (slot : Int) (isCompressProtocol : Bool)
  deriving DecidableEq

/-- The subprotocol loop of the handler: the first of `VISSv2c` and `VISSv2` decides. -/
def selectCompressProtocol : List Bytes → Bool
  | [] => false
  | sub :: rest =>
    if sub = str "VISSv2c" then true
    else if sub = str "VISSv2" then false
    else selectCompressProtocol rest

/-- Source `WsChannel.makeappClientHandler`, one call of the handler it returns: the new
value of `*wsH.serverIndex` and the tasks started.  `appLen` is `len(appClientChannel)`,
`backendLen` is `len(wsH.clientBackendChannel)`; indexing outside an array is a fault. -/
def wsHandler (appLen backendLen : Nat) (serverIndex : Int) (req : UpgradeRequest) :
    Option (Int × List SessionTask) :=
  if req.upgradeHeader then
    let isCompressProtocol := selectCompressProtocol req.subprotocols
    if req.upgradeOk = false then some (serverIndex, [])
    else if serverIndex < appLen then
      if 0 ≤ serverIndex ∧ serverIndex < backendLen then
        some (serverIndex + 1,
          [SessionTask.frontend serverIndex isCompressProtocol,
           SessionTask.backend serverIndex isCompressProtocol])
      else none
    else some (serverIndex, [])
  else some (serverIndex, [])

/-- Source `AppClientChan`: the number of channels of the pool. -/
def AppClientChanLen : Nat := 20

/-- What happens at the WebSocket server: a request reaches the handler, or the session on
a slot ends (`frontendWSAppSession` and `backendWSAppSession` return). -/
inductive PoolEvent where
  | request (req : UpgradeRequest)
  | sessionEnd (slot : Int)

/-- The slot counter, the slots given out so far and the slots whose session is running. -/
structure PoolState where
  serverIndex : Int
  assigned : List Int
  active : List Int

/-- The slots of the frontend tasks in a list of started tasks. -/
def frontendSlots : List SessionTask → List Int
  | [] => []
  | SessionTask.frontend slot _ :: rest => slot :: frontendSlots rest
  | SessionTask.backend _ _ :: rest => frontendSlots rest

/-- One event.  A fault in the handler is recovered by the HTTP server and leaves the state
as it was; the two session tasks have no access to the counter, so their return only ends
the session. -/
def poolStep (appLen backendLen : Nat) (st : PoolState) : PoolEvent → PoolState
  | PoolEvent.request req =>
    match wsHandler appLen backendLen st.serverIndex req with
    | some (serverIndex, tasks) =>
      { serverIndex := serverIndex,
        assigned := st.assigned ++ frontendSlots tasks,
        active := st.active ++ frontendSlots tasks }
    | none => st
  | PoolEvent.sessionEnd slot => { st with active := st.active.erase slot }

/-- Source `WsServer.InitClientServer`: the counter is reset to 0. -/
def InitClientServer : PoolState := { serverIndex := 0, assigned := [], active := [] }

/-- A run of events from a state. -/
def poolRun (appLen backendLen : Nat) (st : PoolState) (events : List PoolEvent) : PoolState :=
  events.foldl (poolStep appLen backendLen) st

/-- The quoted text `key`, then optional blanks, then a colon, starts the text `s`. -/
def keyAtHead (key s : Bytes) : Bool :=
  (quoted key).isPrefixOf s
    && ((s.drop (quoted key).length).dropWhile (fun b => b = 32 || b = 9 || b = 10 || b = 13)).head?
        = some 58

/-- The text `s` contains `key` as an object key: quoted and followed by a colon. -/
def occursAsKey (key : Bytes) : Bytes → Bool
  | [] => false
  | c :: t => keyAtHead key (c :: t) || occursAsKey key t


/-- The response `pre ++ "RouterId":"M?K", ++ post` (the field with both quotes of its key). -/
def taggedResponse (pre m k post : Bytes) : Bytes :=
  pre ++ str "\"RouterId\":\"" ++ m ++ str "?" ++ k ++ str "\"," ++ post

/-- The slots `0, 1, …, n - 1` in the order in which the counter gives them out. -/
def slotsUpTo : Nat → List Int
  | 0 => []
  | n + 1 => slotsUpTo n ++ [(n : Int)]

/-- The names of the value-type tags the encoder can emit: a result of `getIntType`, or one
of `bool`, `float`, `unknown`. -/
def IsTypeTag (t : Bytes) : Prop :=
  (∃ (byteSize : Nat) (isPos : Bool), t = getIntType byteSize isPos)
    ∨ t = str "bool" ∨ t = str "float" ∨ t = str "unknown"

/-! ## Token signature (file `common.go`) -/

/-- The alphabet of the library encoding `base64.RawURLEncoding`. -/
def base64UrlAlphabet : Bytes :=
  str "ABCDEFGHIJKLMNOPQRSTUVWXYZabcdefghijklmnopqrstuvwxyz0123456789-_"

/-- Library `base64.RawURLEncoding.EncodeToString`: 6 bits a character, no padding. -/
def base64RawUrl : Bytes → Bytes
  | a :: b :: c :: rest =>
    base64UrlAlphabet.getD (a / 4) 0 :: base64UrlAlphabet.getD (a % 4 * 16 + b / 16) 0
      :: base64UrlAlphabet.getD (b % 16 * 4 + c / 64) 0 :: base64UrlAlphabet.getD (c % 64) 0
      :: base64RawUrl rest
  | [a, b] =>
    [base64UrlAlphabet.getD (a / 4) 0, base64UrlAlphabet.getD (a % 4 * 16 + b / 16) 0,
     base64UrlAlphabet.getD (b % 16 * 4) 0]
  | [a] => [base64UrlAlphabet.getD (a / 4) 0, base64UrlAlphabet.getD (a % 4 * 16) 0]
  | [] => []

/-- Library `strings.LastIndex` for a one-byte pattern: last position of `c`, or -1. -/
def stringsLastIndex : Bytes → Nat → Int
  | [], _ => -1
  | b :: t, c =>
    let r := stringsLastIndex t c
    if 0 ≤ r then r + 1 else if b = c then 0 else -1

/-- Source `GenerateHmac`: the raw bytes of the HMAC-SHA256 of `input` under `key`; the
library function `hmac` (key first, then message) is a parameter. -/
def GenerateHmac (hmac : Bytes → Bytes → Bytes) (input key : Bytes) : Bytes :=
  hmac key input

/-- Source `VerifyTokenSignature`.  The two slices at the delimiter are always in range. -/
def VerifyTokenSignature (hmac : Bytes → Bytes → Bytes) (token key : Bytes) : Bool :=
  let delimiter := stringsLastIndex token 46
  if delimiter = -1 then false
  else
    let message := token.take delimiter.toNat
    let messageMAC := token.drop (delimiter.toNat + 1)
    let expectedMAC := hmac key message
    decide (messageMAC = base64RawUrl expectedMAC)

/-! ## Query part of a request path (file `managerhandlers.go`) -/

/-- Source `splitToPathQueryKeyValue`: the path, the query key and the query value.  The
byte after `?` selects the key; the index `path[delim+1]` and the slices `path[delim+8:]`,
`path[delim+10:]` fault when the text is too short. -/
def splitToPathQueryKeyValue (path : Bytes) : Option (Bytes × Bytes × Bytes) :=
  let delim := stringsIndexStr path (str "?")
  if delim ≠ -1 then do
    let c ← path[delim.toNat + 1]?
    if c = 102 then do
      let p ← slice path 0 delim.toNat
      let q ← sliceFrom path (delim.toNat + 8)
      pure (p, str "filter", q)
    else if c = 109 then do
      let p ← slice path 0 delim.toNat
      let q ← sliceFrom path (delim.toNat + 10)
      pure (p, str "metadata", q)
    else pure (path, str "", str "")
  else pure (path, str "", str "")

/-! ## Tokens of an uncompressed message -/

/-- A token as `readUncompressedMessage` cuts it: a single byte or a quoted literal. -/
inductive Token where
  | byte (c : Nat)
  | literal (t : Bytes)

/-- The bytes of a token. -/
def Token.bytes : Token → Bytes
  | Token.byte c => [c]
  | Token.literal t => quoted t

/-- A single byte other than the quote mark, or a literal whose text has no quote mark. -/
def Token.WellFormed : Token → Prop
  | Token.byte c => c ≠ 34
  | Token.literal t => 34 ∉ t

/-- The message text of a list of tokens. -/
def tokensText : List Token → Bytes
  | [] => []
  | tok :: rest => tok.bytes ++ tokensText rest

/-- One round of the loop of `CompressMessage` once the token is read: `total` is
`len(message)` and `next` the byte `message[offset]` after the token, if any. -/
def tokenStep (fl : FloatLib) (pathList : List Bytes) (total : Nat) (next : Option Nat)
    (st : CompressState) (token : Bytes) : Option CompressState :=
  let offset := st.offset + token.length
  if token.length = 1 then
    let t0 := token.headD 0
    if t0 ≠ 32 ∧ t0 ≠ 44 then
      if (t0 = 123 ∧ offset = 1) ∨ (t0 = 125 ∧ offset = total) ∨ t0 = 58 then
        pure { st with offset := offset }
      else
        let isArray := if t0 = 93 then false else if t0 = 91 then true else st.isArray
        pure { st with offset := offset, isArray := isArray, message2 := st.message2 ++ token }
    else pure { st with offset := offset }
  else do
    let text ← slice token 1 (token.length - 1)
    let listIndex := getCodeListIndex text
    let listLen := codeList.length % 256
    if listIndex < listLen then
      let message2 := st.message2 ++ [(listIndex + 128) % 256]
      if listIndex = CODELISTINDEXTS ∨ listIndex = CODELISTINDEXVALUE
          ∨ listIndex = CODELISTINDEXPATH ∨ listIndex = CODELISTINDEXREQID
          ∨ listIndex = CODELISTINDEXSUBID then
        pure { offset := offset, tokenState := listIndex, isArray := false, message2 := message2 }
      else pure { st with offset := offset, message2 := message2 }
    else if st.tokenState = CODELISTINDEXTS then do
      let c ← compressTS token
      pure { st with offset := offset, tokenState := 255, message2 := st.message2 ++ c }
    else if st.tokenState = CODELISTINDEXVALUE ∨ st.tokenState = CODELISTINDEXREQID
        ∨ st.tokenState = CODELISTINDEXSUBID then do
      let c ← compressValue fl token
      pure { st with offset := offset,
                     tokenState := if st.isArray = false then 255 else st.tokenState,
                     message2 := st.message2 ++ c }
    else if st.tokenState = CODELISTINDEXPATH then do
      let c ← compressPath pathList token
      pure { st with offset := offset, tokenState := 255, message2 := st.message2 ++ c }
    else do
      let next ← next
      pure { st with offset := offset,
                     message2 := if next = 58 then st.message2 ++ token ++ [58]
                                 else st.message2 ++ token }

/-- The loop of `CompressMessage` over the tokens of the message, `total` being
`len(message)`. -/
def runTokens (fl : FloatLib) (pathList : List Bytes) (total : Nat) :
    CompressState → List Token → Option CompressState
  | st, [] => some st
  | st, tok :: rest =>
    (tokenStep fl pathList total (tokensText rest).head? st tok.bytes).bind
      (fun st2 => runTokens fl pathList total st2 rest)

/-- An encoded value that `decompressOneValue` reads back in full whatever follows it, and
whose first byte is none of the four structural bytes `decompressValue` looks for. -/
def Decodable (fl : FloatLib) (c : Bytes) : Prop :=
  (∃ b t, c = b :: t ∧ b ≠ 91 ∧ b ≠ 93 ∧ b ≠ 44 ∧ b ≠ 123)
    ∧ ∀ rest, ∃ v, decompressOneValue fl (c ++ rest) = some (v, c.length)

/-- The text of the elements of an array: the quoted literals with a comma between every
two consecutive ones. -/
def arrayText : List Bytes → Bytes
  | [] => []
  | [t] => quoted t
  | t :: u :: r => quoted t ++ [44] ++ arrayText (u :: r)

/-- The tokens of the elements of an array. -/
def arrayTokens : List Bytes → List Token
  | [] => []
  | [t] => [Token.literal t]
  | t :: u :: r => Token.literal t :: Token.byte 44 :: arrayTokens (u :: r)

/-- The text of a value literal of one of three kinds: an integer of magnitude below `2^32`
in canonical decimal, a boolean, or a non-empty string (classified 0 by `AnalyzeValueType`)
that has no quote mark and is not a dictionary token. -/
def ValueLiteral (fl : FloatLib) (t : Bytes) : Prop :=
  (∃ n : Int, -(2 ^ 32 : Int) < n ∧ n < 2 ^ 32 ∧ t = Itoa n)
    ∨ t = str "true" ∨ t = str "false"
    ∨ (t ≠ [] ∧ 34 ∉ t ∧ t ∉ codeList ∧ AnalyzeValueType fl t = 0)

/-! ## Paths and URLs (file `common.go`) -/

/-- Library `strings.Replace(s, old, new, -1)` for a one-byte `old` and a one-byte `new`:
every occurrence of the byte is replaced. -/
def stringsReplaceByte (s : Bytes) (old new : Nat) : Bytes :=
  s.map (fun b => if b = old then new else b)

/-- Library `strings.TrimPrefix(s, p)` for a one-byte `p`: `s` without one leading `p`. -/
def stringsTrimPrefixByte (s : Bytes) (p : Nat) : Bytes :=
  match s with
  | b :: t => if b = p then t else b :: t
  | [] => []

/-- Source `UrlToPath`: every `/` becomes `.`, then one leading `.` is removed. -/
def UrlToPath (url : Bytes) : Bytes :=
  stringsTrimPrefixByte (stringsReplaceByte url 47 46) 46

/-- Source `PathToUrl`: every `.` becomes `/`, behind a leading `/`. -/
def PathToUrl (path : Bytes) : Bytes :=
  [47] ++ stringsReplaceByte path 46 47

/-! ## Rounds of the codec loops -/

/-- How a loop run with a bound on its rounds ends: it returns, a round faults, or the
bound is used up. -/
inductive Outcome (ρ : Type) where
  | returned (r : ρ)
  | faulted
  | outOfFuel

/-- The result of a run as the loops of the model give it: a fault and a used-up bound are
both `none`. -/
def Outcome.toOption {ρ : Type} : Outcome ρ → Option ρ
  | Outcome.returned r => some r
  | Outcome.faulted => none
  | Outcome.outOfFuel => none

/-- A loop given by its round, which faults, goes on with a new state or returns; at most
`fuel` rounds are run. -/
def runLoop {σ ρ : Type} (round : σ → Option (σ ⊕ ρ)) : Nat → σ → Outcome ρ
  | 0, _ => Outcome.outOfFuel
  | fuel + 1, s =>
    match round s with
    | none => Outcome.faulted
    | some (Sum.inr r) => Outcome.returned r
    | some (Sum.inl s2) => runLoop round fuel s2

/-- One round of the loop of `CompressMessage`: the test `offset < len(message)` and the
body. -/
def compressRound (fl : FloatLib) (pathList : List Bytes) (message : Bytes)
    (st : CompressState) : Option (CompressState ⊕ Bytes) :=
  if st.offset < message.length then (compressStep fl pathList message st).map Sum.inl
  else some (Sum.inr st.message2)

/-- One round of the loop of `DecompressMessage` on the offset and the text built so far. -/
def decompressRound (fl : FloatLib) (pathList : List Bytes) (message : Bytes)
    (s : Nat × Bytes) : Option ((Nat × Bytes) ⊕ Bytes) :=
  if s.1 < message.length then
    (readCompressedMessage fl pathList message s.1).map
      (fun r => Sum.inl (s.1 + r.2, s.2 ++ r.1))
  else some (Sum.inr s.2)

/-- One round of the loop of `decompressValue` on the index and the text built so far. -/
def valueRound (fl : FloatLib) (valueCompressed : Bytes) (s : Nat × Bytes) :
    Option ((Nat × Bytes) ⊕ (Bytes × Nat)) := do
  let c ← valueCompressed[s.1]?
  if c = 91 ∨ c = 93 ∨ c = 44 ∨ c = 123 then
    if c = 93 ∨ c = 123 then pure (Sum.inr (s.2 ++ [c], s.1 + 1))
    else pure (Sum.inl (s.1 + 1, s.2 ++ [c]))
  else
    let rest ← sliceFrom valueCompressed s.1
    let (unCompressedOneValue, bytesRead) ← decompressOneValue fl rest
    let unCompressedValue := s.2 ++ unCompressedOneValue
    let unCompressedValue :=
      if s.1 + bytesRead < valueCompressed.length
          ∧ valueCompressed[s.1 + bytesRead]? = some c
      then unCompressedValue ++ [44] else unCompressedValue
    if s.1 = 0 then pure (Sum.inr (unCompressedValue, s.1 + bytesRead))
    else pure (Sum.inl (s.1 + bytesRead, unCompressedValue))

/-! ## Bit masks on bytes -/

theorem land_3 (x : Nat) : x &&& 3 = x % 4 :=
  Nat.and_pow_two_sub_one_eq_mod x 2

theorem land_15 (x : Nat) : x &&& 15 = x % 16 :=
  Nat.and_pow_two_sub_one_eq_mod x 4

theorem land_63 (x : Nat) : x &&& 63 = x % 64 :=
  Nat.and_pow_two_sub_one_eq_mod x 6

theorem land_1 (x : Nat) : x &&& 1 = x % 2 :=
  Nat.and_pow_two_sub_one_eq_mod x 1

theorem land_255 (x : Nat) : x &&& 255 = x % 256 :=
  Nat.and_pow_two_sub_one_eq_mod x 8

/-- A mask of `k` one bits shifted left by `s` selects the digits `s .. s+k` in base 2. -/
theorem land_shifted_mask (x s k : Nat) :
    x &&& ((2 ^ k - 1) * 2 ^ s) = x / 2 ^ s % 2 ^ k * 2 ^ s := by
  apply Nat.eq_of_testBit_eq
  intro i
  rw [Nat.mul_comm (2 ^ k - 1), Nat.mul_comm (x / 2 ^ s % 2 ^ k)]
  rw [Nat.testBit_and, Nat.testBit_mul_pow_two, Nat.testBit_mul_pow_two,
    Nat.testBit_two_pow_sub_one, Nat.testBit_mod_two_pow, ← Nat.shiftRight_eq_div_pow,
    Nat.testBit_shiftRight]
  by_cases h : s ≤ i
  · have : s + (i - s) = i := by omega
    simp [h, this, Bool.and_comm]
  · simp [h]

theorem land_0xC0 (x : Nat) : x &&& 0xC0 = x / 64 % 4 * 64 :=
  land_shifted_mask x 6 2

theorem land_0x3E (x : Nat) : x &&& 0x3E = x / 2 % 32 * 2 :=
  land_shifted_mask x 1 5

theorem land_0xF0 (x : Nat) : x &&& 0xF0 = x / 16 % 16 * 16 :=
  land_shifted_mask x 4 4

theorem land_0xFF00 (x : Nat) : x &&& 0xFF00 = x / 256 % 256 * 256 :=
  land_shifted_mask x 8 8

theorem land_0xFF0000 (x : Nat) : x &&& 0xFF0000 = x / 65536 % 256 * 65536 :=
  land_shifted_mask x 16 8

theorem land_0xFF000000 (x : Nat) : x &&& 0xFF000000 = x / 16777216 % 256 * 16777216 :=
  land_shifted_mask x 24 8

/-! ## Timestamp codec -/

theorem twoToOneByte_digits (n : Nat) (hn : n ≤ 99) :
    twoToOneByte [48 + n / 10, 48 + n % 10] = some n := by
  simp only [twoToOneByte, bsub, List.getElem?_cons_zero, List.getElem?_cons_succ,
    Option.bind_eq_bind, Option.some_bind, Option.pure_def, Option.some.injEq]
  omega

theorem compressTS_literal (y mo d h mi s : Nat) (hy : y ≤ 9) (hmo : mo ≤ 12) (hd : d ≤ 31)
    (hh : h ≤ 23) (hmi : mi ≤ 59) (hs : s ≤ 59) :
    compressTS (tsLiteral y mo d h mi s)
      = some [y * 4 + mo / 4, mo % 4 * 64 + d * 2 + h / 16, h % 16 * 16 + mi / 4,
              mi % 4 * 64 + s] := by
  have e1 : slice (tsLiteral y mo d h mi s) 18 20 = some [48 + s / 10, 48 + s % 10] := by
    simp [slice, tsLiteral]
  have e2 : slice (tsLiteral y mo d h mi s) 15 17 = some [48 + mi / 10, 48 + mi % 10] := by
    simp [slice, tsLiteral]
  have e3 : slice (tsLiteral y mo d h mi s) 12 14 = some [48 + h / 10, 48 + h % 10] := by
    simp [slice, tsLiteral]
  have e4 : slice (tsLiteral y mo d h mi s) 9 11 = some [48 + d / 10, 48 + d % 10] := by
    simp [slice, tsLiteral]
  have e5 : slice (tsLiteral y mo d h mi s) 6 8 = some [48 + mo / 10, 48 + mo % 10] := by
    simp [slice, tsLiteral]
  have e6 : (tsLiteral y mo d h mi s)[4]? = some (48 + y) := by
    simp [tsLiteral]
  simp only [compressTS, e1, e2, e3, e4, e5, e6, Option.bind_eq_bind, Option.some_bind,
    twoToOneByte_digits s (by omega), twoToOneByte_digits mi (by omega),
    twoToOneByte_digits h (by omega), twoToOneByte_digits d (by omega),
    twoToOneByte_digits mo (by omega), Option.pure_def, bsub, land_3, land_15]
  simp only [Option.some.injEq, List.cons.injEq, and_true]
  refine ⟨?_, ?_, ?_, ?_⟩ <;> omega

theorem decompressTs_packed (y mo d h mi s : Nat) (hy : y ≤ 9) (hmo : mo ≤ 12) (hd : d ≤ 31)
    (hh : h ≤ 23) (hmi : mi ≤ 59) (hs : s ≤ 59) :
    decompressTs [y * 4 + mo / 4, mo % 4 * 64 + d * 2 + h / 16, h % 16 * 16 + mi / 4,
              mi % 4 * 64 + s] = some (tsLiteral y mo d h mi s) := by
  have a1 : (y * 4 + mo / 4) / 4 = y := by omega
  have a2 : (y * 4 + mo / 4) % 4 = mo / 4 := by omega
  have b1 : (mo % 4 * 64 + d * 2 + h / 16) / 64 % 4 * 64 / 64 = mo % 4 := by omega
  have b2 : (mo % 4 * 64 + d * 2 + h / 16) / 2 % 32 * 2 / 2 = d := by omega
  have b3 : (mo % 4 * 64 + d * 2 + h / 16) % 2 = h / 16 := by omega
  have c1 : (h % 16 * 16 + mi / 4) / 16 % 16 * 16 / 16 = h % 16 := by omega
  have c2 : (h % 16 * 16 + mi / 4) % 16 = mi / 4 := by omega
  have d1 : (mi % 4 * 64 + s) / 64 % 4 * 64 / 64 = mi % 4 := by omega
  have d2 : (mi % 4 * 64 + s) % 64 = s := by omega
  have m1 : (mo % 4 + mo / 4 * 4) % 256 = mo := by omega
  have m2 : (h % 16 + h / 16 * 16) % 256 = h := by omega
  have m3 : (mi % 4 + mi / 4 * 4) % 256 = mi := by omega
  simp only [decompressTs, tsLiteral, List.getElem?_cons_zero, List.getElem?_cons_succ,
    Option.bind_eq_bind, Option.some_bind, Option.pure_def, land_3, land_15, land_63, land_1,
    land_0xC0, land_0x3E, land_0xF0, a1, a2, b1, b2, b3, c1, c2, d1, d2, m1, m2, m3,
    Option.some.injEq, List.cons.injEq, and_true, true_and]
  refine ⟨?_, ?_, ?_, ?_, ?_, ?_, ?_, ?_, ?_, ?_, ?_⟩ <;> omega

/-- C2: every quoted timestamp `"202Y-MM-DDThh:mm:ssZ"` with fields in range is packed by
`compressTS` into exactly 4 bytes, and `decompressTs` gives the literal back. -/
theorem compressTS_decompressTs_roundtrip (y mo d h mi s : Nat) (hy : y ≤ 9)
    (hmo : 1 ≤ mo ∧ mo ≤ 12) (hd : 1 ≤ d ∧ d ≤ 31) (hh : h ≤ 23) (hmi : mi ≤ 59)
    (hs : s ≤ 59) :
    ∃ c, compressTS (tsLiteral y mo d h mi s) = some c ∧ c.length = 4
      ∧ decompressTs c = some (tsLiteral y mo d h mi s) :=
  ⟨_, compressTS_literal y mo d h mi s hy hmo.2 hd.2 hh hmi hs, rfl,
    decompressTs_packed y mo d h mi s hy hmo.2 hd.2 hh hmi hs⟩

/-- The instance `"2024-03-01T12:30:45Z"` of the timestamp round trip. -/
theorem compressTS_decompressTs_roundtrip_witness :
    tsLiteral 4 3 1 12 30 45 = str "\"2024-03-01T12:30:45Z\""
      ∧ ∃ c, compressTS (tsLiteral 4 3 1 12 30 45) = some c ∧ c.length = 4
        ∧ decompressTs c = some (tsLiteral 4 3 1 12 30 45) :=
  ⟨by decide, compressTS_decompressTs_roundtrip 4 3 1 12 30 45 (by decide)
    ⟨by decide, by decide⟩ ⟨by decide, by decide⟩ (by decide) (by decide) (by decide)⟩

/-! ## Decimal conversions -/

theorem parseAcc_digitsAux : ∀ (fuel n : Nat) (acc : Bytes), n < fuel →
    parseAcc 0 (digitsAux fuel n acc) = parseAcc n acc := by
  intro fuel
  induction fuel with
  | zero => intro n acc h; omega
  | succ k ih =>
    intro n acc h
    unfold digitsAux
    split
    · rename_i h10
      have : 48 ≤ 48 + n ∧ 48 + n ≤ 57 := by omega
      simp [parseAcc, this]
    · rename_i h10
      rw [ih (n / 10) _ (by omega)]
      have : 48 ≤ 48 + n % 10 ∧ 48 + n % 10 ≤ 57 := by omega
      have e : n / 10 * 10 + (48 + n % 10 - 48) = n := by omega
      simp only [parseAcc, this, and_self, if_true, e]

theorem headDigit_digitsAux_acc : ∀ (fuel n : Nat) (acc : Bytes), HeadDigit acc →
    HeadDigit (digitsAux fuel n acc) := by
  intro fuel
  induction fuel with
  | zero => intro n acc h; simpa [digitsAux] using h
  | succ k ih =>
    intro n acc h
    unfold digitsAux
    split
    · exact ⟨48 + n, acc, rfl, by omega, by omega⟩
    · exact ih _ _ ⟨48 + n % 10, acc, rfl, by omega, by omega⟩

theorem headDigit_natDec (n : Nat) : HeadDigit (natDec n) := by
  unfold natDec digitsAux
  split
  · exact ⟨48 + n, [], rfl, by omega, by omega⟩
  · exact headDigit_digitsAux_acc _ _ _ ⟨48 + n % 10, [], rfl, by omega, by omega⟩

theorem parseDigits_natDec (n : Nat) : parseDigits (natDec n) = some n := by
  obtain ⟨c, t, h, _, _⟩ := headDigit_natDec n
  have hne : natDec n ≠ [] := by rw [h]; simp
  unfold parseDigits
  rw [if_neg hne]
  unfold natDec
  rw [parseAcc_digitsAux _ _ _ (by omega)]
  rfl

theorem Atoi_Itoa (n : Int) (h : -(2 ^ 63 : Int) ≤ n ∧ n < 2 ^ 63) :
    Atoi (Itoa n) = (n, true) := by
  obtain ⟨c, t, hd, hc1, hc2⟩ := headDigit_natDec n.natAbs
  by_cases hn : n < 0
  · have hI : Itoa n = 45 :: natDec n.natAbs := by simp [Itoa, hn]
    have hb : ¬ (n.natAbs > 2 ^ 63) := by omega
    have hv : -(n.natAbs : Int) = n := by omega
    simp only [Atoi, hI, List.head?_cons, List.tail_cons, true_or, if_true, parseDigits_natDec,
      hb, if_false, hv, decide_True]
  · have hI : Itoa n = natDec n.natAbs := by simp [Itoa, hn]
    have h45 : c ≠ 45 := by omega
    have h43 : c ≠ 43 := by omega
    have hb : ¬ (n.natAbs ≥ 2 ^ 63) := by omega
    have hv : (n.natAbs : Int) = n := by omega
    have hp := parseDigits_natDec n.natAbs
    rw [hd] at hp
    have e45 : ¬ (some c = some 45) := by simpa using h45
    have e43 : ¬ (some c = some 43) := by simpa using h43
    simp only [Atoi, hI, hd, List.head?_cons, e45, e43, or_self, if_false, hp, hb, decide_False,
      hv]


/-! ## Integer values -/

theorem slice_quoted (t : Bytes) : slice (quoted t) 1 ((quoted t).length - 1) = some t := by
  simp [slice, quoted]

theorem wrap64_neg (n : Int) (h : -(2 ^ 63 : Int) < n ∧ n < 2 ^ 63) :
    wrap64 (n * -1) = -n := by
  unfold wrap64
  omega

theorem getIntType_index (w : Nat) (hw : 1 ≤ w ∧ w ≤ 4) (isPos : Bool) :
    getCodeListIndex (getIntType w isPos) = 13 + 2 * w + (if isPos then 1 else 0) := by
  obtain ⟨h1, h4⟩ := hw
  interval_cases w <;> cases isPos <;> decide

theorem compressInt_branches (value : Bytes) (a : Nat) (pos : Bool) (ha : a < 4294967296) :
    (if (a : Int) < 256 then
      some [(getCodeListIndex (getIntType 1 pos) + 128) % 256, byteOfInt (a : Int)]
    else if (a : Int) < 65536 then
      some [(getCodeListIndex (getIntType 2 pos) + 128) % 256,
          (a / 256 % 256 * 256 / 256) % 256, (a % 256) % 256]
    else if (a : Int) < 16777216 then
      some [(getCodeListIndex (getIntType 3 pos) + 128) % 256,
          (a / 65536 % 256 * 65536 / 65536) % 256, (a / 256 % 256 * 256 / 256) % 256,
          (a % 256) % 256]
    else if (a : Int) < 4294967296 then
      some [(getCodeListIndex (getIntType 4 pos) + 128) % 256,
          (a / 16777216 % 256 * 16777216 / 16777216) % 256,
          (a / 65536 % 256 * 65536 / 65536) % 256, (a / 256 % 256 * 256 / 256) % 256,
          (a % 256) % 256]
    else some value)
    = some ((128 + getCodeListIndex (getIntType (intWidth a) pos))
        :: bigEndian (intWidth a) a) := by
  have c1 : ((a : Int) < 256) ↔ a < 256 := by omega
  have c2 : ((a : Int) < 65536) ↔ a < 65536 := by omega
  have c3 : ((a : Int) < 16777216) ↔ a < 16777216 := by omega
  have c4 : ((a : Int) < 4294967296) ↔ a < 4294967296 := by omega
  have e : byteOfInt (a : Int) = a % 256 := by unfold byteOfInt; omega
  simp only [c1, c2, c3, c4, e, intWidth]
  by_cases h1 : a < 256
  · simp only [h1, if_true, bigEndian, Option.some.injEq, List.cons.injEq, and_true]
    cases pos <;> simp [getIntType_index]
  · by_cases h2 : a < 65536
    · simp only [h1, h2, if_true, if_false, bigEndian, Option.some.injEq, List.cons.injEq,
        and_true]
      cases pos <;> simp [getIntType_index]
    · by_cases h3 : a < 16777216
      · simp only [h1, h2, h3, if_true, if_false, bigEndian, Option.some.injEq,
          List.cons.injEq, and_true]
        cases pos <;> simp [getIntType_index]
      · simp only [h1, h2, h3, ha, if_true, if_false, bigEndian, Option.some.injEq,
          List.cons.injEq, and_true]
        cases pos <;> simp [getIntType_index]

theorem compressIntValue_of_parse (value text : Bytes) (n : Int)
    (hs : slice value 1 (value.length - 1) = some text) (hA : (Atoi text).1 = n)
    (hn : -(2 ^ 32 : Int) < n ∧ n < 2 ^ 32) :
    compressIntValue value = some (intEncoding n) := by
  have hw : wrap64 (n * -1) = -n := wrap64_neg n (by omega)
  have hpos : decide (¬ n < 0) = decide (0 ≤ n) := by
    by_cases h : n < 0
    · have h2 : ¬ (0 ≤ n) := by omega
      simp only [h, h2, not_true_eq_false]
    · have h2 : 0 ≤ n := by omega
      simp only [h, h2, not_false_eq_true]
  have habs : (if n < 0 then -n else n) = (n.natAbs : Int) := by
    split <;> omega
  simp only [compressIntValue, hs, hA, Option.bind_eq_bind, Option.some_bind, hw, hpos,
    Option.pure_def, intEncoding, land_0xFF00, land_0xFF0000, land_0xFF000000, land_255, habs,
    Int.toNat_ofNat]
  exact compressInt_branches value n.natAbs _ (by omega)

theorem Itoa_natCast (a : Nat) : Itoa (a : Int) = natDec a := by
  have h : ¬ ((a : Int) < 0) := by omega
  simp only [Itoa, h, if_false, Int.natAbs_ofNat]

theorem quoted_Itoa_nonneg (n : Int) (h : 0 ≤ n) :
    quoted (Itoa n) = str "\"" ++ natDec n.natAbs ++ str "\"" := by
  have h2 : ¬ (n < 0) := by omega
  simp [Itoa, h2, quoted, str]

theorem quoted_Itoa_neg (n : Int) (h : n < 0) :
    quoted (Itoa n) = str "\"-" ++ natDec n.natAbs ++ str "\"" := by
  simp [Itoa, h, quoted, str]

theorem decode_uint (fl : FloatLib) (pos : Bool) (a : Nat) (ha : a < 4294967296)
    (rest : Bytes) :
    decompressOneValue fl
        ((128 + getCodeListIndex (getIntType (intWidth a) pos))
          :: bigEndian (intWidth a) a ++ rest)
      = some ((if pos then str "\"" else str "\"-") ++ natDec a ++ str "\"",
          1 + intWidth a) := by
  unfold intWidth
  by_cases h1 : a < 256
  · cases pos <;>
      simp [h1, getIntType_index, bigEndian, decompressOneValue, codeList, bsub, str,
        Itoa_natCast, Nat.mod_eq_of_lt h1]
  · by_cases h2 : a < 65536
    · have e : (a : Int) / 256 % 256 * 256 + (a : Int) % 256 = (a : Int) := by omega
      cases pos <;>
        simp only [h1, h2, if_true, if_false, getIntType_index 2 (by omega), bigEndian,
          decompressOneValue, codeList, bsub, pow_zero, pow_one, Nat.div_one] <;>
        simp [str, e, Itoa_natCast]
    · by_cases h3 : a < 16777216
      · have e : (a : Int) / 65536 % 256 * 65536 + (a : Int) / 256 % 256 * 256
            + (a : Int) % 256 = (a : Int) := by omega
        cases pos <;>
          simp only [h1, h2, h3, if_true, if_false, getIntType_index 3 (by omega), bigEndian,
            decompressOneValue, codeList, bsub, pow_zero, pow_one, Nat.div_one] <;>
          simp [str, e, Itoa_natCast]
      · have e : (a : Int) / 16777216 % 256 * 16777216 + (a : Int) / 65536 % 256 * 65536
            + (a : Int) / 256 % 256 * 256 + (a : Int) % 256 = (a : Int) := by omega
        cases pos <;>
          simp only [h1, h2, h3, if_true, if_false, getIntType_index 4 (by omega), bigEndian,
            decompressOneValue, codeList, bsub, pow_zero, pow_one, Nat.div_one] <;>
          simp [str, e, Itoa_natCast]

theorem bigEndian_length (w a : Nat) : (bigEndian w a).length = w := by
  induction w with
  | zero => rfl
  | succ k ih => simp [bigEndian, ih]

theorem intWidth_range (a : Nat) : 1 ≤ intWidth a ∧ intWidth a ≤ 4 := by
  unfold intWidth
  split_ifs <;> omega

theorem intWidth_bound (a : Nat) (ha : a < 4294967296) : a < 256 ^ intWidth a := by
  unfold intWidth
  split_ifs <;> omega

theorem intWidth_least (a v : Nat) (hv : 1 ≤ v) (h : a < 256 ^ v) : intWidth a ≤ v := by
  by_contra hlt
  have hr := intWidth_range a
  have hv4 : v < 4 := by omega
  unfold intWidth at hlt
  interval_cases v <;> split_ifs at hlt <;> omega

/-- C3: for `|n| < 2^32` the compact form written by `compressIntValue` for the canonical
quoted decimal of `n`, followed by any bytes, is decoded by `decompressOneValue` to the same
literal, reading the tag byte and the `w` payload bytes the encoder chose. -/
theorem decompressOneValue_compressIntValue (fl : FloatLib) (n : Int) (rest : Bytes)
    (hn : -(2 ^ 32 : Int) < n ∧ n < 2 ^ 32) :
    ∃ c w, compressIntValue (quoted (Itoa n)) = some c ∧ c.length = 1 + w
      ∧ decompressOneValue fl (c ++ rest) = some (quoted (Itoa n), 1 + w) := by
  have hA : (Atoi (Itoa n)).1 = n := by rw [Atoi_Itoa n (by omega)]
  refine ⟨intEncoding n, intWidth n.natAbs,
    compressIntValue_of_parse _ _ n (slice_quoted _) hA hn, ?_, ?_⟩
  · simp [intEncoding, bigEndian_length, Nat.add_comm]
  · have hd := decode_uint fl (decide (0 ≤ n)) n.natAbs (by omega) rest
    unfold intEncoding
    rw [hd]
    by_cases h0 : 0 ≤ n
    · simp only [h0, decide_True, if_true, quoted_Itoa_nonneg n h0]
    · have h1 : n < 0 := by omega
      simp only [h0, decide_False, quoted_Itoa_neg n h1]
      rfl

/-- The instance `n = -70000` (three payload bytes, negative tag) of the integer round trip. -/
theorem decompressOneValue_compressIntValue_witness :
    (-(2 ^ 32 : Int) < -70000 ∧ (-70000 : Int) < 2 ^ 32)
      ∧ ∃ c w, compressIntValue (quoted (Itoa (-70000))) = some c ∧ c.length = 1 + w
        ∧ decompressOneValue ⟨fun _ => none, fun _ => [], fun _ => []⟩
            (c ++ [1, 2, 3]) = some (quoted (Itoa (-70000)), 1 + w) :=
  ⟨by decide, decompressOneValue_compressIntValue _ (-70000) [1, 2, 3] (by decide)⟩

/-- C4: for `|n| < 2^32` the encoder returns `1 + w` bytes, `w` the least width in
`{1,2,3,4}` with `|n| < 256^w`: the tag byte `128 + index` of the tag for `(w, sign)` and
then `|n|` in big-endian order; with the four boundary values of the specification. -/
theorem compressIntValue_width_tag_payload (n : Int)
    (hn : -(2 ^ 32 : Int) < n ∧ n < 2 ^ 32) :
    (∃ w, (1 ≤ w ∧ w ≤ 4) ∧ n.natAbs < 256 ^ w
        ∧ (∀ v, 1 ≤ v → n.natAbs < 256 ^ v → w ≤ v)
        ∧ compressIntValue (quoted (Itoa n))
            = some ((128 + getCodeListIndex (getIntType w (decide (0 ≤ n))))
                :: bigEndian w n.natAbs)
        ∧ (bigEndian w n.natAbs).length = w)
      ∧ compressIntValue (str "\"255\"") = some [144, 255]
      ∧ compressIntValue (str "\"256\"") = some [146, 1, 0]
      ∧ compressIntValue (str "\"-1\"") = some [143, 1]
      ∧ compressIntValue (str "\"4294967295\"") = some [150, 255, 255, 255, 255] := by
  have hA : (Atoi (Itoa n)).1 = n := by rw [Atoi_Itoa n (by omega)]
  refine ⟨⟨intWidth n.natAbs, intWidth_range _, intWidth_bound _ (by omega),
    fun v hv h => intWidth_least _ v hv h,
    compressIntValue_of_parse _ _ n (slice_quoted _) hA hn, bigEndian_length _ _⟩,
    by decide, by decide, by decide, by decide⟩

/-- The instance `n = 65536` (the least value with three payload bytes) of the width rule. -/
theorem compressIntValue_width_tag_payload_witness :
    (-(2 ^ 32 : Int) < 65536 ∧ (65536 : Int) < 2 ^ 32)
      ∧ (∃ w, (1 ≤ w ∧ w ≤ 4) ∧ (65536 : Int).natAbs < 256 ^ w
        ∧ (∀ v, 1 ≤ v → (65536 : Int).natAbs < 256 ^ v → w ≤ v)
        ∧ compressIntValue (quoted (Itoa 65536))
            = some ((128 + getCodeListIndex (getIntType w (decide (0 ≤ (65536 : Int)))))
                :: bigEndian w (65536 : Int).natAbs)
        ∧ (bigEndian w (65536 : Int).natAbs).length = w) :=
  ⟨by decide, (compressIntValue_width_tag_payload 65536 (by decide)).1⟩

/-! ## Path dictionary -/

theorem strLe_refl : ∀ a : Bytes, strLe a a = true
  | [] => rfl
  | x :: xs => by simp [strLe, strLe_refl xs]

theorem strLe_antisymm : ∀ a b : Bytes, strLe a b = true → strLe b a = true → a = b
  | [], [], _, _ => rfl
  | [], _ :: _, _, h => by simp [strLe] at h
  | _ :: _, [], h, _ => by simp [strLe] at h
  | x :: xs, y :: ys, h1, h2 => by
    unfold strLe at h1 h2
    by_cases hxy : x < y
    · have hyx : ¬ y < x := by omega
      simp [hxy, hyx] at h2
    · by_cases hyx : y < x
      · simp [hxy, hyx] at h1
      · have e : x = y := by omega
        simp only [hxy, hyx, if_false] at h1 h2
        rw [e, strLe_antisymm xs ys h1 h2]

theorem strLe_trans : ∀ a b c : Bytes, strLe a b = true → strLe b c = true → strLe a c = true
  | [], _, _, _, _ => by simp [strLe]
  | _ :: _, [], _, h, _ => by simp [strLe] at h
  | _ :: _, _ :: _, [], _, h => by simp [strLe] at h
  | x :: xs, y :: ys, z :: zs, h1, h2 => by
    unfold strLe at h1 h2 ⊢
    by_cases hxy : x < y
    · by_cases hyz : y < z
      · have : x < z := by omega
        simp [this]
      · by_cases hzy : z < y
        · simp [hyz, hzy] at h2
        · have : x < z := by omega
          simp [this]
    · by_cases hyx : y < x
      · simp [hxy, hyx] at h1
      · simp only [hxy, hyx, if_false] at h1
        have e : x = y := by omega
        subst e
        by_cases hxz : x < z
        · simp [hxz]
        · by_cases hzx : z < x
          · simp [hxz, hzx] at h2
          · simp only [hxz, hzx, if_false] at h2 ⊢
            exact strLe_trans xs ys zs h1 h2

/-- The loop of `sort.Search` narrows `[lo, hi)` to the least index at which a monotone
predicate holds. -/
theorem searchLoop_spec (f : Nat → Bool) (n : Nat)
    (mono : ∀ i j, i ≤ j → j < n → f i = true → f j = true) :
    ∀ fuel lo hi, hi - lo ≤ fuel → lo ≤ hi → hi ≤ n →
      (∀ m, m < lo → f m = false) → (∀ m, hi ≤ m → m < n → f m = true) →
      searchLoop f fuel lo hi ≤ n
        ∧ (∀ m, m < searchLoop f fuel lo hi → f m = false)
        ∧ (∀ m, searchLoop f fuel lo hi ≤ m → m < n → f m = true) := by
  intro fuel
  induction fuel with
  | zero =>
    intro lo hi hf hle hn hlo hhi
    have e : lo = hi := by omega
    subst e
    exact ⟨hn, hlo, hhi⟩
  | succ k ih =>
    intro lo hi hf hle hn hlo hhi
    unfold searchLoop
    by_cases hlt : lo < hi
    · simp only [hlt, if_true]
      have hmid1 : lo ≤ (lo + hi) / 2 := by omega
      have hmid2 : (lo + hi) / 2 < hi := by omega
      by_cases hfm : f ((lo + hi) / 2) = true
      · simp only [hfm, Bool.not_true, Bool.false_eq_true, if_false]
        apply ih lo ((lo + hi) / 2) (by omega) hmid1 (by omega) hlo
        intro m hm1 hm2
        exact mono _ m hm1 hm2 hfm
      · have hff : f ((lo + hi) / 2) = false := by simpa using hfm
        simp only [hff, Bool.not_false, if_true]
        apply ih ((lo + hi) / 2 + 1) hi (by omega) (by omega) hn _ hhi
        intro m hm
        by_contra hc
        have hmt : f m = true := by simpa using hc
        have := mono m ((lo + hi) / 2) (by omega) (by omega) hmt
        rw [hff] at this
        exact Bool.false_ne_true this
    · simp only [hlt, if_false]
      have e : lo = hi := by omega
      subst e
      exact ⟨hn, hlo, hhi⟩

theorem sorted_getElem_le (pathList : List Bytes) (hs : SortedPaths pathList) (i j : Nat)
    (a b : Bytes) (hij : i ≤ j) (hi : pathList[i]? = some a) (hj : pathList[j]? = some b) :
    strLe a b = true := by
  obtain ⟨hi1, hi2⟩ := List.getElem?_eq_some_iff.mp hi
  obtain ⟨hj1, hj2⟩ := List.getElem?_eq_some_iff.mp hj
  by_cases e : i = j
  · subst e
    rw [← hi2, ← hj2]
    exact strLe_refl _
  · have := List.pairwise_iff_getElem.mp hs i j hi1 hj1 (by omega)
    rw [← hi2, ← hj2]
    exact this

/-- On a sorted list the search for a text that occurs in it stops at an occurrence. -/
theorem sortSearch_finds (pathList : List Bytes) (p : Bytes) (hs : SortedPaths pathList)
    (hp : p ∈ pathList) :
    sortSearch pathList.length (fun i => strLe p (pathList.getD i [])) < pathList.length
      ∧ pathList[sortSearch pathList.length (fun i => strLe p (pathList.getD i []))]?
          = some p := by
  unfold sortSearch
  obtain ⟨k, hk⟩ := List.mem_iff_getElem?.mp hp
  obtain ⟨hk1, hk2⟩ := List.getElem?_eq_some_iff.mp hk
  have hget : ∀ i, i < pathList.length → pathList[i]? = some (pathList.getD i []) := by
    intro i hi
    simp [List.getElem?_eq_getElem hi]
  have mono : ∀ i j, i ≤ j → j < pathList.length →
      (fun i => strLe p (pathList.getD i [])) i = true →
      (fun i => strLe p (pathList.getD i [])) j = true := by
    intro i j hij hj hfi
    exact strLe_trans _ _ _ hfi
      (sorted_getElem_le pathList hs i j _ _ hij (hget i (by omega)) (hget j hj))
  obtain ⟨_, hlow, hhigh⟩ := searchLoop_spec _ pathList.length mono pathList.length 0
    pathList.length (by omega) (by omega) (by omega) (by intro m hm; omega)
    (by intro m h1 h2; omega)
  have hfk : strLe p (pathList.getD k []) = true := by
    have : pathList.getD k [] = p := by simp [hk]
    simp only [this, strLe_refl]
  have hrk : searchLoop (fun i => strLe p (pathList.getD i [])) pathList.length 0
      pathList.length ≤ k := by
    by_contra hc
    have := hlow k (by omega)
    rw [hfk] at this
    exact Bool.false_ne_true this.symm
  have hr : searchLoop (fun i => strLe p (pathList.getD i [])) pathList.length 0
      pathList.length < pathList.length := by omega
  refine ⟨hr, ?_⟩
  have h1 := hhigh _ (le_refl _) hr
  have h2 := sorted_getElem_le pathList hs _ k _ _ hrk (hget _ hr) hk
  rw [hget _ hr]
  exact congrArg some (strLe_antisymm _ _ h2 h1)

/-- C5: on a sorted path list of at most 65536 entries, a path that occurs in it is
compressed to the two bytes `[i / 256, i mod 256]` of an index `i` holding that path, and
`decompressPath` turns those two bytes back into the identical quoted string. -/
theorem compressPath_hit_roundtrip (pathList : List Bytes) (p : Bytes)
    (hs : SortedPaths pathList) (hl : pathList.length ≤ 65536) (hp : p ∈ pathList) :
    ∃ i : Nat, pathList[i]? = some p
      ∧ compressPath pathList (quoted p) = some [i / 256, i % 256]
      ∧ decompressPath pathList [i / 256, i % 256] = some (quoted p) := by
  obtain ⟨hr, hget⟩ := sortSearch_finds pathList p hs hp
  have hne : ¬ (pathList.length = 0) := by
    intro h0
    rw [List.length_eq_zero] at h0
    rw [h0] at hp
    exact List.not_mem_nil _ hp
  refine ⟨sortSearch pathList.length (fun i => strLe p (pathList.getD i [])), hget, ?_, ?_⟩
  · have e1 : sortSearch pathList.length (fun i => strLe p (pathList.getD i [])) / 256 % 256
        * 256 / 256 % 256
        = sortSearch pathList.length (fun i => strLe p (pathList.getD i [])) / 256 := by
      omega
    simp only [compressPath, hne, if_false, slice_quoted, Option.bind_eq_bind,
      Option.some_bind, hr, hget, and_self, if_true, Option.pure_def, land_0xFF00, land_255,
      e1, Nat.mod_mod]
  · have e2 : sortSearch pathList.length (fun i => strLe p (pathList.getD i [])) / 256 * 256
        + sortSearch pathList.length (fun i => strLe p (pathList.getD i [])) % 256
        = sortSearch pathList.length (fun i => strLe p (pathList.getD i [])) := by
      omega
    simp only [decompressPath, List.getElem?_cons_zero, List.getElem?_cons_succ,
      Option.bind_eq_bind, Option.some_bind, e2, hget, Option.pure_def]
    rfl

/-- A two-entry sorted path list and its second entry, for the path hit. -/
theorem compressPath_hit_roundtrip_witness :
    SortedPaths [str "Vehicle.Acceleration", str "Vehicle.Speed"]
      ∧ [str "Vehicle.Acceleration", str "Vehicle.Speed"].length ≤ 65536
      ∧ str "Vehicle.Speed" ∈ [str "Vehicle.Acceleration", str "Vehicle.Speed"]
      ∧ ∃ i : Nat, [str "Vehicle.Acceleration", str "Vehicle.Speed"][i]? = some (str "Vehicle.Speed")
        ∧ compressPath [str "Vehicle.Acceleration", str "Vehicle.Speed"]
            (quoted (str "Vehicle.Speed")) = some [i / 256, i % 256]
        ∧ decompressPath [str "Vehicle.Acceleration", str "Vehicle.Speed"] [i / 256, i % 256]
            = some (quoted (str "Vehicle.Speed")) :=
  ⟨by unfold SortedPaths; decide, by decide, by decide,
    compressPath_hit_roundtrip _ _ (by unfold SortedPaths; decide) (by decide) (by decide)⟩

/-- C6: on a sorted path list, a quoted path whose text does not occur in the list is
returned by `compressPath` unchanged. -/
theorem compressPath_miss_unchanged (pathList : List Bytes) (p : Bytes)
    (_hs : SortedPaths pathList) (hp : p ∉ pathList) :
    compressPath pathList (quoted p) = some (quoted p) := by
  unfold compressPath
  by_cases h0 : pathList.length = 0
  · simp only [h0, if_true]
  · have hno : ∀ i : Nat, ¬ (pathList[i]? = some p) := by
      intro i hi
      exact hp (List.mem_iff_getElem?.mpr ⟨i, hi⟩)
    simp only [h0, if_false, slice_quoted, Option.bind_eq_bind, Option.some_bind, hno,
      and_false, Option.pure_def]

/-- A two-entry sorted path list and a path that is not in it, for the path miss. -/
theorem compressPath_miss_unchanged_witness :
    SortedPaths [str "Vehicle.Acceleration", str "Vehicle.Speed"]
      ∧ str "Vehicle.Foo" ∉ [str "Vehicle.Acceleration", str "Vehicle.Speed"]
      ∧ compressPath [str "Vehicle.Acceleration", str "Vehicle.Speed"]
          (quoted (str "Vehicle.Foo")) = some (quoted (str "Vehicle.Foo")) :=
  ⟨by unfold SortedPaths; decide, by decide,
    compressPath_miss_unchanged _ _ (by unfold SortedPaths; decide) (by decide)⟩

/-! ## Opaque and boolean values -/

theorem stringsIndex_append_quote (cs rest : Bytes) (h : 34 ∉ cs) :
    stringsIndex (cs ++ 34 :: rest) 34 = (cs.length : Int) := by
  induction cs with
  | nil => simp [stringsIndex]
  | cons c t ih =>
    have hc : c ≠ 34 := fun e => h (by simp [e])
    have ht : 34 ∉ t := fun e => h (List.mem_cons_of_mem _ e)
    have hneg : ¬ ((t.length : Int) < 0) := by omega
    have ih2 : stringsIndex (t.append (34 :: rest)) 34 = (t.length : Int) := ih ht
    simp only [List.cons_append, stringsIndex, hc, if_false, ih2, hneg, List.length_cons,
      Nat.cast_add, Nat.cast_one]

/-- An opaque literal with non-empty content free of quote marks is decoded back whatever
follows it. -/
theorem decompressOneValue_compressOtherValue_nonempty (fl : FloatLib) (c : Nat)
    (cs rest : Bytes) (h : 34 ∉ cs) :
    decompressOneValue fl (compressOtherValue (quoted (c :: cs)) ++ rest)
      = some (quoted (c :: cs), (quoted (c :: cs)).length + 1) := by
  have e : compressOtherValue (quoted (c :: cs)) ++ rest
      = 153 :: 34 :: c :: (cs ++ 34 :: rest) := by
    have : getCodeListIndex (str "unknown") = 25 := by decide
    simp [compressOtherValue, quoted, this]
  have hidx : (stringsIndex (cs ++ 34 :: rest) 34 + 4).toNat = cs.length + 4 := by
    rw [stringsIndex_append_quote cs rest h]
    omega
  have htag : codeList[bsub 153 128]? = some (str "unknown") := by decide
  have hs1 : sliceFrom (153 :: 34 :: c :: (cs ++ 34 :: rest)) 3 = some (cs ++ 34 :: rest) := by
    simp [sliceFrom]
  have hs2 : slice (153 :: 34 :: c :: (cs ++ 34 :: rest)) 1 (cs.length + 4)
      = some (34 :: c :: (cs ++ [34])) := by
    simp [slice, List.take_append_eq_append_take]
  rw [e]
  simp only [decompressOneValue, List.getElem?_cons_zero, Option.bind_eq_bind,
    Option.some_bind, htag, hs1, hidx, hs2]
  simp [str, quoted]

/-- C8 (evaluation at the failing input): the empty literal `""` is encoded as the tag byte
and the literal, but when a quote mark follows, the decoder scans from the fourth byte on and
returns three quote marks and 4 bytes read, not the literal and 3. -/
theorem decompressOneValue_compressOtherValue_empty (fl : FloatLib) :
    compressOtherValue (str "\"\"") = (128 + getCodeListIndex (str "unknown")) :: str "\"\""
      ∧ decompressOneValue fl (compressOtherValue (str "\"\"") ++ str "\"")
          = some (str "\"\"\"", 4) := by
  have e : compressOtherValue (str "\"\"") ++ str "\"" = [153, 34, 34, 34] := by decide
  refine ⟨by decide, ?_⟩
  rw [e]
  simp [decompressOneValue, codeList, bsub, str, sliceFrom, slice, stringsIndex]

/-- C9: `compressBoolValue` maps `"true"` to the bool tag and the byte 1, `"false"` to the
bool tag and the byte 0, and `decompressOneValue` reads either back, with 2 bytes read,
whatever follows. -/
theorem decompressOneValue_compressBoolValue :
    compressBoolValue (str "\"true\"") = [128 + getCodeListIndex (str "bool"), 1]
      ∧ compressBoolValue (str "\"false\"") = [128 + getCodeListIndex (str "bool"), 0]
      ∧ ∀ (fl : FloatLib) (rest : Bytes),
          decompressOneValue fl (compressBoolValue (str "\"true\"") ++ rest)
              = some (str "\"true\"", 2)
            ∧ decompressOneValue fl (compressBoolValue (str "\"false\"") ++ rest)
              = some (str "\"false\"", 2) := by
  have e1 : compressBoolValue (str "\"true\"") = [151, 1] := by decide
  have e2 : compressBoolValue (str "\"false\"") = [151, 0] := by decide
  refine ⟨by decide, by decide, fun fl rest => ⟨?_, ?_⟩⟩
  · rw [e1]
    simp [decompressOneValue, codeList, bsub, str]
  · rw [e2]
    simp [decompressOneValue, codeList, bsub, str]

/-! ## Integers beyond 32 bits -/

/-- A literal whose value has magnitude at least `2^32`, the most negative 64-bit value
apart, is returned unchanged by `compressIntValue`. -/
theorem compressIntValue_passthrough (value text : Bytes) (n : Int)
    (hs : slice value 1 (value.length - 1) = some text) (hA : (Atoi text).1 = n)
    (hmag : n ≤ -(2 ^ 32 : Int) ∨ (2 ^ 32 : Int) ≤ n)
    (hn : -(2 ^ 63 : Int) < n ∧ n < 2 ^ 63) :
    compressIntValue value = some value := by
  have hw : wrap64 (n * -1) = -n := wrap64_neg n hn
  have h1 : ¬ ((if n < 0 then -n else n) < 256) := by split <;> omega
  have h2 : ¬ ((if n < 0 then -n else n) < 65536) := by split <;> omega
  have h3 : ¬ ((if n < 0 then -n else n) < 16777216) := by split <;> omega
  have h4 : ¬ ((if n < 0 then -n else n) < 4294967296) := by split <;> omega
  simp only [compressIntValue, hs, hA, Option.bind_eq_bind, Option.some_bind, hw, h1, h2, h3,
    h4, if_false, Option.pure_def]

/-- C10 (evaluation at the failing input): the most negative 64-bit literal parses without
error, its negation wraps around to itself, the test `intVal < 256` succeeds and the
encoder returns the tagged pair `[143, 0]` instead of the input bytes; `4294967296` is
returned unchanged. -/
theorem compressIntValue_minInt64 :
    Atoi (str "-9223372036854775808") = (-9223372036854775808, true)
      ∧ compressIntValue (str "\"-9223372036854775808\"") = some [143, 0]
      ∧ compressIntValue (str "\"4294967296\"") = some (str "\"4294967296\"") := by
  decide

/-! ## Whole messages -/

set_option maxRecDepth 100000 in
/-- C1 (evaluation at the failing input): with the path list `["Vehicle.Speed"]` the request
`{"action":"get","path":"Vehicle.Speed","requestId":"125"}` is compressed to 8 bytes whose
last byte is the payload 125, the code of `}`; `DecompressMessage` takes it for the closing
brace and returns the text without its final `}`, which is not JSON. -/
theorem decompress_compress_drops_brace (fl : FloatLib) :
    CompressMessage fl [str "Vehicle.Speed"]
        (str "\x7b\"action\":\"get\",\"path\":\"Vehicle.Speed\",\"requestId\":\"125\"\x7d")
      = some [128, 138, 132, 0, 0, 129, 144, 125]
    ∧ DecompressMessage fl [str "Vehicle.Speed"] [128, 138, 132, 0, 0, 129, 144, 125]
      = some (str "\x7b\"action\":\"get\",\"path\":\"Vehicle.Speed\",\"requestId\":\"125\"") :=
  ⟨rfl, rfl⟩

set_option maxRecDepth 100000 in
/-- C7 (evaluation at the failing input): with the path list `["Vehicle.Speed"]` the token
loop of `CompressMessage` leaves the absent path `"Vehicle.Foo"` as literal text after the
path code 132; `DecompressMessage` reads the first two literal bytes as the index
`34 * 256 + 86`, which is out of range, so it faults, and so does `CompressMessage`, whose
closing log statement decompresses its own output. -/
theorem decompress_absent_path_faults (fl : FloatLib) :
    compressLoop fl [str "Vehicle.Speed"]
        (str "\x7b\"action\":\"get\",\"path\":\"Vehicle.Foo\",\"requestId\":\"1\"\x7d")
        ((str "\x7b\"action\":\"get\",\"path\":\"Vehicle.Foo\",\"requestId\":\"1\"\x7d").length
          + 1)
        { offset := 0, tokenState := 255, isArray := false, message2 := [] }
      = some ([128, 138, 132] ++ str "\"Vehicle.Foo\"" ++ [129, 144, 1])
    ∧ DecompressMessage fl [str "Vehicle.Speed"]
        ([128, 138, 132] ++ str "\"Vehicle.Foo\"" ++ [129, 144, 1]) = none
    ∧ CompressMessage fl [str "Vehicle.Speed"]
        (str "\x7b\"action\":\"get\",\"path\":\"Vehicle.Foo\",\"requestId\":\"1\"\x7d") = none :=
  ⟨rfl, rfl, rfl⟩

/-! ## Values the integer encoder leaves uncoded -/

/-- A value that starts with a quote mark instead of a type tag cannot be decoded: the
byte 34 selects entry `34 - 128 = 162` (in byte arithmetic) of the 26-entry code list. -/
theorem decompressValue_untagged (fl : FloatLib) (t : Bytes) :
    decompressValue fl (quoted t) = none := by
  have h : codeList[bsub 34 128]? = none := by decide
  have h1 : decompressOneValue fl (34 :: (t ++ [34])) = none := by
    simp only [decompressOneValue, List.getElem?_cons_zero, Option.bind_eq_bind,
      Option.some_bind, h, Option.none_bind]
  have h2 : sliceFrom (34 :: (t ++ [34])) 0 = some (34 :: (t ++ [34])) := by
    simp [sliceFrom]
  have hc : ¬ ((34 : Nat) = 91 ∨ (34 : Nat) = 93 ∨ (34 : Nat) = 44 ∨ (34 : Nat) = 123) := by
    decide
  simp only [decompressValue, quoted, List.length_cons, decompressValueLoop,
    List.getElem?_cons_zero, Option.bind_eq_bind, Option.some_bind, hc, if_false, h2, h1,
    Option.none_bind]

/-- C11 (evaluation at the failing input): `compressValue` classifies `"4294967296"` as an
integer and returns what `compressIntValue` returns, the literal itself with no tag, not the
`unknown` tag followed by the literal; `decompressValue` faults on that output. -/
theorem compressValue_large_int_untagged (fl : FloatLib) :
    compressValue fl (str "\"4294967296\"") = some (str "\"4294967296\"")
      ∧ compressOtherValue (str "\"4294967296\"") = 153 :: str "\"4294967296\""
      ∧ decompressValue fl (str "\"4294967296\"") = none := by
  have hq : str "\"4294967296\"" = quoted (str "4294967296") := by decide
  have hs : slice (str "\"4294967296\"") 1 ((str "\"4294967296\"").length - 1)
      = some (str "4294967296") := by decide
  have hA : (Atoi (str "4294967296")).2 = true := by decide
  have hc : compressIntValue (str "\"4294967296\"") = some (str "\"4294967296\"") := by decide
  refine ⟨?_, by decide, ?_⟩
  · simp only [compressValue, hs, Option.bind_eq_bind, Option.some_bind, AnalyzeValueType, hA,
      if_true, hc]
  · rw [hq]
    exact decompressValue_untagged fl _

/-! ## Timestamps outside 2020 to 2029 -/

theorem compressTS_literalYear (a b c y mo d h mi s : Nat) (hy : y ≤ 9) (hmo : mo ≤ 12)
    (hd : d ≤ 31) (hh : h ≤ 23) (hmi : mi ≤ 59) (hs : s ≤ 59) :
    compressTS (tsLiteralYear a b c y mo d h mi s)
      = some [y * 4 + mo / 4, mo % 4 * 64 + d * 2 + h / 16, h % 16 * 16 + mi / 4,
              mi % 4 * 64 + s] := by
  have e1 : slice (tsLiteralYear a b c y mo d h mi s) 18 20
      = some [48 + s / 10, 48 + s % 10] := by
    simp [slice, tsLiteralYear]
  have e2 : slice (tsLiteralYear a b c y mo d h mi s) 15 17
      = some [48 + mi / 10, 48 + mi % 10] := by
    simp [slice, tsLiteralYear]
  have e3 : slice (tsLiteralYear a b c y mo d h mi s) 12 14
      = some [48 + h / 10, 48 + h % 10] := by
    simp [slice, tsLiteralYear]
  have e4 : slice (tsLiteralYear a b c y mo d h mi s) 9 11
      = some [48 + d / 10, 48 + d % 10] := by
    simp [slice, tsLiteralYear]
  have e5 : slice (tsLiteralYear a b c y mo d h mi s) 6 8
      = some [48 + mo / 10, 48 + mo % 10] := by
    simp [slice, tsLiteralYear]
  have e6 : (tsLiteralYear a b c y mo d h mi s)[4]? = some (48 + y) := by
    simp [tsLiteralYear]
  simp only [compressTS, e1, e2, e3, e4, e5, e6, Option.bind_eq_bind, Option.some_bind,
    twoToOneByte_digits s (by omega), twoToOneByte_digits mi (by omega),
    twoToOneByte_digits h (by omega), twoToOneByte_digits d (by omega),
    twoToOneByte_digits mo (by omega), Option.pure_def, bsub, land_3, land_15]
  simp only [Option.some.injEq, List.cons.injEq, and_true]
  refine ⟨?_, ?_, ?_, ?_⟩ <;> omega

/-- Whatever 4 bytes it is given, `decompressTs` returns 22 bytes that start with `"202` and
end with `Z"`. -/
theorem decompressTs_shape (p out : Bytes) (h : decompressTs p = some out) :
    out.length = 22 ∧ out.take 4 = str "\"202" ∧ out.drop 20 = str "Z\"" := by
  unfold decompressTs at h
  cases h0 : p[0]? with
  | none => simp [h0] at h
  | some c0 =>
    cases h1 : p[1]? with
    | none => simp [h0, h1] at h
    | some c1 =>
      cases h2 : p[2]? with
      | none => simp [h0, h1, h2] at h
      | some c2 =>
        cases h3 : p[3]? with
        | none => simp [h0, h1, h2, h3] at h
        | some c3 =>
          simp only [h0, h1, h2, h3, Option.bind_eq_bind, Option.some_bind, Option.pure_def,
            Option.some.injEq] at h
          subst h
          have e1 : str "\"202" = [34, 50, 48, 50] := by decide
          have e2 : str "Z\"" = [90, 34] := by decide
          rw [e1, e2]
          exact ⟨rfl, rfl, rfl⟩

/-- C12: a well-formed timestamp whose first three year digits `a b c` are not `2 0 2` does
not round-trip: `decompressTs (compressTS ts)` is `ts` with those three digits replaced by
`202`, which differs from `ts`; and every decoded timestamp starts with `"202` and ends with
`Z"`. -/
theorem compressTS_decompressTs_other_year (a b c y mo d h mi s : Nat)
    (_ha : a ≤ 9) (_hb : b ≤ 9) (_hc : c ≤ 9) (hne : ¬ (a = 2 ∧ b = 0 ∧ c = 2)) (hy : y ≤ 9)
    (hmo : 1 ≤ mo ∧ mo ≤ 12) (hd : 1 ≤ d ∧ d ≤ 31) (hh : h ≤ 23) (hmi : mi ≤ 59)
    (hs : s ≤ 59) :
    (∃ p, compressTS (tsLiteralYear a b c y mo d h mi s) = some p
        ∧ decompressTs p = some (tsLiteralYear 2 0 2 y mo d h mi s)
        ∧ tsLiteralYear 2 0 2 y mo d h mi s ≠ tsLiteralYear a b c y mo d h mi s)
      ∧ ∀ p out, decompressTs p = some out →
          out.length = 22 ∧ out.take 4 = str "\"202" ∧ out.drop 20 = str "Z\"" := by
  refine ⟨⟨_, compressTS_literalYear a b c y mo d h mi s hy hmo.2 hd.2 hh hmi hs,
    decompressTs_packed y mo d h mi s hy hmo.2 hd.2 hh hmi hs, ?_⟩,
    fun p out h => decompressTs_shape p out h⟩
  intro heq
  simp only [tsLiteralYear, List.cons.injEq, true_and] at heq
  omega

/-- The instance `"1999-12-31T23:59:59Z"`, which is decoded as `"2029-12-31T23:59:59Z"`. -/
theorem compressTS_decompressTs_other_year_witness :
    tsLiteralYear 1 9 9 9 12 31 23 59 59 = str "\"1999-12-31T23:59:59Z\""
      ∧ tsLiteralYear 2 0 2 9 12 31 23 59 59 = str "\"2029-12-31T23:59:59Z\""
      ∧ (∃ p, compressTS (tsLiteralYear 1 9 9 9 12 31 23 59 59) = some p
        ∧ decompressTs p = some (tsLiteralYear 2 0 2 9 12 31 23 59 59)
        ∧ tsLiteralYear 2 0 2 9 12 31 23 59 59 ≠ tsLiteralYear 1 9 9 9 12 31 23 59 59) :=
  ⟨by decide, by decide,
    (compressTS_decompressTs_other_year 1 9 9 9 12 31 23 59 59 (by decide) (by decide)
      (by decide) (by decide) (by decide) ⟨by decide, by decide⟩ ⟨by decide, by decide⟩
      (by decide) (by decide) (by decide)).1⟩

/-! ## Session router: the correlation tag -/

theorem isPrefixOf_append_of_not_mem (q : Nat) : ∀ (sub a b : Bytes),
    sub.isPrefixOf (a ++ q :: b) = true → q ∉ sub → sub.isPrefixOf a = true
  | [], a, _, _, _ => by simp
  | x :: xs, [], b, h, hq => by
    have hx : x ≠ q := fun e => hq (by simp [e])
    simp [List.isPrefixOf, hx] at h
  | x :: xs, y :: ys, b, h, hq => by
    have hq2 : q ∉ xs := fun e => hq (List.mem_cons_of_mem _ e)
    simp only [List.cons_append, List.isPrefixOf, Bool.and_eq_true] at h ⊢
    exact ⟨h.1, isPrefixOf_append_of_not_mem q xs ys b h.2 hq2⟩

theorem stringsIndexFrom_nonneg_or (sub : Bytes) : ∀ (s : Bytes) (i : Nat),
    stringsIndexFrom sub s i = -1 ∨ (i : Int) ≤ stringsIndexFrom sub s i
  | [], i => by
    unfold stringsIndexFrom
    split
    · exact Or.inr (le_refl _)
    · exact Or.inl rfl
  | c :: t, i => by
    unfold stringsIndexFrom
    split
    · exact Or.inr (le_refl _)
    · rcases stringsIndexFrom_nonneg_or sub t (i + 1) with h | h
      · exact Or.inl h
      · exact Or.inr (by omega)

/-- The text `sub`, which has no byte `q`, is first found right after the `q` that follows a
text without `sub`. -/
theorem stringsIndexFrom_after (sub rest : Bytes) (q : Nat) (hne : sub ≠ []) (hq : q ∉ sub) :
    ∀ (pre : Bytes) (i : Nat), stringsIndexFrom sub pre i < 0 →
      stringsIndexFrom sub (pre ++ q :: (sub ++ rest)) i = (i : Int) + pre.length + 1
  | [], i, _ => by
    obtain ⟨x, xs, hx⟩ := List.exists_cons_of_ne_nil hne
    have hxq : x ≠ q := fun e => hq (by simp [hx, e])
    have h1 : sub.isPrefixOf (q :: (sub ++ rest)) = false := by
      rw [hx]
      simp [List.isPrefixOf, hxq]
    have h2 : sub.isPrefixOf (x :: (xs ++ rest)) = true := by
      rw [hx]
      simp [List.isPrefixOf]
    simp only [List.nil_append, stringsIndexFrom, h1, Bool.false_eq_true, if_false]
    rw [hx, List.cons_append, ← hx]
    simp only [stringsIndexFrom, h2, if_true, List.length_nil]
    push_cast
    omega
  | c :: t, i, h => by
    unfold stringsIndexFrom at h
    have h1 : sub.isPrefixOf (c :: t) = false := by
      by_contra hc
      simp only [Bool.not_eq_false] at hc
      rw [if_pos hc] at h
      omega
    rw [h1] at h
    simp only [Bool.false_eq_true, if_false] at h
    have h2 : sub.isPrefixOf (c :: t ++ q :: (sub ++ rest)) = false := by
      by_contra hc
      simp only [Bool.not_eq_false] at hc
      have := isPrefixOf_append_of_not_mem q sub (c :: t) (sub ++ rest) hc hq
      rw [h1] at this
      exact Bool.false_ne_true this
    have ih := stringsIndexFrom_after sub rest q hne hq t (i + 1) h
    simp only [List.cons_append] at h2 ⊢
    simp only [stringsIndexFrom, h2, Bool.false_eq_true, if_false, ih, List.length_cons]
    push_cast
    omega

/-- A single byte is first found right after a text that does not have it. -/
theorem stringsIndexFrom_byte (q : Nat) (b : Bytes) : ∀ (a : Bytes) (i : Nat), q ∉ a →
    stringsIndexFrom [q] (a ++ q :: b) i = (i : Int) + a.length
  | [], i, _ => by simp [stringsIndexFrom, List.isPrefixOf]
  | c :: t, i, h => by
    have hc : q ≠ c := fun e => h (by simp [e])
    have ht : q ∉ t := fun e => h (List.mem_cons_of_mem _ e)
    have ih := stringsIndexFrom_byte q b t (i + 1) ht
    have hp : List.isPrefixOf [q] (c :: (t ++ q :: b)) = false := by
      simp [List.isPrefixOf, hc]
    rw [List.cons_append, stringsIndexFrom, hp, if_neg Bool.false_ne_true, ih,
      List.length_cons]
    push_cast
    omega

theorem nextQuoteFrom_append (b : Bytes) : ∀ (a : Bytes) (i : Nat), 34 ∉ a →
    nextQuoteFrom (a ++ 34 :: b) i = some (i + a.length)
  | [], i, _ => by simp [nextQuoteFrom]
  | c :: t, i, h => by
    have hc : c ≠ 34 := fun e => h (by simp [e])
    have ht : 34 ∉ t := fun e => h (List.mem_cons_of_mem _ e)
    rw [List.cons_append, nextQuoteFrom, if_neg hc, nextQuoteFrom_append b t (i + 1) ht,
      List.length_cons]
    congr 1
    omega

theorem digits_digitsAux : ∀ (fuel n : Nat) (acc : Bytes),
    (∀ b ∈ acc, 48 ≤ b ∧ b ≤ 57) → ∀ b ∈ digitsAux fuel n acc, 48 ≤ b ∧ b ≤ 57 := by
  intro fuel
  induction fuel with
  | zero => intro n acc h; simpa [digitsAux] using h
  | succ k ih =>
    intro n acc h
    unfold digitsAux
    split
    · intro b hb
      rcases List.mem_cons.mp hb with e | e
      · omega
      · exact h b e
    · apply ih
      intro b hb
      rcases List.mem_cons.mp hb with e | e
      · omega
      · exact h b e

theorem digits_natDec (n : Nat) : ∀ b ∈ natDec n, 48 ≤ b ∧ b ≤ 57 :=
  digits_digitsAux _ _ [] (by simp)


theorem drop_append_len (a b : Bytes) (n : Nat) (h : n = a.length) : (a ++ b).drop n = b := by
  subst h
  simp

theorem take_append_len (a b : Bytes) (n : Nat) (h : n = a.length) : (a ++ b).take n = a := by
  subst h
  simp

/-- The run of `RemoveInternalData` on a tagged response whose client id text `k` is free of
quote marks: the field is cut out and the client id is what `Atoi` makes of `k`. -/
theorem RemoveInternalData_tagged (pre m k post : Bytes)
    (hpre : stringsContains pre (str "RouterId") = false) (hm : 63 ∉ m) (hk : 34 ∉ k) :
    RemoveInternalData (taggedResponse pre m k post) = some (pre ++ post, (Atoi k).1) := by
  have hRI : str "RouterId" = [82, 111, 117, 116, 101, 114, 73, 100] := by decide
  have hshape : taggedResponse pre m k post
      = pre ++ 34 :: (str "RouterId" ++ ([34, 58, 34] ++ (m ++ 63 :: (k ++ 34 :: 44 :: post)))) := by
    have e1 : str "\"RouterId\":\"" = 34 :: (str "RouterId" ++ [34, 58, 34]) := by decide
    have e2 : str "?" = [63] := by decide
    have e3 : str "\"," = [34, 44] := by decide
    simp [taggedResponse, e1, e2, e3]
  have hneg : stringsIndexFrom (str "RouterId") pre 0 < 0 := by
    have := hpre
    simp only [stringsContains, stringsIndexStr, decide_eq_false_iff_not, not_le] at this
    exact this
  have hfound : stringsIndexStr (taggedResponse pre m k post) (str "RouterId")
      = (pre.length : Int) + 1 := by
    rw [hshape]
    unfold stringsIndexStr
    rw [stringsIndexFrom_after (str "RouterId") _ 34 (by rw [hRI]; simp) (by rw [hRI]; decide)
      pre 0 hneg]
    push_cast
    omega
  have hlen : (taggedResponse pre m k post).length
      = pre.length + (12 + m.length + 1 + k.length + 2 + post.length) := by
    rw [hshape, hRI]
    simp
    omega
  -- the four cuts of the response
  have hcut1 : taggedResponse pre m k post
      = pre ++ ((34 :: (str "RouterId" ++ ([34, 58, 34] ++ m))) ++ 63 :: (k ++ 34 :: 44 :: post)) := by
    rw [hshape]
    simp
  have hcut2 : taggedResponse pre m k post
      = (pre ++ (34 :: (str "RouterId" ++ ([34, 58, 34] ++ m))) ++ [63])
          ++ (k ++ 34 :: 44 :: post) := by
    rw [hshape]
    simp
  have hcut3 : taggedResponse pre m k post
      = (pre ++ (34 :: (str "RouterId" ++ ([34, 58, 34] ++ m))) ++ [63] ++ k)
          ++ ([34] ++ 44 :: post) := by
    rw [hshape]
    simp
  have hcut4 : taggedResponse pre m k post
      = (pre ++ (34 :: (str "RouterId" ++ ([34, 58, 34] ++ m))) ++ [63] ++ k ++ [34, 44])
          ++ post := by
    rw [hshape]
    simp
  have hRIlen : (str "RouterId").length = 8 := by decide
  have hAlen : (34 :: (str "RouterId" ++ ([34, 58, 34] ++ m))).length = 12 + m.length := by
    simp only [List.length_append, List.length_cons, List.length_nil, hRIlen]
    omega
  have hA63 : 63 ∉ (34 :: (str "RouterId" ++ ([34, 58, 34] ++ m))) := by
    rw [hRI]
    simpa using hm
  have hfrom : sliceFrom (taggedResponse pre m k post) pre.length
      = some ((34 :: (str "RouterId" ++ ([34, 58, 34] ++ m))) ++ 63 :: (k ++ 34 :: 44 :: post)) := by
    unfold sliceFrom
    rw [if_pos (by rw [hlen]; omega)]
    rw [hcut1, drop_append_len _ _ _ rfl]
  have hq : stringsIndexStr
      ((34 :: (str "RouterId" ++ ([34, 58, 34] ++ m))) ++ 63 :: (k ++ 34 :: 44 :: post)) (str "?")
      = (12 + m.length : Nat) := by
    have e2 : str "?" = [63] := by decide
    unfold stringsIndexStr
    rw [e2, stringsIndexFrom_byte 63 _ _ 0 hA63, hAlen]
    push_cast
    omega
  have hnq : NextQuoteMark (taggedResponse pre m k post) (12 + m.length + 1 + pre.length)
      = 12 + m.length + 1 + pre.length + k.length := by
    unfold NextQuoteMark
    rw [hcut2, drop_append_len _ _ _ (by simp only [List.length_append, List.length_cons, List.length_nil, hRIlen]; omega), nextQuoteFrom_append _ _ _ hk]
    rfl
  have htext : slice (taggedResponse pre m k post) (12 + m.length + 1 + pre.length)
      (12 + m.length + 1 + pre.length + k.length) = some k := by
    unfold slice
    rw [if_pos ⟨by omega, by rw [hlen]; omega⟩]
    rw [hcut3, take_append_len _ _ _ (by simp only [List.length_append, List.length_cons, List.length_nil, hRIlen]; omega)]
    rw [drop_append_len _ _ _ (by simp only [List.length_append, List.length_cons, List.length_nil, hRIlen]; omega)]
  have hstop : sliceFrom (taggedResponse pre m k post)
      (12 + m.length + 1 + pre.length + k.length) = some ([34] ++ 44 :: post) := by
    unfold sliceFrom
    rw [if_pos (by rw [hlen]; omega)]
    rw [hcut3, drop_append_len _ _ _ (by simp only [List.length_append, List.length_cons, List.length_nil, hRIlen]; omega)]
  have hcomma : stringsIndexStr ([34] ++ 44 :: post) (str ",") = 1 := by
    have e3 : str "," = [44] := by decide
    unfold stringsIndexStr
    rw [e3, stringsIndexFrom_byte 44 _ _ 0 (by decide)]
    rfl
  have hhead : slice (taggedResponse pre m k post) 0 pre.length = some pre := by
    unfold slice
    rw [if_pos ⟨by omega, by rw [hlen]; omega⟩]
    rw [hcut1, take_append_len _ _ _ rfl]
    rfl
  have hrest : sliceFrom (taggedResponse pre m k post)
      (2 + (12 + m.length + 1 + pre.length + k.length)) = some post := by
    unfold sliceFrom
    rw [if_pos (by rw [hlen]; omega)]
    rw [hcut4, drop_append_len _ _ _ (by simp only [List.length_append, List.length_cons, List.length_nil, hRIlen]; omega)]
  have hge : ¬ ((pre.length : Int) + 1 - 1 < 0) := by omega
  have e1 : ((pre.length : Int) + 1 - 1).toNat = pre.length := by omega
  have e2 : (((12 + m.length : Nat) : Int) + 1).toNat = 12 + m.length + 1 := by omega
  have e3 : ((1 : Int) + 1).toNat = 2 := by decide
  simp only [RemoveInternalData, hfound, hge, if_false, e1, hfrom, Option.bind_eq_bind,
    Option.some_bind, hq, e2, hnq, htext, hstop, hcomma, e3, hhead, hrest, Option.pure_def]


/-- C13 (counterexample): the client id text `9223372036854775808` is the decimal text of a
non-negative integer, but `strconv.Atoi` reports a range error, which the code drops, and
gives the largest `int`; the slot returned is 9223372036854775807, not that integer. -/
theorem RemoveInternalData_slot_out_of_range :
    natDec 9223372036854775808 = str "9223372036854775808"
      ∧ taggedResponse (str "\x7b") (str "0") (natDec 9223372036854775808)
          (str "\"action\":\"get\"\x7d")
        = str "\x7b\"RouterId\":\"0?9223372036854775808\",\"action\":\"get\"\x7d"
      ∧ RemoveInternalData
          (str "\x7b\"RouterId\":\"0?9223372036854775808\",\"action\":\"get\"\x7d")
        = some (str "\x7b\"action\":\"get\"\x7d", 9223372036854775807) := by
  decide

/-- C13 (amended): for a response `pre ++ "RouterId":"M?K", ++ post` in which `pre` does not
contain `RouterId`, `M` has no `?` and `K` is the decimal text of a non-negative integer
`k` below `2^63`, `RemoveInternalData` returns `(pre ++ post, k)`: the slot is the text
between `?` and the next quote mark, and the field with its trailing comma is cut out. -/
theorem RemoveInternalData_strips_tag (pre m post : Bytes) (k : Nat)
    (hpre : stringsContains pre (str "RouterId") = false) (hm : 63 ∉ m)
    (hk : k < 2 ^ 63) :
    RemoveInternalData (taggedResponse pre m (natDec k) post) = some (pre ++ post, (k : Int)) := by
  have hq : 34 ∉ natDec k := by
    intro h
    have := digits_natDec k 34 h
    omega
  have hA : (Atoi (natDec k)).1 = (k : Int) := by
    rw [← Itoa_natCast, Atoi_Itoa (k : Int) (by constructor <;> omega)]
  rw [RemoveInternalData_tagged pre m (natDec k) post hpre hm hq, hA]

/-- The instance with slot 7: the tagged field is gone from the payload, which has no
`RouterId` left. -/
theorem RemoveInternalData_strips_tag_witness :
    stringsContains (str "\x7b") (str "RouterId") = false ∧ 63 ∉ str "0" ∧ 7 < 2 ^ 63
      ∧ taggedResponse (str "\x7b") (str "0") (natDec 7) (str "\"action\":\"get\"\x7d")
        = str "\x7b\"RouterId\":\"0?7\",\"action\":\"get\"\x7d"
      ∧ stringsContains (str "\x7b" ++ str "\"action\":\"get\"\x7d") (str "RouterId") = false
      ∧ RemoveInternalData
          (taggedResponse (str "\x7b") (str "0") (natDec 7) (str "\"action\":\"get\"\x7d"))
        = some (str "\x7b" ++ str "\"action\":\"get\"\x7d", ((7 : Nat) : Int)) :=
  ⟨by decide, by decide, by decide, by decide, by decide,
    RemoveInternalData_strips_tag (str "\x7b") (str "0") (str "\"action\":\"get\"\x7d") 7
      (by decide) (by decide) (by decide)⟩

/-! ## Session router: response or notification -/

/-- C14 (counterexample): in the notification `{"action":"subscription",…}` the text
`"subscription"` is the value of `action`, not a key, and the hub still sends the payload
on the notification channel `ClientBackendChannel[3]`. -/
theorem wsHubDeliver_value_not_key :
    wsHubDeliver 20 20
        (str "\x7b\"RouterId\":\"0?3\",\"action\":\"subscription\",\"subscriptionId\":\"7\"\x7d")
      = some (HubChannel.clientBackend, 3,
          str "\x7b\"action\":\"subscription\",\"subscriptionId\":\"7\"\x7d")
    ∧ occursAsKey (str "subscription")
        (str "\x7b\"action\":\"subscription\",\"subscriptionId\":\"7\"\x7d") = false := by
  decide

/-- C14 (amended): the stripped payload goes to `ClientBackendChannel[clientId]` exactly when
it contains the text `"subscription"` with both quotes, wherever it stands, and to
`appClientChannel[clientId]` exactly when it does not; `clientId` is the slot returned by
`RemoveInternalData` and indexes both channel arrays. -/
theorem wsHubDeliver_routes (backendLen appLen : Nat) (response trimmed : Bytes)
    (clientId : Int) (hr : RemoveInternalData response = some (trimmed, clientId))
    (hc : 0 ≤ clientId ∧ clientId < backendLen ∧ clientId < appLen) :
    (wsHubDeliver backendLen appLen response
        = some (HubChannel.clientBackend, clientId, trimmed)
      ↔ stringsContains trimmed (str "\"subscription\"") = true)
    ∧ (wsHubDeliver backendLen appLen response
        = some (HubChannel.appClient, clientId, trimmed)
      ↔ stringsContains trimmed (str "\"subscription\"") = false) := by
  have h1 : 0 ≤ clientId ∧ clientId < (backendLen : Int) := ⟨hc.1, hc.2.1⟩
  have h2 : 0 ≤ clientId ∧ clientId < (appLen : Int) := ⟨hc.1, hc.2.2⟩
  cases hs : stringsContains trimmed (str "\"subscription\"") <;>
    simp [wsHubDeliver, hr, hs, h1, h2]

/-- The instances of both routes: a notification for slot 3 and a response for slot 3. -/
theorem wsHubDeliver_routes_witness :
    RemoveInternalData
        (str "\x7b\"RouterId\":\"0?3\",\"action\":\"subscription\",\"subscriptionId\":\"7\"\x7d")
      = some (str "\x7b\"action\":\"subscription\",\"subscriptionId\":\"7\"\x7d", 3)
    ∧ ((0 : Int) ≤ 3 ∧ (3 : Int) < (20 : Nat) ∧ (3 : Int) < (20 : Nat))
    ∧ stringsContains (str "\x7b\"action\":\"subscription\",\"subscriptionId\":\"7\"\x7d")
        (str "\"subscription\"") = true
    ∧ wsHubDeliver 20 20
        (str "\x7b\"RouterId\":\"0?3\",\"action\":\"subscription\",\"subscriptionId\":\"7\"\x7d")
      = some (HubChannel.clientBackend, 3,
          str "\x7b\"action\":\"subscription\",\"subscriptionId\":\"7\"\x7d") :=
  ⟨by decide, by decide, by decide,
    (wsHubDeliver_routes 20 20 _ _ 3 (by decide) (by decide)).1.mpr (by decide)⟩

/-! ## Session pool -/

/-- C15 (counterexample): with the counter at 0, below the pool size 20, a request without
the `Upgrade: websocket` header, and one whose upgrade fails, start no session and leave the
counter at 0. -/
theorem wsHandler_below_capacity_no_session :
    wsHandler 20 20 0 { upgradeHeader := false, subprotocols := [], upgradeOk := true }
        = some (0, [])
      ∧ wsHandler 20 20 0
          { upgradeHeader := true, subprotocols := [str "VISSv2"], upgradeOk := false }
        = some (0, []) := by
  decide

theorem wsHandler_full (appLen backendLen : Nat) (serverIndex : Int) (req : UpgradeRequest)
    (h : (appLen : Int) ≤ serverIndex) :
    wsHandler appLen backendLen serverIndex req = some (serverIndex, []) := by
  have h2 : ¬ (serverIndex < (appLen : Int)) := by omega
  unfold wsHandler
  split
  · split
    · rfl
    · simp [h2]
  · rfl

/-- C15 (amended): at or above the pool size the handler starts no session and leaves the
counter unchanged, whatever the request; below the pool size, for a request that asks for
the WebSocket upgrade and is upgraded, on a slot that has a backend channel, it starts the
two tasks of exactly one session on the slot at the old counter value and adds exactly 1 to
the counter. -/
theorem wsHandler_capacity (appLen backendLen : Nat) (serverIndex : Int)
    (req : UpgradeRequest) :
    ((appLen : Int) ≤ serverIndex →
        wsHandler appLen backendLen serverIndex req = some (serverIndex, []))
      ∧ (req.upgradeHeader = true → req.upgradeOk = true → 0 ≤ serverIndex →
        serverIndex < appLen → serverIndex < backendLen →
        wsHandler appLen backendLen serverIndex req
          = some (serverIndex + 1,
              [SessionTask.frontend serverIndex (selectCompressProtocol req.subprotocols),
               SessionTask.backend serverIndex (selectCompressProtocol req.subprotocols)])) := by
  constructor
  · exact wsHandler_full appLen backendLen serverIndex req
  · intro hup hok h0 h1 h2
    simp [wsHandler, hup, hok, h0, h1, h2]

/-- The instances at the pool size 20: counter 20 is refused, counter 19 gets slot 19. -/
theorem wsHandler_capacity_witness :
    wsHandler 20 20 20 { upgradeHeader := true, subprotocols := [str "VISSv2c"], upgradeOk := true }
        = some (20, [])
      ∧ wsHandler 20 20 19
          { upgradeHeader := true, subprotocols := [str "VISSv2c"], upgradeOk := true }
        = some (20, [SessionTask.frontend 19 true, SessionTask.backend 19 true]) :=
  ⟨(wsHandler_capacity 20 20 20
      { upgradeHeader := true, subprotocols := [str "VISSv2c"], upgradeOk := true }).1
      (by decide),
   (wsHandler_capacity 20 20 19
      { upgradeHeader := true, subprotocols := [str "VISSv2c"], upgradeOk := true }).2
      rfl rfl (by decide) (by decide) (by decide)⟩

theorem poolStep_full (appLen backendLen : Nat) (st : PoolState) (e : PoolEvent)
    (h : (appLen : Int) ≤ st.serverIndex) :
    (poolStep appLen backendLen st e).serverIndex = st.serverIndex := by
  cases e with
  | request req => simp [poolStep, wsHandler_full appLen backendLen st.serverIndex req h]
  | sessionEnd slot => rfl

theorem poolRun_full (appLen backendLen : Nat) (events : List PoolEvent) :
    ∀ st : PoolState, (appLen : Int) ≤ st.serverIndex →
      (poolRun appLen backendLen st events).serverIndex = st.serverIndex := by
  induction events with
  | nil => intro st _; rfl
  | cons e rest ih =>
    intro st h
    have h1 := poolStep_full appLen backendLen st e h
    have h2 := ih (poolStep appLen backendLen st e) (by rw [h1]; exact h)
    simp only [poolRun, List.foldl_cons] at h2 ⊢
    rw [h2, h1]

set_option maxRecDepth 100000 in
/-- C16 (evaluation at the failing input): after 20 accepted sessions on a pool of 20 the
session on slot 0 ends; 19 sessions remain, slot 0 is idle, and the next upgraded request
still starts no session, although the pool is the limit on parallel clients. -/
theorem pool_slot_not_released :
    (poolRun 20 20 InitClientServer
        (List.replicate 20
            (PoolEvent.request { upgradeHeader := true, subprotocols := [], upgradeOk := true })
          ++ [PoolEvent.sessionEnd 0])).serverIndex = 20
      ∧ (poolRun 20 20 InitClientServer
        (List.replicate 20
            (PoolEvent.request { upgradeHeader := true, subprotocols := [], upgradeOk := true })
          ++ [PoolEvent.sessionEnd 0])).active
          = [1, 2, 3, 4, 5, 6, 7, 8, 9, 10, 11, 12, 13, 14, 15, 16, 17, 18, 19]
      ∧ wsHandler 20 20 20 { upgradeHeader := true, subprotocols := [], upgradeOk := true }
          = some (20, []) := by
  decide

/-- The end of a session leaves the slot counter as it is, the slot is not given back; once
the counter has reached the pool size, no request starts a session after any run of further
requests and session ends. -/
theorem pool_full_stays_full (appLen backendLen : Nat) (st : PoolState)
    (events : List PoolEvent) (req : UpgradeRequest) (slot : Int)
    (hfull : (appLen : Int) ≤ st.serverIndex) :
    (poolStep appLen backendLen st (PoolEvent.sessionEnd slot)).serverIndex = st.serverIndex
      ∧ (poolRun appLen backendLen st events).serverIndex = st.serverIndex
      ∧ wsHandler appLen backendLen (poolRun appLen backendLen st events).serverIndex req
          = some ((poolRun appLen backendLen st events).serverIndex, []) := by
  have h := poolRun_full appLen backendLen events st hfull
  exact ⟨rfl, h, wsHandler_full _ _ _ _ (by rw [h]; exact hfull)⟩

/-- The instance of a full pool of 20 in which the sessions on slots 0 and 5 end. -/
theorem pool_full_stays_full_witness :
    ((20 : Nat) : Int) ≤ (PoolState.mk 20 [] []).serverIndex
      ∧ (poolRun 20 20 (PoolState.mk 20 [] [])
          [PoolEvent.sessionEnd 0, PoolEvent.sessionEnd 5]).serverIndex = 20
      ∧ wsHandler 20 20
          (poolRun 20 20 (PoolState.mk 20 [] [])
            [PoolEvent.sessionEnd 0, PoolEvent.sessionEnd 5]).serverIndex
          { upgradeHeader := true, subprotocols := [], upgradeOk := true }
        = some ((poolRun 20 20 (PoolState.mk 20 [] [])
            [PoolEvent.sessionEnd 0, PoolEvent.sessionEnd 5]).serverIndex, []) :=
  ⟨by decide,
    (pool_full_stays_full 20 20 (PoolState.mk 20 [] [])
      [PoolEvent.sessionEnd 0, PoolEvent.sessionEnd 5]
      { upgradeHeader := true, subprotocols := [], upgradeOk := true } 0 (by decide)).2⟩

theorem wsHandler_outcomes (appLen backendLen : Nat) (serverIndex : Int)
    (req : UpgradeRequest) :
    wsHandler appLen backendLen serverIndex req = none
      ∨ wsHandler appLen backendLen serverIndex req = some (serverIndex, [])
      ∨ (0 ≤ serverIndex ∧ serverIndex < appLen
          ∧ wsHandler appLen backendLen serverIndex req
            = some (serverIndex + 1,
                [SessionTask.frontend serverIndex (selectCompressProtocol req.subprotocols),
                 SessionTask.backend serverIndex (selectCompressProtocol req.subprotocols)])) := by
  unfold wsHandler
  by_cases h1 : req.upgradeHeader = true
  · by_cases h2 : req.upgradeOk = false
    · simp [h1, h2]
    · by_cases h3 : serverIndex < (appLen : Int)
      · by_cases h4 : 0 ≤ serverIndex ∧ serverIndex < (backendLen : Int)
        · exact Or.inr (Or.inr ⟨h4.1, h3, by simp [h1, h2, h3, h4]⟩)
        · exact Or.inl (by simp [h1, h2, h3, h4])
      · exact Or.inr (Or.inl (by simp [h1, h2, h3]))
  · exact Or.inr (Or.inl (by simp [h1]))

theorem mem_slotsUpTo (n : Nat) : ∀ s ∈ slotsUpTo n, 0 ≤ s ∧ s < (n : Int) := by
  induction n with
  | zero => intro s hs; simp [slotsUpTo] at hs
  | succ k ih =>
    intro s hs
    simp only [slotsUpTo, List.mem_append, List.mem_singleton] at hs
    rcases hs with h | h
    · have := ih s h
      push_cast
      omega
    · push_cast
      omega

theorem nodup_slotsUpTo (n : Nat) : (slotsUpTo n).Nodup := by
  induction n with
  | zero => simp [slotsUpTo]
  | succ k ih =>
    simp only [slotsUpTo]
    refine List.Nodup.append ih (List.nodup_singleton _) ?_
    intro s h1 h2
    have := mem_slotsUpTo k s h1
    simp only [List.mem_singleton] at h2
    omega

/-- The counter is a natural number `n` within the pool size and the slots given out are
`0, 1, …, n - 1`: one event keeps this. -/
theorem poolStep_invariant (appLen backendLen : Nat) (st : PoolState) (e : PoolEvent)
    (n : Nat) (hn : n ≤ appLen) (hi : st.serverIndex = (n : Int))
    (ha : st.assigned = slotsUpTo n) :
    ∃ n2 : Nat, n2 ≤ appLen
      ∧ (poolStep appLen backendLen st e).serverIndex = (n2 : Int)
      ∧ (poolStep appLen backendLen st e).assigned = slotsUpTo n2 := by
  cases e with
  | sessionEnd slot => exact ⟨n, hn, hi, ha⟩
  | request req =>
    rcases wsHandler_outcomes appLen backendLen st.serverIndex req with hw | hw | ⟨h0, h1, hw⟩
    · refine ⟨n, hn, ?_, ?_⟩
      · simp only [poolStep, hw]; exact hi
      · simp only [poolStep, hw]; exact ha
    · refine ⟨n, hn, ?_, ?_⟩
      · simp only [poolStep, hw]; exact hi
      · simp only [poolStep, hw, frontendSlots, List.append_nil]; exact ha
    · rw [hi] at hw h1
      have hlt : n < appLen := by omega
      refine ⟨n + 1, by omega, ?_, ?_⟩
      · simp only [poolStep, hi, hw]; push_cast; rfl
      · simp only [poolStep, hi, hw, frontendSlots, ha, slotsUpTo]

theorem poolRun_invariant (appLen backendLen : Nat) (events : List PoolEvent) :
    ∀ (st : PoolState) (n : Nat), n ≤ appLen → st.serverIndex = (n : Int) →
      st.assigned = slotsUpTo n →
      ∃ n2 : Nat, n2 ≤ appLen
        ∧ (poolRun appLen backendLen st events).serverIndex = (n2 : Int)
        ∧ (poolRun appLen backendLen st events).assigned = slotsUpTo n2 := by
  induction events with
  | nil => intro st n hn hi ha; exact ⟨n, hn, hi, ha⟩
  | cons e rest ih =>
    intro st n hn hi ha
    obtain ⟨n1, h1, h2, h3⟩ := poolStep_invariant appLen backendLen st e n hn hi ha
    exact ih (poolStep appLen backendLen st e) n1 h1 h2 h3

/-- C17: after `InitClientServer`, over any run of handler invocations (and session ends) on
the pool of `AppClientChan`, the slots given to accepted sessions are pairwise distinct and
lie in `[0, 20)`, and the counter lies in `[0, 20]`. -/
theorem pool_slots_distinct_bounded (backendLen : Nat) (events : List PoolEvent) :
    (poolRun AppClientChanLen backendLen InitClientServer events).assigned.Nodup
      ∧ (∀ s ∈ (poolRun AppClientChanLen backendLen InitClientServer events).assigned,
          0 ≤ s ∧ s < 20)
      ∧ 0 ≤ (poolRun AppClientChanLen backendLen InitClientServer events).serverIndex
      ∧ (poolRun AppClientChanLen backendLen InitClientServer events).serverIndex ≤ 20 := by
  obtain ⟨n, hn, hi, ha⟩ := poolRun_invariant AppClientChanLen backendLen events
    InitClientServer 0 (Nat.zero_le _) rfl rfl
  have hn20 : n ≤ 20 := hn
  refine ⟨?_, ?_, by omega, by omega⟩
  · rw [ha]
    exact nodup_slotsUpTo n
  · intro s hs
    rw [ha] at hs
    have := mem_slotsUpTo n s hs
    omega

/-! ## Token dictionary -/

theorem getCodeListIndexFrom_not_mem (t : Bytes) : ∀ (l : List Bytes) (i : Nat), t ∉ l →
    getCodeListIndexFrom t l i = 255
  | [], _, _ => rfl
  | c :: cs, i, h => by
    have hc : c ≠ t := fun e => h (by simp [e])
    have hcs : t ∉ cs := fun e => h (List.mem_cons_of_mem _ e)
    simp only [getCodeListIndexFrom, hc, if_false, getCodeListIndexFrom_not_mem t cs (i + 1) hcs]

set_option maxRecDepth 100000 in
/-- C18: the built-in code list has 26 pairwise distinct entries, `getCodeListIndex` gives
every entry its own position and gives 255 for a token that is not in the list, so entry `i`
has the one wire byte `128 + i`, which lies in `[128, 153]`. -/
theorem getCodeListIndex_inverse :
    codeList.length = 26 ∧ codeList.Nodup
      ∧ (∀ i, i < 26 → (codeList[i]?).map getCodeListIndex = some i)
      ∧ (∀ t, t ∉ codeList → getCodeListIndex t = 255)
      ∧ (∀ i, i < 26 → 128 ≤ 128 + i ∧ 128 + i ≤ 153) := by
  refine ⟨by decide, by decide, by decide, ?_, by decide⟩
  intro t ht
  exact getCodeListIndexFrom_not_mem t codeList 0 ht

theorem getIntType_mem (byteSize : Nat) (isPos : Bool) :
    getIntType byteSize isPos ∈ [str "nuint8", str "uint8", str "nuint16", str "uint16",
      str "nuint24", str "uint24", str "nuint32", str "uint32"] := by
  unfold getIntType
  split_ifs <;> simp

theorem isTypeTag_mem (t : Bytes) (h : IsTypeTag t) :
    t ∈ [str "nuint8", str "uint8", str "nuint16", str "uint16", str "nuint24", str "uint24",
      str "nuint32", str "uint32", str "bool", str "float", str "unknown"] := by
  rcases h with ⟨w, p, e⟩ | e | e | e
  · have := getIntType_mem w p
    rw [← e] at this
    simp only [List.mem_cons] at this ⊢
    tauto
  · simp [e]
  · simp [e]
  · simp [e]

set_option maxRecDepth 100000 in
/-- C19: in the built-in code list `requestId`, `value`, `ts`, `path` and `subscriptionId`
stand at their declared constants, every type-tag name the encoder can emit has an index in
`[CODELISTKEYVALUES, 26)`, and no entry below index 15 is a type tag. -/
theorem codeList_layout :
    codeList[CODELISTINDEXREQID]? = some (str "requestId")
      ∧ codeList[CODELISTINDEXVALUE]? = some (str "value")
      ∧ codeList[CODELISTINDEXTS]? = some (str "ts")
      ∧ codeList[CODELISTINDEXPATH]? = some (str "path")
      ∧ codeList[CODELISTINDEXSUBID]? = some (str "subscriptionId")
      ∧ CODELISTKEYVALUES = 15
      ∧ (∀ t, IsTypeTag t →
          CODELISTKEYVALUES ≤ getCodeListIndex t ∧ getCodeListIndex t < 26)
      ∧ (∀ i e, i < 15 → codeList[i]? = some e → ¬ IsTypeTag e) := by
  refine ⟨by decide, by decide, by decide, by decide, by decide, rfl, ?_, ?_⟩
  · intro t ht
    have hm := isTypeTag_mem t ht
    have hall : ∀ x ∈ [str "nuint8", str "uint8", str "nuint16", str "uint16", str "nuint24",
        str "uint24", str "nuint32", str "uint32", str "bool", str "float", str "unknown"],
        CODELISTKEYVALUES ≤ getCodeListIndex x ∧ getCodeListIndex x < 26 := by decide
    exact hall t hm
  · intro i e hi he ht
    have hm := isTypeTag_mem e ht
    have hall : ∀ j, j < 15 → ∀ x ∈ [str "nuint8", str "uint8", str "nuint16", str "uint16",
        str "nuint24", str "uint24", str "nuint32", str "uint32", str "bool", str "float",
        str "unknown"], codeList[j]? ≠ some x := by decide
    exact hall i hi e hm he

/-! ## Token signature -/

theorem base64RawUrl_length : ∀ l : Bytes, (base64RawUrl l).length = (l.length * 4 + 2) / 3
  | [] => rfl
  | [_] => by simp [base64RawUrl]
  | [_, _] => by simp [base64RawUrl]
  | _ :: _ :: _ :: rest => by
    simp only [base64RawUrl, List.length_cons, base64RawUrl_length rest]
    omega

theorem stringsLastIndex_lt (q : Nat) : ∀ s : Bytes, stringsLastIndex s q < (s.length : Int)
  | [] => by simp [stringsLastIndex]
  | b :: t => by
    have ih := stringsLastIndex_lt q t
    simp only [stringsLastIndex, List.length_cons]
    push_cast
    split_ifs <;> omega

theorem stringsLastIndex_ge (q : Nat) (b : Bytes) : ∀ a : Bytes,
    (a.length : Int) ≤ stringsLastIndex (a ++ q :: b) q
  | [] => by
    simp only [List.nil_append, stringsLastIndex, List.length_nil]
    split_ifs <;> omega
  | x :: t => by
    have ih : (t.length : Int) ≤ stringsLastIndex (t.append (q :: b)) q :=
      stringsLastIndex_ge q b t
    simp only [List.cons_append, stringsLastIndex, List.length_cons]
    push_cast
    split_ifs <;> omega

/-- For an HMAC function with 32-byte output, `VerifyTokenSignature` rejects
`message ++ "." ++ GenerateHmac(message, key)` for every message and key: what follows the
last `.` has at most the 32 raw bytes of the MAC, while the text it is compared with, the
base64 of a MAC, has 43 characters. -/
theorem VerifyTokenSignature_rejects_GenerateHmac (hmac : Bytes → Bytes → Bytes)
    (message key : Bytes) (hlen : ∀ k m, (hmac k m).length = 32) :
    VerifyTokenSignature hmac (message ++ str "." ++ GenerateHmac hmac message key) key
      = false := by
  have hdot : str "." = [46] := by decide
  have hshape : message ++ str "." ++ GenerateHmac hmac message key
      = message ++ 46 :: hmac key message := by
    simp [hdot, GenerateHmac]
  have hge := stringsLastIndex_ge 46 (hmac key message) message
  have hlt := stringsLastIndex_lt 46 (message ++ 46 :: hmac key message)
  have htot : (message ++ 46 :: hmac key message).length = message.length + 33 := by
    simp [hlen]
  rw [hshape]
  unfold VerifyTokenSignature
  have hne : ¬ (stringsLastIndex (message ++ 46 :: hmac key message) 46 = -1) := by omega
  simp only [hne, if_false, decide_eq_false_iff_not]
  intro heq
  have h1 := congrArg List.length heq
  rw [base64RawUrl_length, hlen, List.length_drop, htot] at h1
  omega

/-! ## The packed timestamp bytes -/

theorem compressTS_bytes (a b c y mo d h mi s : Nat) (hy : y ≤ 9) (hmo : mo ≤ 99)
    (hd : d ≤ 99) (hh : h ≤ 99) (hmi : mi ≤ 99) (hs : s ≤ 99) :
    compressTS (tsLiteralYear a b c y mo d h mi s)
      = some [(y * 4 + mo / 4) % 256, (mo % 4 * 64 + d * 2 + h / 16) % 256,
              (h % 16 * 16 + mi / 4) % 256, (mi % 4 * 64 + s) % 256] := by
  have e1 : slice (tsLiteralYear a b c y mo d h mi s) 18 20
      = some [48 + s / 10, 48 + s % 10] := by
    simp [slice, tsLiteralYear]
  have e2 : slice (tsLiteralYear a b c y mo d h mi s) 15 17
      = some [48 + mi / 10, 48 + mi % 10] := by
    simp [slice, tsLiteralYear]
  have e3 : slice (tsLiteralYear a b c y mo d h mi s) 12 14
      = some [48 + h / 10, 48 + h % 10] := by
    simp [slice, tsLiteralYear]
  have e4 : slice (tsLiteralYear a b c y mo d h mi s) 9 11
      = some [48 + d / 10, 48 + d % 10] := by
    simp [slice, tsLiteralYear]
  have e5 : slice (tsLiteralYear a b c y mo d h mi s) 6 8
      = some [48 + mo / 10, 48 + mo % 10] := by
    simp [slice, tsLiteralYear]
  have e6 : (tsLiteralYear a b c y mo d h mi s)[4]? = some (48 + y) := by
    simp [tsLiteralYear]
  have ey : (48 + y + 256 - 48 % 256) % 256 = y := by omega
  simp only [compressTS, e1, e2, e3, e4, e5, e6, Option.bind_eq_bind, Option.some_bind,
    twoToOneByte_digits s hs, twoToOneByte_digits mi hmi,
    twoToOneByte_digits h hh, twoToOneByte_digits d hd,
    twoToOneByte_digits mo hmo, Option.pure_def, bsub, land_3, land_15, ey]

/-- C21: for the quoted timestamp with last year digit `y` and two-digit decimal fields
month `mo`, day `d`, hour `h`, minute `mi`, second `s` (whatever the first three year
digits), `compressTS` returns the 4 bytes `y*4 + mo/4`, `(mo mod 4)*64 + d*2 + h/16`,
`(h mod 16)*16 + mi/4`, `(mi mod 4)*64 + s` in byte arithmetic; the reduction modulo 256 is
void when `d ≤ 31`, `h ≤ 31`, `mi ≤ 63` and `s ≤ 63`, so for every calendar date and time;
`"2024-03-01T12:30:45Z"` gives `[16, 194, 199, 173]`. -/
theorem compressTS_packed_bytes (a b c y mo d h mi s : Nat) (hy : y ≤ 9) (hmo : mo ≤ 99)
    (hd : d ≤ 99) (hh : h ≤ 99) (hmi : mi ≤ 99) (hs : s ≤ 99) :
    compressTS (tsLiteralYear a b c y mo d h mi s)
        = some [(y * 4 + mo / 4) % 256, (mo % 4 * 64 + d * 2 + h / 16) % 256,
                (h % 16 * 16 + mi / 4) % 256, (mi % 4 * 64 + s) % 256]
      ∧ (d ≤ 31 → h ≤ 31 → mi ≤ 63 → s ≤ 63 →
          compressTS (tsLiteralYear a b c y mo d h mi s)
            = some [y * 4 + mo / 4, mo % 4 * 64 + d * 2 + h / 16, h % 16 * 16 + mi / 4,
                    mi % 4 * 64 + s])
      ∧ compressTS (str "\"2024-03-01T12:30:45Z\"") = some [16, 194, 199, 173] := by
  refine ⟨compressTS_bytes a b c y mo d h mi s hy hmo hd hh hmi hs, ?_, by decide⟩
  intro h1 h2 h3 h4
  rw [compressTS_bytes a b c y mo d h mi s hy hmo hd hh hmi hs]
  have f0 : (y * 4 + mo / 4) % 256 = y * 4 + mo / 4 := by omega
  have f1 : (mo % 4 * 64 + d * 2 + h / 16) % 256 = mo % 4 * 64 + d * 2 + h / 16 := by omega
  have f2 : (h % 16 * 16 + mi / 4) % 256 = h % 16 * 16 + mi / 4 := by omega
  have f3 : (mi % 4 * 64 + s) % 256 = mi % 4 * 64 + s := by omega
  rw [f0, f1, f2, f3]

/-- The instance `"2024-03-01T12:30:45Z"` of the packed bytes. -/
theorem compressTS_packed_bytes_witness :
    tsLiteralYear 2 0 2 4 3 1 12 30 45 = str "\"2024-03-01T12:30:45Z\""
      ∧ compressTS (tsLiteralYear 2 0 2 4 3 1 12 30 45) = some [16, 194, 199, 173] :=
  ⟨by decide, ((compressTS_packed_bytes 2 0 2 4 3 1 12 30 45 (by decide) (by decide) (by decide)
    (by decide) (by decide) (by decide)).2.1 (by decide) (by decide) (by decide)
    (by decide)).trans (by decide)⟩

/-! ## Classification of value literals -/

/-- The order of the tests of `AnalyzeValueType`: integer first, then the two boolean texts,
then the float test, else 0; the result is at most 3. -/
theorem AnalyzeValueType_order (fl : FloatLib) (value : Bytes) :
    ((Atoi value).2 = true → AnalyzeValueType fl value = 1)
      ∧ ((Atoi value).2 = false → (value = str "true" ∨ value = str "false") →
          AnalyzeValueType fl value = 2)
      ∧ ((Atoi value).2 = false → ¬ (value = str "true" ∨ value = str "false") →
          isFloatType fl value = true → AnalyzeValueType fl value = 3)
      ∧ ((Atoi value).2 = false → ¬ (value = str "true" ∨ value = str "false") →
          isFloatType fl value = false → AnalyzeValueType fl value = 0)
      ∧ AnalyzeValueType fl value ≤ 3 := by
  refine ⟨?_, ?_, ?_, ?_, ?_⟩
  · intro h
    simp [AnalyzeValueType, h]
  · intro h hb
    simp [AnalyzeValueType, h, hb]
  · intro h hb hf
    simp [AnalyzeValueType, h, hb, hf]
  · intro h hb hf
    simp [AnalyzeValueType, h, hb, hf]
  · unfold AnalyzeValueType
    split_ifs <;> omega

/-- The float test of `isFloatType` accepts a text exactly when it parses to NaN or to a
number whose magnitude lies between the two constants. -/
theorem isFloatType_iff (fl : FloatLib) (value : Bytes) :
    isFloatType fl value = true
      ↔ parseFloat32 fl value = some FloatVal.nan
        ∨ ∃ q : ℚ, parseFloat32 fl value = some (FloatVal.finite q)
            ∧ minFloat32 ≤ |q| ∧ |q| ≤ maxFloat32 := by
  have hmin : (0 : ℚ) < minFloat32 := by
    unfold minFloat32
    positivity
  unfold isFloatType
  cases hp : parseFloat32 fl value with
  | none => simp
  | some f =>
    cases f with
    | finite q =>
      by_cases hq : q < 0
      · have ha : |q| = -q := abs_of_neg hq
        simp [FloatVal.lt, FloatVal.neg, hq, ha, not_lt]
      · have ha : |q| = q := abs_of_nonneg (not_lt.mp hq)
        simp [FloatVal.lt, FloatVal.neg, hq, ha, not_lt]
    | posInf => simp [FloatVal.lt, FloatVal.neg]
    | negInf => simp [FloatVal.lt, FloatVal.neg]
    | nan => simp [FloatVal.lt, FloatVal.neg]

/-- C22 (evaluation at the failing input): the text `NaN` is no integer and no boolean;
`strconv.ParseFloat` returns NaN for it with a nil error, and since every comparison with
NaN is false neither range test of `isFloatType` rejects it, so `AnalyzeValueType` returns 3
for every float library, although NaN has no magnitude between the two constants; the same
holds for `nan`.  For every other text the float class is as claimed: a number whose
magnitude lies in the range. -/
theorem AnalyzeValueType_NaN (fl : FloatLib) :
    (Atoi (str "NaN")).2 = false
      ∧ parseFloat32 fl (str "NaN") = some FloatVal.nan
      ∧ FloatVal.lt FloatVal.nan (FloatVal.finite minFloat32) = false
      ∧ FloatVal.lt (FloatVal.finite maxFloat32) FloatVal.nan = false
      ∧ isFloatType fl (str "NaN") = true
      ∧ AnalyzeValueType fl (str "NaN") = 3
      ∧ AnalyzeValueType fl (str "nan") = 3
      ∧ (∀ value : Bytes, parseFloat32 fl value ≠ some FloatVal.nan →
          (AnalyzeValueType fl value = 3
            ↔ (Atoi value).2 = false ∧ ¬ (value = str "true" ∨ value = str "false")
              ∧ ∃ q : ℚ, parseFloat32 fl value = some (FloatVal.finite q)
                  ∧ minFloat32 ≤ |q| ∧ |q| ≤ maxFloat32)) := by
  have ha : (Atoi (str "NaN")).2 = false := by decide
  have hb : ¬ (str "NaN" = str "true" ∨ str "NaN" = str "false") := by decide
  have hs : specialFloat (str "NaN") = some FloatVal.nan := rfl
  have hp : parseFloat32 fl (str "NaN") = some FloatVal.nan := by
    simp only [parseFloat32, hs]
  have hf : isFloatType fl (str "NaN") = true :=
    (isFloatType_iff fl _).mpr (Or.inl hp)
  have ha2 : (Atoi (str "nan")).2 = false := by decide
  have hb2 : ¬ (str "nan" = str "true" ∨ str "nan" = str "false") := by decide
  have hs2 : specialFloat (str "nan") = some FloatVal.nan := rfl
  have hp2 : parseFloat32 fl (str "nan") = some FloatVal.nan := by
    simp only [parseFloat32, hs2]
  have hf2 : isFloatType fl (str "nan") = true :=
    (isFloatType_iff fl _).mpr (Or.inl hp2)
  refine ⟨ha, hp, rfl, rfl, hf, (AnalyzeValueType_order fl _).2.2.1 ha hb hf,
    (AnalyzeValueType_order fl _).2.2.1 ha2 hb2 hf2, ?_⟩
  intro value hn
  have ho := AnalyzeValueType_order fl value
  constructor
  · intro h3
    by_cases h1 : (Atoi value).2 = true
    · have := ho.1 h1
      omega
    · have h1f : (Atoi value).2 = false := by simpa using h1
      by_cases h2 : value = str "true" ∨ value = str "false"
      · have := ho.2.1 h1f h2
        omega
      · by_cases hfl : isFloatType fl value = true
        · rcases (isFloatType_iff fl value).mp hfl with e | e
          · exact absurd e hn
          · exact ⟨h1f, h2, e⟩
        · have hff : isFloatType fl value = false := by simpa using hfl
          have := ho.2.2.2.1 h1f h2 hff
          omega
  · rintro ⟨h1, h2, e⟩
    exact ho.2.2.1 h1 h2 ((isFloatType_iff fl value).mpr (Or.inr e))

/-! ## Arrays of values -/

set_option maxRecDepth 100000 in
/-- C23 (evaluation at the failing input): `"5"` and `"300"` are both classified as
integers, but their encodings start with different tags (144 and 146); `decompressValue`
puts a comma after an element only when the next byte repeats the element's first byte, so
the array comes back as `["5""300"]` without the comma, while `["5","6"]`, whose elements
share the tag 144, comes back whole. -/
theorem decompressValue_mixed_width_array (fl : FloatLib) :
    AnalyzeValueType fl (str "5") = 1 ∧ AnalyzeValueType fl (str "300") = 1
      ∧ compressValue fl (str "\"5\"") = some [144, 5]
      ∧ compressValue fl (str "\"300\"") = some [146, 1, 44]
      ∧ decompressValue fl ([91] ++ [144, 5] ++ [146, 1, 44] ++ [93])
          = some (str "[\"5\"\"300\"]", 7)
      ∧ decompressValue fl ([91] ++ [144, 5] ++ [144, 6] ++ [93])
          = some (str "[\"5\",\"6\"]", 6) :=
  ⟨rfl, rfl, rfl, rfl, rfl, rfl⟩

/-! ## Payload bytes that look like structure -/

set_option maxRecDepth 100000 in
/-- C30 (evaluation at the failing input): for `n = 123` and `v = 125` the message
`{"requestId":"123","value":"125"}` is compressed to `[129, 144, 123, 130, 144, 125]`; the
payload 123 is the code of `{`, so the decoder puts no comma after the first field, and the
payload 125 is the code of `}`, so it adds no closing brace: the text that comes back is
`{"requestId":"123""value":"125"`.  With `n = 1` and `v = 2` the text comes back whole. -/
theorem decompress_compress_payload_collision (fl : FloatLib) (pathList : List Bytes) :
    CompressMessage fl pathList (str "\x7b\"requestId\":\"123\",\"value\":\"125\"\x7d")
        = some [129, 144, 123, 130, 144, 125]
      ∧ DecompressMessage fl pathList [129, 144, 123, 130, 144, 125]
        = some (str "\x7b\"requestId\":\"123\"\"value\":\"125\"")
      ∧ CompressMessage fl pathList (str "\x7b\"requestId\":\"1\",\"value\":\"2\"\x7d")
        = some [129, 144, 1, 130, 144, 2]
      ∧ DecompressMessage fl pathList [129, 144, 1, 130, 144, 2]
        = some (str "\x7b\"requestId\":\"1\",\"value\":\"2\"\x7d") :=
  ⟨rfl, rfl, rfl, rfl⟩

set_option maxRecDepth 100000 in
/-- C27 (evaluation at the failing input): the key `Á` is the two UTF-8 bytes 195, 129, no
dictionary token and free of quote marks.  The token loop passes `"Á":"v"` through
unchanged, but the closing log statement of `CompressMessage` decompresses that output:
byte 129 is read as the code of `requestId`, the quote mark after it as a type tag, entry
162 of the 26-entry code list, which is a fault, so `CompressMessage` returns nothing.  For
the ASCII key `k` it returns `"k":"v"`. -/
theorem CompressMessage_unknown_key_high_byte (fl : FloatLib) (pathList : List Bytes) :
    getCodeListIndex [195, 129] = 255 ∧ getCodeListIndex (str "v") = 255
      ∧ compressLoop fl pathList ([123] ++ quoted [195, 129] ++ [58] ++ quoted (str "v") ++ [125])
          (([123] ++ quoted [195, 129] ++ [58] ++ quoted (str "v") ++ [125]).length + 1)
          { offset := 0, tokenState := 255, isArray := false, message2 := [] }
        = some (quoted [195, 129] ++ [58] ++ quoted (str "v"))
      ∧ DecompressMessage fl pathList (quoted [195, 129] ++ [58] ++ quoted (str "v")) = none
      ∧ CompressMessage fl pathList
          ([123] ++ quoted [195, 129] ++ [58] ++ quoted (str "v") ++ [125]) = none
      ∧ CompressMessage fl pathList (str "\x7b\"k\":\"v\"\x7d") = some (str "\"k\":\"v\"") :=
  ⟨rfl, rfl, rfl, rfl, rfl, rfl⟩

/-! ## Query part of a request path -/

theorem stringsIndexFrom_absent (q : Nat) : ∀ (a : Bytes) (i : Nat), q ∉ a →
    stringsIndexFrom [q] a i = -1
  | [], i, _ => by simp [stringsIndexFrom]
  | c :: t, i, h => by
    have hc : q ≠ c := fun e => h (by simp [e])
    have ht : q ∉ t := fun e => h (List.mem_cons_of_mem _ e)
    have hp : List.isPrefixOf [q] (c :: t) = false := by
      simp [List.isPrefixOf, hc]
    rw [stringsIndexFrom, hp, if_neg Bool.false_ne_true, stringsIndexFrom_absent q t (i + 1) ht]

/-- The run of `splitToPathQueryKeyValue` on a path whose first `?` is followed by the byte
`c` and the text `rest`. -/
theorem splitToPathQueryKeyValue_query (p rest : Bytes) (c : Nat) (hp : 63 ∉ p) :
    splitToPathQueryKeyValue (p ++ 63 :: c :: rest)
      = if c = 102 then (sliceFrom (63 :: c :: rest) 8).map (fun q => (p, str "filter", q))
        else if c = 109 then
          (sliceFrom (63 :: c :: rest) 10).map (fun q => (p, str "metadata", q))
        else some (p ++ 63 :: c :: rest, [], []) := by
  have e63 : str "?" = [63] := by decide
  have hi : stringsIndexStr (p ++ 63 :: c :: rest) (str "?") = (p.length : Int) := by
    rw [stringsIndexStr, e63, stringsIndexFrom_byte 63 (c :: rest) p 0 hp]
    simp
  have hne : ¬ ((p.length : Int) = -1) := by omega
  have hc : (p ++ 63 :: c :: rest)[p.length + 1]? = some c := by
    rw [List.getElem?_append_right (by omega)]
    simp
  have hs : slice (p ++ 63 :: c :: rest) 0 p.length = some p := by
    simp [slice]
  have hd : ∀ k, sliceFrom (p ++ 63 :: c :: rest) (p.length + k)
      = sliceFrom (63 :: c :: rest) k := by
    intro k
    have e0 : (p ++ 63 :: c :: rest).drop (p.length + k) = (63 :: c :: rest).drop k := by
      rw [← List.drop_drop, drop_append_len p _ p.length rfl]
    simp only [sliceFrom, e0, List.length_append, List.length_cons]
    by_cases hk : k ≤ rest.length + 1 + 1
    · rw [if_pos hk, if_pos (by omega)]
    · rw [if_neg hk, if_neg (by omega)]
  simp only [splitToPathQueryKeyValue, hi, ne_eq, hne, not_false_eq_true, if_true,
    Int.toNat_ofNat, hc, Option.bind_eq_bind, Option.some_bind, hs, hd, Option.pure_def]
  split_ifs with h1 h2
  · cases sliceFrom (63 :: c :: rest) 8 <;> rfl
  · cases sliceFrom (63 :: c :: rest) 10 <;> rfl
  · rfl

/-- C29: for every path `p` without `?` and every text `q`, `splitToPathQueryKeyValue`
returns `(p, "filter", q)` on `p?filter=q` and `(p, "metadata", q)` on `p?metadata=q`, and
on a path without `?` it returns the path with an empty key and an empty value. -/
theorem splitToPathQueryKeyValue_splits (p q : Bytes) (hp : 63 ∉ p) :
    splitToPathQueryKeyValue (p ++ str "?filter=" ++ q) = some (p, str "filter", q)
      ∧ splitToPathQueryKeyValue (p ++ str "?metadata=" ++ q) = some (p, str "metadata", q)
      ∧ splitToPathQueryKeyValue p = some (p, str "", str "") := by
  have ef : str "?filter=" = 63 :: 102 :: [105, 108, 116, 101, 114, 61] := by decide
  have em : str "?metadata=" = 63 :: 109 :: [101, 116, 97, 100, 97, 116, 97, 61] := by decide
  have e63 : str "?" = [63] := by decide
  refine ⟨?_, ?_, ?_⟩
  · rw [ef, List.append_assoc, List.cons_append, List.cons_append,
      splitToPathQueryKeyValue_query p _ 102 hp]
    simp [sliceFrom]
  · rw [em, List.append_assoc, List.cons_append, List.cons_append,
      splitToPathQueryKeyValue_query p _ 109 hp]
    simp [sliceFrom]
  · have hi : stringsIndexStr p (str "?") = -1 := by
      rw [stringsIndexStr, e63, stringsIndexFrom_absent 63 p 0 hp]
    simp [splitToPathQueryKeyValue, hi]

/-- The instances `Vehicle.Speed?filter=x`, `Vehicle.Speed?metadata=static` and
`Vehicle.Speed` of the split. -/
theorem splitToPathQueryKeyValue_splits_witness :
    splitToPathQueryKeyValue (str "Vehicle.Speed" ++ str "?filter=" ++ str "x")
        = some (str "Vehicle.Speed", str "filter", str "x")
      ∧ splitToPathQueryKeyValue (str "Vehicle.Speed" ++ str "?metadata=" ++ str "x")
        = some (str "Vehicle.Speed", str "metadata", str "x")
      ∧ splitToPathQueryKeyValue (str "Vehicle.Speed")
        = some (str "Vehicle.Speed", str "", str "") :=
  splitToPathQueryKeyValue_splits (str "Vehicle.Speed") (str "x") (by decide)

/-! ## Dictionary bytes on the wire -/

theorem bsub_wire (i : Nat) (hi : i < 128) : bsub (128 + i) 128 = i := by
  unfold bsub
  omega

/-- The comma test that closes `readCompressedMessage` adds a comma or nothing. -/
theorem comma_tail (cond : Prop) [Decidable cond] (message : Bytes) (k : Nat) (t : Bytes)
    (n : Nat) (res : Bytes × Nat)
    (h : (if cond then
            message[k]?.bind fun a1 =>
              if a1 ≠ 125 ∧ a1 ≠ 93 then
                message[k - 1]?.bind fun a2 =>
                  if a2 ≠ 123 ∧ a2 ≠ 91 then some (t ++ [44], n) else some (t, n)
              else some (t, n)
          else some (t, n)) = some res) :
    res = (t ++ [44], n) ∨ res = (t, n) := by
  split at h
  · cases h1 : message[k]? with
    | none => simp [h1] at h
    | some a1 =>
      rw [h1, Option.some_bind] at h
      split at h
      · cases h2 : message[k - 1]? with
        | none => simp [h2] at h
        | some a2 =>
          rw [h2, Option.some_bind] at h
          split at h
          · exact Or.inl (Option.some.inj h).symm
          · exact Or.inr (Option.some.inj h).symm
      · exact Or.inr (Option.some.inj h).symm
  · exact Or.inr (Option.some.inj h).symm

set_option maxRecDepth 100000 in
/-- Whatever `readCompressedMessage` returns on the wire byte of a key starts with the
quoted key and a colon. -/
theorem readCompressedMessage_key_text (fl : FloatLib) (pathList : List Bytes)
    (message : Bytes) (offset i : Nat) (hm : message[offset]? = some (128 + i))
    (hi : i < 10) (tok : Bytes) (n : Nat)
    (h : readCompressedMessage fl pathList message offset = some (tok, n)) :
    ∃ entry rest, codeList[i]? = some entry ∧ tok = quoted entry ++ [58] ++ rest := by
  have hge : 128 + i ≥ 128 := by omega
  have e1 : i < CODELISTKEYVALUES := by simp [CODELISTKEYVALUES]; omega
  have e2 : 128 + i < CODELISTKEYS + 128 := by simp [CODELISTKEYS]; omega
  have hlen : i < codeList.length := by
    have : codeList.length = 26 := by decide
    omega
  have he : codeList[i]? = some (codeList[i]) := List.getElem?_eq_getElem hlen
  have hq : ∀ e r : Bytes, [34] ++ e ++ [34] ++ [58] ++ r = quoted e ++ [58] ++ r := by
    intro e r
    simp [quoted]
  have hq0 : ∀ e : Bytes, [34] ++ e ++ [34] ++ [58] = quoted e ++ [58] ++ [] := by
    intro e
    simp [quoted]
  refine ⟨codeList[i], ?_⟩
  simp only [readCompressedMessage, hm, Option.bind_eq_bind, Option.some_bind, hge, if_true,
    bsub_wire i (by omega), e1, e2, he, Option.pure_def, true_and] at h
  by_cases c1 : i = CODELISTINDEXPATH
  · rw [if_pos c1] at h
    obtain ⟨a, -, h⟩ := Option.bind_eq_some.mp h
    obtain ⟨p, -, h⟩ := Option.bind_eq_some.mp h
    rcases comma_tail _ _ _ _ _ _ h with r | r
    · exact ⟨p ++ [44], he, by rw [← List.append_assoc, ← hq]; exact congrArg Prod.fst r⟩
    · exact ⟨p, he, by rw [← hq]; exact congrArg Prod.fst r⟩
  rw [if_neg c1] at h
  by_cases c2 : i = getCodeListIndex (str "ts")
  · rw [if_pos c2] at h
    obtain ⟨a, -, h⟩ := Option.bind_eq_some.mp h
    obtain ⟨p, -, h⟩ := Option.bind_eq_some.mp h
    rcases comma_tail _ _ _ _ _ _ h with r | r
    · exact ⟨p ++ [44], he, by rw [← List.append_assoc, ← hq]; exact congrArg Prod.fst r⟩
    · exact ⟨p, he, by rw [← hq]; exact congrArg Prod.fst r⟩
  rw [if_neg c2] at h
  by_cases c3 : i = CODELISTINDEXVALUE ∨ i = CODELISTINDEXREQID ∨ i = CODELISTINDEXSUBID
  · rw [if_pos c3] at h
    obtain ⟨a, -, h⟩ := Option.bind_eq_some.mp h
    obtain ⟨p, -, h⟩ := Option.bind_eq_some.mp h
    rcases comma_tail _ _ _ _ _ _ h with r | r
    · exact ⟨p.1 ++ [44], he, by
        rw [← List.append_assoc, ← hq]; exact congrArg Prod.fst r⟩
    · exact ⟨p.1, he, by rw [← hq]; exact congrArg Prod.fst r⟩
  rw [if_neg c3] at h
  rcases comma_tail _ _ _ _ _ _ h with r | r
  · exact ⟨[44], he, by rw [← hq]; exact congrArg Prod.fst r⟩
  · exact ⟨[], he, by rw [← hq0]; exact congrArg Prod.fst r⟩

set_option maxRecDepth 100000 in
/-- On the wire byte of a dictionary entry below 15 that has no payload,
`readCompressedMessage` returns the quoted entry, followed by a colon when it is a key, and
then a comma or nothing; it reads 1 byte. -/
theorem readCompressedMessage_plain_entry (fl : FloatLib) (pathList : List Bytes)
    (message : Bytes) (offset i : Nat) (hm : message[offset]? = some (128 + i))
    (hi : i < 15) (hs : i = 0 ∨ 6 ≤ i) :
    ∃ entry, codeList[i]? = some entry
      ∧ (readCompressedMessage fl pathList message offset
            = some (quoted entry ++ (if i < 10 then [58] else []), 1)
          ∨ readCompressedMessage fl pathList message offset
            = some (quoted entry ++ (if i < 10 then [58] else []) ++ [44], 1)) := by
  have hge : 128 + i ≥ 128 := by omega
  have e1 : i < CODELISTKEYVALUES := by simp [CODELISTKEYVALUES]; omega
  have e2 : (128 + i < CODELISTKEYS + 128) ↔ i < 10 := by simp [CODELISTKEYS]; omega
  have e3 : ¬ (i = CODELISTINDEXPATH) := by simp [CODELISTINDEXPATH]; omega
  have e4 : ¬ (i = getCodeListIndex (str "ts")) := by
    have : getCodeListIndex (str "ts") = 3 := by decide
    omega
  have e5 : ¬ (i = CODELISTINDEXVALUE ∨ i = CODELISTINDEXREQID ∨ i = CODELISTINDEXSUBID) := by
    simp [CODELISTINDEXVALUE, CODELISTINDEXREQID, CODELISTINDEXSUBID]; omega
  have hlen : i < codeList.length := by
    have : codeList.length = 26 := by decide
    omega
  have he : codeList[i]? = some (codeList[i]) := List.getElem?_eq_getElem hlen
  have hq : ∀ e : Bytes, [34] ++ e ++ [34] = quoted e := by
    intro e
    simp [quoted]
  refine ⟨codeList[i], he, ?_⟩
  cases hr : readCompressedMessage fl pathList message offset with
  | none =>
    exfalso
    simp only [readCompressedMessage, hm, Option.bind_eq_bind, Option.some_bind, hge, if_true,
      bsub_wire i (by omega), e1, e2, e3, e4, e5, if_false, he, Option.pure_def, true_and,
      hq] at hr
    have hoff : offset < message.length := by
      by_contra hc
      rw [List.getElem?_eq_none (by omega)] at hm
      exact Option.noConfusion hm
    split at hr
    · rename_i hc
      have h1 : offset + 1 < message.length := by omega
      rw [List.getElem?_eq_getElem h1, Option.some_bind] at hr
      split at hr
      · rw [Nat.add_sub_cancel, hm, Option.some_bind] at hr
        split at hr <;> exact Option.noConfusion hr
      · exact Option.noConfusion hr
    · exact Option.noConfusion hr
  | some res =>
    simp only [readCompressedMessage, hm, Option.bind_eq_bind, Option.some_bind, hge, if_true,
      bsub_wire i (by omega), e1, e2, e3, e4, e5, if_false, he, Option.pure_def, true_and,
      hq] at hr
    have ht : (if i < 10 then quoted codeList[i] ++ [58] else quoted codeList[i])
        = quoted codeList[i] ++ (if i < 10 then [58] else []) := by
      split_ifs
      · rfl
      · exact (List.append_nil _).symm
    rw [ht] at hr
    rcases comma_tail _ _ _ _ _ _ hr with r | r
    · exact Or.inr (congrArg some r)
    · exact Or.inl (congrArg some r)

set_option maxRecDepth 100000 in
theorem readCompressedMessage_beyond_values (fl : FloatLib) (pathList : List Bytes)
    (message : Bytes) (offset i : Nat) (hm : message[offset]? = some (128 + i))
    (hi : i < 128) (h15 : 15 ≤ i) :
    readCompressedMessage fl pathList message offset = some ([], 1) := by
  have hge : 128 + i ≥ 128 := by omega
  have e1 : ¬ (i < CODELISTKEYVALUES) := by simp [CODELISTKEYVALUES]; omega
  have e2 : ¬ (i = CODELISTINDEXPATH) := by simp [CODELISTINDEXPATH]; omega
  have e3 : ¬ (i = getCodeListIndex (str "ts")) := by
    have : getCodeListIndex (str "ts") = 3 := by decide
    omega
  have e4 : ¬ (i = CODELISTINDEXVALUE ∨ i = CODELISTINDEXREQID ∨ i = CODELISTINDEXSUBID) := by
    simp [CODELISTINDEXVALUE, CODELISTINDEXREQID, CODELISTINDEXSUBID]; omega
  simp only [readCompressedMessage, hm, Option.bind_eq_bind, Option.some_bind, hge, if_true,
    bsub_wire i hi, e1, e2, e3, e4, if_false, Option.pure_def, false_and]


/-- C28: on the wire byte `128 + i`, `readCompressedMessage` emits dictionary entry `i` in
quotes followed by a colon when `i < 10` (whatever it returns starts with that text, and for
the keys without payload it returns just that, or that and a comma), entry `i` in quotes
with no colon when `10 ≤ i < 15` (followed by a comma or nothing), and for `15 ≤ i` it emits
no text and reads 1 byte. -/
theorem readCompressedMessage_wire_byte (fl : FloatLib) (pathList : List Bytes)
    (message : Bytes) (offset i : Nat) (hm : message[offset]? = some (128 + i))
    (hi : i < 128) :
    (i < CODELISTKEYS → ∀ tok n, readCompressedMessage fl pathList message offset = some (tok, n) →
        ∃ entry rest, codeList[i]? = some entry ∧ tok = quoted entry ++ [58] ++ rest)
      ∧ (i < CODELISTKEYS → (i = 0 ∨ 6 ≤ i) → ∃ entry, codeList[i]? = some entry
          ∧ (readCompressedMessage fl pathList message offset = some (quoted entry ++ [58], 1)
            ∨ readCompressedMessage fl pathList message offset
                = some (quoted entry ++ [58] ++ [44], 1)))
      ∧ (CODELISTKEYS ≤ i → i < CODELISTKEYVALUES → ∃ entry, codeList[i]? = some entry
          ∧ (readCompressedMessage fl pathList message offset = some (quoted entry, 1)
            ∨ readCompressedMessage fl pathList message offset
                = some (quoted entry ++ [44], 1)))
      ∧ (CODELISTKEYVALUES ≤ i →
          readCompressedMessage fl pathList message offset = some ([], 1)) := by
  simp only [CODELISTKEYS, CODELISTKEYVALUES]
  refine ⟨?_, ?_, ?_, ?_⟩
  · intro h10 tok n h
    exact readCompressedMessage_key_text fl pathList message offset i hm h10 tok n h
  · intro h10 hs
    obtain ⟨entry, he, h⟩ :=
      readCompressedMessage_plain_entry fl pathList message offset i hm (by omega) hs
    rw [if_pos h10] at h
    exact ⟨entry, he, h⟩
  · intro h10 h15
    obtain ⟨entry, he, h⟩ :=
      readCompressedMessage_plain_entry fl pathList message offset i hm h15 (Or.inr (by omega))
    rw [if_neg (by omega), List.append_nil] at h
    exact ⟨entry, he, h⟩
  · intro h15
    exact readCompressedMessage_beyond_values fl pathList message offset i hm hi h15

/-- The wire bytes 150 (`uint32`, index 22) and 138 (`get`, index 10) met at the start of a
token. -/
theorem readCompressedMessage_wire_byte_witness :
    readCompressedMessage ⟨fun _ => none, fun _ => [], fun _ => []⟩ []
        [150, 138] 0 = some ([], 1) :=
  (readCompressedMessage_wire_byte ⟨fun _ => none, fun _ => [], fun _ => []⟩
    [] [150, 138] 0 22 (by decide) (by decide)).2.2.2 (by decide)

/-! ## The token loop of `CompressMessage` over a list of tokens -/

theorem compressStep_tokenStep (fl : FloatLib) (pathList : List Bytes) (message : Bytes)
    (st : CompressState) :
    compressStep fl pathList message st
      = (readUncompressedMessage message st.offset).bind (fun token =>
          tokenStep fl pathList message.length (message[st.offset + token.length]?) st token) := by
  unfold compressStep tokenStep
  rfl

theorem readUncompressedMessage_token (pre post : Bytes) (tok : Token) (h : tok.WellFormed) :
    readUncompressedMessage (pre ++ tok.bytes ++ post) pre.length = some tok.bytes := by
  cases tok with
  | byte c =>
    have hc : c ≠ 34 := h
    have h0 : (pre ++ [c] ++ post)[pre.length]? = some c := by
      rw [List.append_assoc, List.getElem?_append_right (le_refl _)]
      simp
    simp only [readUncompressedMessage, Token.bytes, h0, Option.bind_eq_bind, Option.some_bind,
      hc, if_false, Option.pure_def]
  | literal t =>
    have ht : 34 ∉ t := h
    have h0 : (pre ++ quoted t ++ post)[pre.length]? = some 34 := by
      rw [List.append_assoc, List.getElem?_append_right (le_refl _)]
      simp [quoted]
    have hd : (pre ++ quoted t ++ post).drop (pre.length + 1) = t ++ 34 :: post := by
      have e : pre ++ quoted t ++ post = (pre ++ [34]) ++ (t ++ 34 :: post) := by
        simp [quoted]
      rw [e, drop_append_len _ _ _ (by simp)]
    have hn : NextQuoteMark (pre ++ quoted t ++ post) (pre.length + 1)
        = pre.length + 1 + t.length := by
      rw [NextQuoteMark, hd, nextQuoteFrom_append post t _ ht]
      rfl
    have hs : slice (pre ++ quoted t ++ post) pre.length (pre.length + 1 + t.length + 1)
        = some (quoted t) := by
      have hl : (quoted t).length = t.length + 2 := by simp [quoted]
      have e1 : (pre ++ quoted t ++ post).take (pre.length + 1 + t.length + 1)
          = pre ++ quoted t := by
        rw [take_append_len _ _ _ (by rw [List.length_append, hl]; omega)]
      have e2 : pre.length ≤ pre.length + 1 + t.length + 1
          ∧ pre.length + 1 + t.length + 1 ≤ (pre ++ quoted t ++ post).length := by
        simp only [List.length_append, hl]
        omega
      rw [slice, if_pos e2, e1, drop_append_len _ _ _ rfl]
    simp only [readUncompressedMessage, Token.bytes, h0, Option.bind_eq_bind, Option.some_bind,
      if_true, hn, hs]

theorem tokenStep_offset (fl : FloatLib) (pathList : List Bytes) (total : Nat)
    (next : Option Nat) (st st2 : CompressState) (token : Bytes)
    (h : tokenStep fl pathList total next st token = some st2) :
    st2.offset = st.offset + token.length := by
  unfold tokenStep at h
  simp only [Option.pure_def, Option.bind_eq_bind] at h
  split_ifs at h
  all_goals first
    | (cases Option.some.inj h; rfl)
    | (obtain ⟨a, -, h⟩ := Option.bind_eq_some.mp h
       split_ifs at h
       all_goals first
         | (cases Option.some.inj h; rfl)
         | (obtain ⟨c, -, h⟩ := Option.bind_eq_some.mp h
            cases Option.some.inj h
            rfl))

theorem compressLoop_tokens (fl : FloatLib) (pathList : List Bytes) (message : Bytes) :
    ∀ (toks : List Token) (pre : Bytes) (st : CompressState) (fuel : Nat),
      (∀ tok ∈ toks, tok.WellFormed) → message = pre ++ tokensText toks →
      st.offset = pre.length → toks.length < fuel →
      compressLoop fl pathList message fuel st
        = (runTokens fl pathList message.length st toks).map (fun s => s.message2)
  | [], pre, st, fuel, _, hm, ho, hf => by
    obtain ⟨k, rfl⟩ : ∃ k, fuel = k + 1 := ⟨fuel - 1, by simp at hf; omega⟩
    have hl : ¬ st.offset < message.length := by
      rw [hm, ho]
      simp [tokensText]
    simp only [compressLoop, hl, if_false, runTokens, Option.map_some', Option.pure_def]
  | tok :: rest, pre, st, fuel, hw, hm, ho, hf => by
    obtain ⟨k, rfl⟩ : ∃ k, fuel = k + 1 := ⟨fuel - 1, by simp at hf; omega⟩
    have hm2 : message = pre ++ tok.bytes ++ tokensText rest := by
      rw [hm, tokensText, List.append_assoc]
    have hne : 0 < tok.bytes.length := by
      cases tok <;> simp [Token.bytes, quoted]
    have hl : st.offset < message.length := by
      rw [hm2, ho]
      simp only [List.length_append]
      omega
    have hr : readUncompressedMessage message st.offset = some tok.bytes := by
      rw [hm2, ho]
      exact readUncompressedMessage_token pre (tokensText rest) tok (hw tok (List.mem_cons_self _ _))
    have hn : message[st.offset + tok.bytes.length]? = (tokensText rest).head? := by
      rw [hm2, ho, List.getElem?_append_right (by simp)]
      simp only [List.length_append, Nat.sub_self]
      cases tokensText rest <;> simp
    rw [compressLoop, if_pos hl, compressStep_tokenStep, hr, Option.some_bind, hn, runTokens]
    cases hs : tokenStep fl pathList message.length (tokensText rest).head? st tok.bytes with
    | none => rfl
    | some st2 =>
      have ho2 : st2.offset = (pre ++ tok.bytes).length := by
        rw [tokenStep_offset fl pathList _ _ st st2 _ hs, ho, List.length_append]
      simp only [Option.bind_eq_bind, Option.some_bind]
      exact compressLoop_tokens fl pathList message rest (pre ++ tok.bytes) st2 k
        (fun t ht => hw t (List.mem_cons_of_mem _ ht)) hm2 ho2
        (by simp only [List.length_cons] at hf; omega)


theorem length_le_tokensText : ∀ toks : List Token, toks.length ≤ (tokensText toks).length
  | [] => Nat.le_refl _
  | tok :: rest => by
    have h := length_le_tokensText rest
    have hne : 0 < tok.bytes.length := by
      cases tok <;> simp [Token.bytes, quoted]
    simp only [tokensText, List.length_cons, List.length_append]
    omega

/-- The token loop of `CompressMessage` on the text of well-formed tokens is the run over
the tokens one by one. -/
theorem compressLoop_tokensText (fl : FloatLib) (pathList : List Bytes) (toks : List Token)
    (hw : ∀ tok ∈ toks, tok.WellFormed) :
    compressLoop fl pathList (tokensText toks) ((tokensText toks).length + 1)
        { offset := 0, tokenState := 255, isArray := false, message2 := [] }
      = (runTokens fl pathList (tokensText toks).length
          { offset := 0, tokenState := 255, isArray := false, message2 := [] } toks).map
          (fun s => s.message2) :=
  compressLoop_tokens fl pathList (tokensText toks) toks [] _ _ hw rfl rfl
    (Nat.lt_succ_of_le (length_le_tokensText toks))

theorem tokenStep_byte (fl : FloatLib) (pathList : List Bytes) (total : Nat)
    (next : Option Nat) (st : CompressState) (c : Nat) :
    tokenStep fl pathList total next st [c]
      = some (if c = 32 ∨ c = 44 ∨ c = 58 ∨ (c = 123 ∧ st.offset = 0)
                ∨ (c = 125 ∧ st.offset + 1 = total)
              then { st with offset := st.offset + 1 }
              else { st with offset := st.offset + 1,
                             isArray := if c = 93 then false else if c = 91 then true
                                        else st.isArray,
                             message2 := st.message2 ++ [c] }) := by
  simp only [tokenStep, List.length_cons, List.length_nil, List.headD_cons, if_true,
    Option.pure_def]
  by_cases h1 : c = 32
  · simp [h1]
  by_cases h2 : c = 44
  · simp [h2]
  by_cases h3 : c = 58
  · simp [h3]
  by_cases h4 : c = 123 ∧ st.offset = 0
  · simp [h4.1, h4.2]
  by_cases h5 : c = 125 ∧ st.offset + 1 = total
  · simp [h5.1, h5.2]
  have h4b : ¬ (c = 123 ∧ st.offset + (0 + 1) = 1) := by
    intro h
    exact h4 ⟨h.1, by omega⟩
  have h5b : ¬ (c = 125 ∧ st.offset + (0 + 1) = total) := by
    intro h
    exact h5 ⟨h.1, by omega⟩
  simp [h1, h2, h3, h4, h5, h4b, h5b]

theorem tokenStep_literal (fl : FloatLib) (pathList : List Bytes) (total : Nat)
    (next : Option Nat) (st : CompressState) (t : Bytes) :
    tokenStep fl pathList total next st (quoted t)
      = if getCodeListIndex t < 26 then
          (if getCodeListIndex t = 3 ∨ getCodeListIndex t = 2 ∨ getCodeListIndex t = 4
              ∨ getCodeListIndex t = 1 ∨ getCodeListIndex t = 5 then
            some { offset := st.offset + (t.length + 2), tokenState := getCodeListIndex t,
                   isArray := false,
                   message2 := st.message2 ++ [getCodeListIndex t + 128] }
          else some { st with offset := st.offset + (t.length + 2),
                              message2 := st.message2 ++ [getCodeListIndex t + 128] })
        else if st.tokenState = 3 then
          (compressTS (quoted t)).map (fun c =>
            { st with offset := st.offset + (t.length + 2), tokenState := 255,
                      message2 := st.message2 ++ c })
        else if st.tokenState = 2 ∨ st.tokenState = 1 ∨ st.tokenState = 5 then
          (compressValue fl (quoted t)).map (fun c =>
            { st with offset := st.offset + (t.length + 2),
                      tokenState := if st.isArray = false then 255 else st.tokenState,
                      message2 := st.message2 ++ c })
        else if st.tokenState = 4 then
          (compressPath pathList (quoted t)).map (fun c =>
            { st with offset := st.offset + (t.length + 2), tokenState := 255,
                      message2 := st.message2 ++ c })
        else next.map (fun n =>
            { st with offset := st.offset + (t.length + 2),
                      message2 := if n = 58 then st.message2 ++ quoted t ++ [58]
                                  else st.message2 ++ quoted t }) := by
  have hl : (quoted t).length = t.length + 2 := by simp [quoted]
  have h1 : ¬ (t.length + 2 = 1) := by omega
  have h26 : codeList.length % 256 = 26 := by decide
  have hs : slice (quoted t) 1 (t.length + 2 - 1) = some t := by
    rw [← hl]
    exact slice_quoted t
  simp only [tokenStep, hl, hs, h1, if_false, Option.bind_eq_bind, Option.some_bind,
    h26, CODELISTINDEXTS, CODELISTINDEXVALUE, CODELISTINDEXPATH, CODELISTINDEXREQID,
    CODELISTINDEXSUBID, Option.pure_def]
  by_cases hk : getCodeListIndex t < 26
  · have hm : (getCodeListIndex t + 128) % 256 = getCodeListIndex t + 128 := by omega
    simp only [hk, if_true, hm]
  · simp only [hk, if_false]
    split_ifs
    · cases compressTS (quoted t) <;> rfl
    · cases compressValue fl (quoted t) <;> rfl
    · cases compressValue fl (quoted t) <;> rfl
    · cases compressPath pathList (quoted t) <;> rfl
    · cases next <;> rfl

/-! ## Bytes dropped between tokens -/

theorem tokensText_map_byte : ∀ message : Bytes, tokensText (message.map Token.byte) = message
  | [] => rfl
  | c :: t => by
    simp only [List.map_cons, tokensText, Token.bytes, tokensText_map_byte t, List.singleton_append]

theorem runTokens_bytes (fl : FloatLib) (pathList : List Bytes) (total : Nat) :
    ∀ (cs : Bytes) (st : CompressState), 32 ∉ st.message2 → 44 ∉ st.message2 →
      ∃ st2, runTokens fl pathList total st (cs.map Token.byte) = some st2
        ∧ 32 ∉ st2.message2 ∧ 44 ∉ st2.message2
  | [], st, h1, h2 => ⟨st, rfl, h1, h2⟩
  | c :: t, st, h1, h2 => by
    simp only [List.map_cons, runTokens, Token.bytes, tokenStep_byte, Option.bind_eq_bind,
      Option.some_bind]
    by_cases hc : c = 32 ∨ c = 44 ∨ c = 58 ∨ (c = 123 ∧ st.offset = 0)
        ∨ (c = 125 ∧ st.offset + 1 = total)
    · rw [if_pos hc]
      exact runTokens_bytes fl pathList total t _ h1 h2
    · rw [if_neg hc]
      apply runTokens_bytes fl pathList total t
      · intro hm
        rcases List.mem_append.mp hm with e | e
        · exact h1 e
        · rw [List.mem_singleton] at e
          exact hc (Or.inl e.symm)
      · intro hm
        rcases List.mem_append.mp hm with e | e
        · exact h2 e
        · rw [List.mem_singleton] at e
          exact hc (Or.inr (Or.inl e.symm))

set_option maxRecDepth 100000 in
/-- C26 as written fails: the message `[` tab, line feed, carriage return `]` has no quote
mark, and `CompressMessage` returns it unchanged, with the three whitespace bytes 9, 10 and
13 in the output. -/
theorem CompressMessage_keeps_tab_newline :
    34 ∉ ([91, 9, 10, 13, 93] : Bytes)
      ∧ CompressMessage ⟨fun _ => none, fun _ => [], fun _ => []⟩ []
          [91, 9, 10, 13, 93] = some [91, 9, 10, 13, 93] :=
  ⟨by decide, rfl⟩

/-- C26 (amended): for every message without a quote mark the token loop of
`CompressMessage` ends with an output that has no space byte and no comma, and
`CompressMessage` returns that output unless its closing log statements fault, which they
do when the output is empty or `DecompressMessage` faults on it. -/
theorem CompressMessage_drops_space_comma (fl : FloatLib) (pathList : List Bytes)
    (message : Bytes) (hq : 34 ∉ message) :
    ∃ out, compressLoop fl pathList message (message.length + 1)
          { offset := 0, tokenState := 255, isArray := false, message2 := [] } = some out
      ∧ 32 ∉ out ∧ 44 ∉ out
      ∧ CompressMessage fl pathList message
          = if (DecompressMessage fl pathList out).isSome ∧ out ≠ [] then some out else none := by
  have hw : ∀ tok ∈ message.map Token.byte, tok.WellFormed := by
    intro tok ht
    obtain ⟨c, hc, rfl⟩ := List.mem_map.mp ht
    intro e
    exact hq (e ▸ hc)
  have hl := compressLoop_tokensText fl pathList (message.map Token.byte) hw
  rw [tokensText_map_byte] at hl
  obtain ⟨st2, hr, h1, h2⟩ := runTokens_bytes fl pathList message.length message
    { offset := 0, tokenState := 255, isArray := false, message2 := [] }
    (List.not_mem_nil _) (List.not_mem_nil _)
  rw [hr, Option.map_some'] at hl
  refine ⟨st2.message2, hl, h1, h2, ?_⟩
  simp only [CompressMessage, hl, Option.bind_eq_bind, Option.some_bind, Option.pure_def]
  cases hd : DecompressMessage fl pathList st2.message2 with
  | none => simp
  | some d =>
    by_cases he : st2.message2 = []
    · simp [he]
    · have hlen : ¬ (st2.message2.length = 0) := by
        intro h0
        exact he (List.length_eq_zero.mp h0)
      simp [he, hlen]

set_option maxRecDepth 100000 in
/-- The instance `[1, 2]` of the dropped space and comma. -/
theorem CompressMessage_drops_space_comma_witness :
    34 ∉ str "[1, 2]"
      ∧ ∃ out, compressLoop ⟨fun _ => none, fun _ => [], fun _ => []⟩ []
            (str "[1, 2]") ((str "[1, 2]").length + 1)
            { offset := 0, tokenState := 255, isArray := false, message2 := [] } = some out
        ∧ 32 ∉ out ∧ 44 ∉ out
        ∧ CompressMessage ⟨fun _ => none, fun _ => [], fun _ => []⟩ []
            (str "[1, 2]")
          = if (DecompressMessage ⟨fun _ => none, fun _ => [], fun _ => []⟩ []
                out).isSome ∧ out ≠ [] then some out else none :=
  ⟨by decide, CompressMessage_drops_space_comma _ _ _ (by decide)⟩

/-! ## A whole request -/

theorem Itoa_bytes (n : Int) : ∀ b ∈ Itoa n, b = 45 ∨ (48 ≤ b ∧ b ≤ 57) := by
  intro b hb
  unfold Itoa at hb
  split at hb
  · rcases List.mem_cons.mp hb with e | e
    · exact Or.inl e
    · exact Or.inr (digits_natDec _ b e)
  · exact Or.inr (digits_natDec _ b hb)

theorem Itoa_no_quote (n : Int) : 34 ∉ Itoa n := by
  intro h
  rcases Itoa_bytes n 34 h with e | e <;> omega

theorem Itoa_head (n : Int) : ∃ c t, Itoa n = c :: t ∧ c ≤ 57 := by
  obtain ⟨c, t, h, _, h2⟩ := headDigit_natDec n.natAbs
  unfold Itoa
  split
  · exact ⟨45, _, rfl, by omega⟩
  · exact ⟨c, t, h, h2⟩

theorem getCodeListIndex_Itoa (n : Int) : getCodeListIndex (Itoa n) = 255 := by
  apply getCodeListIndexFrom_not_mem
  intro hm
  obtain ⟨c, t, h, hc⟩ := Itoa_head n
  have hall : ∀ e ∈ codeList, e.head? ≠ some c := by
    have h97 : ∀ e ∈ codeList, ∀ d ∈ e.head?, 97 ≤ d := by decide
    intro e he hh
    have := h97 e he c (by rw [hh]; rfl)
    omega
  exact hall _ hm (by rw [h]; rfl)

theorem compressValue_Itoa (fl : FloatLib) (n : Int) (hn : -(2 ^ 32 : Int) < n ∧ n < 2 ^ 32) :
    compressValue fl (quoted (Itoa n)) = some (intEncoding n) := by
  have hA : Atoi (Itoa n) = (n, true) := Atoi_Itoa n (by omega)
  have hc : compressIntValue (quoted (Itoa n)) = some (intEncoding n) :=
    compressIntValue_of_parse _ _ n (slice_quoted _) (by rw [hA]) hn
  simp only [compressValue, slice_quoted, Option.bind_eq_bind, Option.some_bind,
    AnalyzeValueType, hA, if_true, hc]

theorem compressPath_at_index (pathList : List Bytes) (p : Bytes) (i : Nat)
    (hs : SortedPaths pathList) (hnd : pathList.Nodup) (hi : pathList[i]? = some p)
    (h16 : i < 65536) :
    compressPath pathList (quoted p) = some [i / 256, i % 256] := by
  have hp : p ∈ pathList := List.mem_iff_getElem?.mpr ⟨i, hi⟩
  obtain ⟨hr, hget⟩ := sortSearch_finds pathList p hs hp
  have hne : ¬ (pathList.length = 0) := by omega
  have hidx : sortSearch pathList.length (fun i => strLe p (pathList.getD i [])) = i := by
    obtain ⟨h1, h2⟩ := List.getElem?_eq_some_iff.mp hi
    obtain ⟨h3, h4⟩ := List.getElem?_eq_some_iff.mp hget
    exact (List.Nodup.getElem_inj_iff hnd).mp (h4.trans h2.symm)
  rw [hidx] at hr hget
  have e1 : i / 256 % 256 * 256 / 256 % 256 = i / 256 := by omega
  simp only [compressPath, hne, if_false, slice_quoted, Option.bind_eq_bind,
    Option.some_bind, hidx, hr, hget, and_self, if_true, Option.pure_def, land_0xFF00, land_255,
    e1, Nat.mod_mod]


theorem tokensText_append : ∀ a b : List Token, tokensText (a ++ b) = tokensText a ++ tokensText b
  | [], b => rfl
  | tok :: r, b => by
    rw [List.cons_append, tokensText, tokensText, tokensText_append r b, List.append_assoc]

theorem length_quoted (t : Bytes) : (quoted t).length = t.length + 2 := by simp [quoted]

theorem tokenStep_colon (fl : FloatLib) (pathList : List Bytes) (total : Nat)
    (next : Option Nat) (o ts : Nat) (ia : Bool) (m2 : Bytes) :
    tokenStep fl pathList total next ⟨o, ts, ia, m2⟩ [58] = some ⟨o + 1, ts, ia, m2⟩ := by
  rw [tokenStep_byte]
  simp

theorem tokenStep_comma (fl : FloatLib) (pathList : List Bytes) (total : Nat)
    (next : Option Nat) (o ts : Nat) (ia : Bool) (m2 : Bytes) :
    tokenStep fl pathList total next ⟨o, ts, ia, m2⟩ [44] = some ⟨o + 1, ts, ia, m2⟩ := by
  rw [tokenStep_byte]
  simp

theorem tokenStep_open (fl : FloatLib) (pathList : List Bytes) (total : Nat)
    (next : Option Nat) (ts : Nat) (ia : Bool) (m2 : Bytes) :
    tokenStep fl pathList total next ⟨0, ts, ia, m2⟩ [123] = some ⟨1, ts, ia, m2⟩ := by
  rw [tokenStep_byte]
  simp

theorem tokenStep_close (fl : FloatLib) (pathList : List Bytes) (total : Nat)
    (next : Option Nat) (o ts : Nat) (ia : Bool) (m2 : Bytes) (h : o + 1 = total) :
    tokenStep fl pathList total next ⟨o, ts, ia, m2⟩ [125] = some ⟨o + 1, ts, ia, m2⟩ := by
  rw [tokenStep_byte]
  simp [h]

theorem tokenStep_bracket_open (fl : FloatLib) (pathList : List Bytes) (total : Nat)
    (next : Option Nat) (o ts : Nat) (ia : Bool) (m2 : Bytes) :
    tokenStep fl pathList total next ⟨o, ts, ia, m2⟩ [91] = some ⟨o + 1, ts, true, m2 ++ [91]⟩ := by
  rw [tokenStep_byte]
  simp

theorem tokenStep_bracket_close (fl : FloatLib) (pathList : List Bytes) (total : Nat)
    (next : Option Nat) (o ts : Nat) (ia : Bool) (m2 : Bytes) :
    tokenStep fl pathList total next ⟨o, ts, ia, m2⟩ [93]
      = some ⟨o + 1, ts, false, m2 ++ [93]⟩ := by
  rw [tokenStep_byte]
  simp

/-- A dictionary token that names one of the five special fields sets the pending kind. -/
theorem tokenStep_field (fl : FloatLib) (pathList : List Bytes) (total : Nat)
    (next : Option Nat) (o ts : Nat) (ia : Bool) (m2 : Bytes) (t : Bytes) (k : Nat)
    (hk : getCodeListIndex t = k) (h : 1 ≤ k ∧ k ≤ 5) :
    tokenStep fl pathList total next ⟨o, ts, ia, m2⟩ (quoted t)
      = some ⟨o + (t.length + 2), k, false, m2 ++ [k + 128]⟩ := by
  have h1 : k < 26 := by omega
  have h2 : k = 3 ∨ k = 2 ∨ k = 4 ∨ k = 1 ∨ k = 5 := by omega
  simp only [tokenStep_literal, hk, h1, h2, if_true]

/-- Another dictionary token is replaced by its code and leaves the pending kind. -/
theorem tokenStep_entry (fl : FloatLib) (pathList : List Bytes) (total : Nat)
    (next : Option Nat) (o ts : Nat) (ia : Bool) (m2 : Bytes) (t : Bytes) (k : Nat)
    (hk : getCodeListIndex t = k) (h : k = 0 ∨ (6 ≤ k ∧ k < 26)) :
    tokenStep fl pathList total next ⟨o, ts, ia, m2⟩ (quoted t)
      = some ⟨o + (t.length + 2), ts, ia, m2 ++ [k + 128]⟩ := by
  have h1 : k < 26 := by omega
  have h2 : ¬ (k = 3 ∨ k = 2 ∨ k = 4 ∨ k = 1 ∨ k = 5) := by omega
  simp only [tokenStep_literal, hk, h1, h2, if_true, if_false]

/-- A literal outside the dictionary under a pending value kind is value-encoded. -/
theorem tokenStep_value (fl : FloatLib) (pathList : List Bytes) (total : Nat)
    (next : Option Nat) (o ts : Nat) (ia : Bool) (m2 : Bytes) (t c : Bytes)
    (hk : getCodeListIndex t = 255) (hts : ts = 2 ∨ ts = 1 ∨ ts = 5)
    (hc : compressValue fl (quoted t) = some c) :
    tokenStep fl pathList total next ⟨o, ts, ia, m2⟩ (quoted t)
      = some ⟨o + (t.length + 2), if ia = false then 255 else ts, ia, m2 ++ c⟩ := by
  have h1 : ¬ ((255 : Nat) < 26) := by omega
  have h2 : ¬ (ts = 3) := by omega
  simp only [tokenStep_literal, hk, h1, h2, hts, hc, if_true, if_false, Option.map_some']

/-- A literal outside the dictionary under the pending kind `path` is path-encoded. -/
theorem tokenStep_path (fl : FloatLib) (pathList : List Bytes) (total : Nat)
    (next : Option Nat) (o : Nat) (ia : Bool) (m2 : Bytes) (t c : Bytes)
    (hk : getCodeListIndex t = 255) (hc : compressPath pathList (quoted t) = some c) :
    tokenStep fl pathList total next ⟨o, 4, ia, m2⟩ (quoted t)
      = some ⟨o + (t.length + 2), 255, ia, m2 ++ c⟩ := by
  have h1 : ¬ ((255 : Nat) < 26) := by omega
  have h2 : ¬ ((4 : Nat) = 3) := by omega
  have h3 : ¬ ((4 : Nat) = 2 ∨ (4 : Nat) = 1 ∨ (4 : Nat) = 5) := by omega
  simp only [tokenStep_literal, hk, h1, h2, h3, hc, if_true, if_false, Option.map_some']

/-- A literal outside the dictionary with no pending kind passes through, with the colon
that follows it, if any. -/
theorem tokenStep_other (fl : FloatLib) (pathList : List Bytes) (total : Nat)
    (n : Nat) (o : Nat) (ia : Bool) (m2 : Bytes) (t : Bytes)
    (hk : getCodeListIndex t = 255) :
    tokenStep fl pathList total (some n) ⟨o, 255, ia, m2⟩ (quoted t)
      = some ⟨o + (t.length + 2), 255, ia,
          if n = 58 then m2 ++ quoted t ++ [58] else m2 ++ quoted t⟩ := by
  have h1 : ¬ ((255 : Nat) < 26) := by omega
  have h2 : ¬ ((255 : Nat) = 3) := by omega
  have h3 : ¬ ((255 : Nat) = 2 ∨ (255 : Nat) = 1 ∨ (255 : Nat) = 5) := by omega
  have h4 : ¬ ((255 : Nat) = 4) := by omega
  simp only [tokenStep_literal, hk, h1, h2, h3, h4, if_false, Option.map_some']

theorem runTokens_get_request (fl : FloatLib) (pathList : List Bytes) (a g p r P T : Bytes)
    (pc vc : Bytes) (g1 : getCodeListIndex a = 0) (g2 : getCodeListIndex g = 10)
    (g3 : getCodeListIndex p = 4) (g4 : getCodeListIndex r = 1)
    (hk : getCodeListIndex P = 255) (hpc : compressPath pathList (quoted P) = some pc)
    (hT : getCodeListIndex T = 255) (hvc : compressValue fl (quoted T) = some vc) :
    (runTokens fl pathList
        (tokensText [Token.byte 123, Token.literal a, Token.byte 58,
          Token.literal g, Token.byte 44, Token.literal p, Token.byte 58,
          Token.literal P, Token.byte 44, Token.literal r, Token.byte 58,
          Token.literal T, Token.byte 125]).length
        { offset := 0, tokenState := 255, isArray := false, message2 := [] }
        [Token.byte 123, Token.literal a, Token.byte 58,
          Token.literal g, Token.byte 44, Token.literal p, Token.byte 58,
          Token.literal P, Token.byte 44, Token.literal r, Token.byte 58,
          Token.literal T, Token.byte 125]).map (fun s => s.message2)
      = some ([128, 138, 132] ++ pc ++ [129] ++ vc) := by
  rw [runTokens, Token.bytes, tokenStep_open, Option.some_bind]
  rw [runTokens, Token.bytes, tokenStep_entry fl pathList _ _ _ _ _ _ _ 0 g1 (Or.inl rfl),
    Option.some_bind]
  rw [runTokens, Token.bytes, tokenStep_colon, Option.some_bind]
  rw [runTokens, Token.bytes, tokenStep_entry fl pathList _ _ _ _ _ _ _ 10 g2 (Or.inr (by omega)),
    Option.some_bind]
  rw [runTokens, Token.bytes, tokenStep_comma, Option.some_bind]
  rw [runTokens, Token.bytes, tokenStep_field fl pathList _ _ _ _ _ _ _ 4 g3 (by omega),
    Option.some_bind]
  rw [runTokens, Token.bytes, tokenStep_colon, Option.some_bind]
  rw [runTokens, Token.bytes, tokenStep_path fl pathList _ _ _ _ _ _ _ hk hpc,
    Option.some_bind]
  rw [runTokens, Token.bytes, tokenStep_comma, Option.some_bind]
  rw [runTokens, Token.bytes, tokenStep_field fl pathList _ _ _ _ _ _ _ 1 g4 (by omega),
    Option.some_bind]
  rw [runTokens, Token.bytes, tokenStep_colon, Option.some_bind]
  rw [runTokens, Token.bytes,
    tokenStep_value fl pathList _ _ _ _ _ _ _ _ hT (Or.inr (Or.inl rfl)) hvc, Option.some_bind]
  rw [runTokens, Token.bytes, tokenStep_close, Option.some_bind, runTokens]
  · simp
  · simp only [tokensText, Token.bytes, length_quoted, List.length_append,
      List.length_cons, List.length_nil]
    omega


/-! ## The decoder does not fault -/

/-- The comma test that closes `readCompressedMessage` returns a result whenever the test
position is inside the message or the test is off. -/
theorem comma_tail_total (cond : Prop) [Decidable cond] (message : Bytes) (k : Nat)
    (t : Bytes) (n : Nat) (h1 : 1 ≤ k) (hc : cond → k < message.length) :
    ∃ tok, (if cond then
            message[k]?.bind fun a1 =>
              if a1 ≠ 125 ∧ a1 ≠ 93 then
                message[k - 1]?.bind fun a2 =>
                  if a2 ≠ 123 ∧ a2 ≠ 91 then some (t ++ [44], n) else some (t, n)
              else some (t, n)
          else some (t, n)) = some (tok, n) := by
  by_cases h : cond
  · have hk := hc h
    have hk1 : k - 1 < message.length := by omega
    rw [if_pos h, List.getElem?_eq_getElem hk, Option.some_bind,
      List.getElem?_eq_getElem hk1, Option.some_bind]
    split_ifs
    · exact ⟨_, rfl⟩
    · exact ⟨_, rfl⟩
    · exact ⟨_, rfl⟩
  · rw [if_neg h]
    exact ⟨_, rfl⟩

set_option maxRecDepth 100000 in
/-- On the code of `path` followed by a valid index `readCompressedMessage` reads 3 bytes. -/
theorem readCompressedMessage_path_total (fl : FloatLib) (pathList : List Bytes)
    (message : Bytes) (offset : Nat) (p : Bytes) (hm : message[offset]? = some 132)
    (hp : decompressPath pathList (message.drop (offset + 1)) = some p)
    (hl : offset + 3 ≤ message.length) :
    ∃ tok, readCompressedMessage fl pathList message offset = some (tok, 3) := by
  have hge : (132 : Nat) ≥ 128 := by omega
  have hb : bsub 132 128 = 4 := by decide
  have e1 : (4 : Nat) < CODELISTKEYVALUES := by decide
  have e2 : (4 : Nat) = CODELISTINDEXPATH := by decide
  have he : codeList[4]? = some (str "path") := by decide
  have hs : sliceFrom message (offset + 1) = some (message.drop (offset + 1)) := by
    rw [sliceFrom, if_pos (by omega)]
  simp only [readCompressedMessage, hm, Option.bind_eq_bind, Option.some_bind, hge, if_true,
    hb, e1, he, Option.pure_def, ← e2, hs, hp, true_and]
  exact comma_tail_total _ message (offset + (1 + 2)) _ _ (by omega) (by
    intro h
    have := h.2.2.2
    omega)

set_option maxRecDepth 100000 in
/-- On the code of `value`, `requestId` or `subscriptionId` followed by a decodable value
`readCompressedMessage` reads the code and the bytes of the value. -/
theorem readCompressedMessage_value_total (fl : FloatLib) (pathList : List Bytes)
    (message : Bytes) (offset i : Nat) (v : Bytes) (n : Nat)
    (hm : message[offset]? = some (128 + i)) (hi : i = 2 ∨ i = 1 ∨ i = 5)
    (hv : decompressValue fl (message.drop (offset + 1)) = some (v, n))
    (hl : offset + 1 + n ≤ message.length) :
    ∃ tok, readCompressedMessage fl pathList message offset = some (tok, 1 + n) := by
  have hge : 128 + i ≥ 128 := by omega
  have e1 : i < CODELISTKEYVALUES := by simp [CODELISTKEYVALUES]; omega
  have e2 : ¬ (i = CODELISTINDEXPATH) := by simp [CODELISTINDEXPATH]; omega
  have e3 : ¬ (i = getCodeListIndex (str "ts")) := by
    have : getCodeListIndex (str "ts") = 3 := by decide
    omega
  have e4 : i = CODELISTINDEXVALUE ∨ i = CODELISTINDEXREQID ∨ i = CODELISTINDEXSUBID := by
    simpa [CODELISTINDEXVALUE, CODELISTINDEXREQID, CODELISTINDEXSUBID] using hi
  have hlen : i < codeList.length := by
    have : codeList.length = 26 := by decide
    omega
  have he : codeList[i]? = some (codeList[i]) := List.getElem?_eq_getElem hlen
  have hs : sliceFrom message (offset + 1) = some (message.drop (offset + 1)) := by
    rw [sliceFrom, if_pos (by omega)]
  simp only [readCompressedMessage, hm, Option.bind_eq_bind, Option.some_bind, hge, if_true,
    bsub_wire i (by omega), e1, e2, e3, e4, if_false, he, Option.pure_def, hs, hv, true_and]
  exact comma_tail_total _ message (offset + (1 + n)) _ _ (by omega) (by
    intro h
    have := h.2.2.2
    omega)

/-- On the code of a dictionary entry below 15 without payload `readCompressedMessage`
reads 1 byte. -/
theorem readCompressedMessage_plain_total (fl : FloatLib) (pathList : List Bytes)
    (message : Bytes) (offset i : Nat) (hm : message[offset]? = some (128 + i))
    (hi : i < 15) (hs : i = 0 ∨ 6 ≤ i) :
    ∃ tok, readCompressedMessage fl pathList message offset = some (tok, 1) := by
  obtain ⟨entry, _, h | h⟩ :=
    readCompressedMessage_plain_entry fl pathList message offset i hm hi hs
  · exact ⟨_, h⟩
  · exact ⟨_, h⟩

theorem decompressLoop_step (fl : FloatLib) (pathList : List Bytes) (message : Bytes)
    (fuel offset : Nat) (acc tok : Bytes) (n : Nat) (ho : offset < message.length)
    (hr : readCompressedMessage fl pathList message offset = some (tok, n)) :
    decompressLoop fl pathList message (fuel + 1) offset acc
      = decompressLoop fl pathList message fuel (offset + n) (acc ++ tok) := by
  rw [decompressLoop, if_pos ho, hr]
  rfl

theorem decompressLoop_done (fl : FloatLib) (pathList : List Bytes) (message : Bytes)
    (fuel offset : Nat) (acc : Bytes) (ho : ¬ offset < message.length) :
    decompressLoop fl pathList message (fuel + 1) offset acc = some acc := by
  rw [decompressLoop, if_neg ho]
  rfl

theorem DecompressMessage_of_loop (fl : FloatLib) (pathList : List Bytes) (message : Bytes)
    (h : ∀ lead, ∃ d, decompressLoop fl pathList message (message.length + 1) 0 lead = some d) :
    ∃ d, DecompressMessage fl pathList message = some d := by
  unfold DecompressMessage
  split
  · exact ⟨_, rfl⟩
  · obtain ⟨d, hd⟩ := h (if message.head? ≠ some 123 then [123] else [])
    simp only [hd, Option.bind_eq_bind, Option.some_bind, Option.pure_def]
    exact ⟨_, rfl⟩


/-! ## Decoding of values and arrays of values -/

theorem decodable_int (fl : FloatLib) (n : Int) (hn : -(2 ^ 32 : Int) < n ∧ n < 2 ^ 32) :
    Decodable fl (intEncoding n) := by
  refine ⟨⟨_, _, rfl, ?_, ?_, ?_, ?_⟩, ?_⟩
  · omega
  · omega
  · omega
  · omega
  · intro rest
    have h := decode_uint fl (decide (0 ≤ n)) n.natAbs (by omega) rest
    refine ⟨(if decide (0 ≤ n) = true then str "\"" else str "\"-") ++ natDec n.natAbs
      ++ str "\"", ?_⟩
    rw [intEncoding, h, List.length_cons, bigEndian_length, Nat.add_comm]

theorem decodable_bool (fl : FloatLib) (b : Nat) : Decodable fl [151, b] := by
  refine ⟨⟨_, _, rfl, by omega, by omega, by omega, by omega⟩, ?_⟩
  intro rest
  refine ⟨if b = 0 then str "\"false\"" else str "\"true\"", ?_⟩
  simp [decompressOneValue, codeList, bsub, str]

theorem decodable_other (fl : FloatLib) (c : Nat) (cs : Bytes) (h : 34 ∉ cs) :
    Decodable fl (compressOtherValue (quoted (c :: cs))) := by
  have e : compressOtherValue (quoted (c :: cs)) = 153 :: quoted (c :: cs) := by
    have : getCodeListIndex (str "unknown") = 25 := by decide
    simp [compressOtherValue, this]
  refine ⟨⟨153, _, e, by omega, by omega, by omega, by omega⟩, ?_⟩
  intro rest
  refine ⟨quoted (c :: cs), ?_⟩
  rw [decompressOneValue_compressOtherValue_nonempty fl c cs rest h, e, List.length_cons]

theorem decompressValue_single (fl : FloatLib) (c rest : Bytes) (hc : Decodable fl c) :
    ∃ text, decompressValue fl (c ++ rest) = some (text, c.length) := by
  obtain ⟨⟨b, t, rfl, h1, h2, h3, h4⟩, hd⟩ := hc
  obtain ⟨v, hv⟩ := hd rest
  have hb : ¬ (b = 91 ∨ b = 93 ∨ b = 44 ∨ b = 123) := by
    intro h
    rcases h with h | h | h | h <;> contradiction
  have hs : sliceFrom (b :: t ++ rest) 0 = some (b :: t ++ rest) := by
    simp [sliceFrom]
  have h0 : (b :: t ++ rest)[0]? = some b := by simp
  simp only [decompressValue, List.length_cons, decompressValueLoop, h0,
    Option.bind_eq_bind, Option.some_bind, hb, if_false, hs, hv, if_true, Nat.zero_add,
    Option.pure_def]
  exact ⟨_, rfl⟩

theorem decompressValueLoop_array (fl : FloatLib) (rest : Bytes) :
    ∀ (cs : List Bytes) (pre acc : Bytes) (fuel : Nat), (∀ c ∈ cs, Decodable fl c) →
      1 ≤ pre.length → cs.length < fuel →
      ∃ text, decompressValueLoop fl (pre ++ (cs.flatten ++ 93 :: rest)) fuel pre.length acc
        = some (text, pre.length + cs.flatten.length + 1)
  | [], pre, acc, fuel, _, _, hf => by
    obtain ⟨k, rfl⟩ : ∃ k, fuel = k + 1 := ⟨fuel - 1, by simp at hf; omega⟩
    have h0 : (pre ++ (([] : List Bytes).flatten ++ 93 :: rest))[pre.length]? = some 93 := by
      rw [List.getElem?_append_right (le_refl _)]
      simp
    simp only [decompressValueLoop, h0, Option.bind_eq_bind, Option.some_bind]
    simp
  | c :: cs, pre, acc, fuel, hd, hp, hf => by
    obtain ⟨k, rfl⟩ : ∃ k, fuel = k + 1 := ⟨fuel - 1, by simp at hf; omega⟩
    obtain ⟨⟨b, t, rfl, h1, h2, h3, h4⟩, hdec⟩ := hd _ (List.mem_cons_self _ _)
    obtain ⟨v, hv⟩ := hdec (cs.flatten ++ 93 :: rest)
    have hb : ¬ (b = 91 ∨ b = 93 ∨ b = 44 ∨ b = 123) := by
      intro h
      rcases h with h | h | h | h <;> contradiction
    have h0 : (pre ++ (((b :: t) :: cs).flatten ++ 93 :: rest))[pre.length]? = some b := by
      rw [List.getElem?_append_right (le_refl _)]
      simp
    have hs : sliceFrom (pre ++ (((b :: t) :: cs).flatten ++ 93 :: rest)) pre.length
        = some ((b :: t) ++ (cs.flatten ++ 93 :: rest)) := by
      rw [sliceFrom, if_pos (by simp), drop_append_len _ _ _ rfl, List.flatten_cons,
        List.append_assoc]
    have hne : ¬ (pre.length = 0) := by omega
    have hm : pre ++ (((b :: t) :: cs).flatten ++ 93 :: rest)
        = (pre ++ (b :: t)) ++ (cs.flatten ++ 93 :: rest) := by
      simp
    have hlen : pre.length + (b :: t).length = (pre ++ (b :: t)).length := by simp
    obtain ⟨text, ih⟩ := decompressValueLoop_array fl rest cs (pre ++ (b :: t))
      (if pre.length + (b :: t).length < (pre ++ (((b :: t) :: cs).flatten ++ 93 :: rest)).length
            ∧ (pre ++ (((b :: t) :: cs).flatten ++ 93 :: rest))[pre.length + (b :: t).length]?
              = some b
        then acc ++ v ++ [44] else acc ++ v) k
      (fun c hc => hd c (List.mem_cons_of_mem _ hc)) (by rw [List.length_append]; omega)
      (by simp only [List.length_cons] at hf; omega)
    refine ⟨text, ?_⟩
    rw [decompressValueLoop]
    simp only [h0, Option.bind_eq_bind, Option.some_bind, hb, if_false, hs, hv, hne]
    rw [hlen, hm] at *
    rw [ih]
    simp only [List.flatten_cons, List.length_append]
    congr 2
    omega

/-- An array of decodable values between brackets is read by `decompressValue` up to and
including the closing bracket. -/
theorem decompressValue_array (fl : FloatLib) (cs : List Bytes) (rest : Bytes)
    (hd : ∀ c ∈ cs, Decodable fl c) :
    ∃ text, decompressValue fl (91 :: (cs.flatten ++ 93 :: rest))
      = some (text, cs.flatten.length + 2) := by
  have hlen : cs.length ≤ cs.flatten.length := by
    clear rest
    induction cs with
    | nil => simp
    | cons c r ih =>
      obtain ⟨⟨b, t, rfl, -⟩, -⟩ := hd _ (List.mem_cons_self _ _)
      have := ih (fun c hc => hd c (List.mem_cons_of_mem _ hc))
      simp only [List.flatten_cons, List.length_append, List.length_cons]
      omega
  obtain ⟨text, h⟩ := decompressValueLoop_array fl rest cs [91] ([] ++ [91])
    ((cs.flatten ++ 93 :: rest).length + 1) hd (by simp)
    (by simp only [List.length_append, List.length_cons]; omega)
  refine ⟨text, ?_⟩
  have h0 : (91 :: (cs.flatten ++ 93 :: rest))[0]? = some 91 := by simp
  rw [decompressValue, List.length_cons, decompressValueLoop]
  simp only [h0, Option.bind_eq_bind, Option.some_bind, true_or, if_true]
  have hn : ¬ ((91 : Nat) = 93 ∨ (91 : Nat) = 123) := by omega
  rw [if_neg hn]
  have e : (91 :: (cs.flatten ++ 93 :: rest)) = [91] ++ (cs.flatten ++ 93 :: rest) := rfl
  rw [e]
  simp only [List.length_singleton, Nat.zero_add] at h
  rw [h]
  congr 2
  omega


theorem DecompressMessage_get_request (fl : FloatLib) (pathList : List Bytes) (P : Bytes)
    (i : Nat) (enc : Bytes) (hi : pathList[i]? = some P) (henc : Decodable fl enc) :
    ∃ d, DecompressMessage fl pathList ([128, 138, 132, i / 256, i % 256, 129] ++ enc)
      = some d := by
  apply DecompressMessage_of_loop
  intro lead
  have hlen : ([128, 138, 132, i / 256, i % 256, 129] ++ enc).length = enc.length + 6 := by
    simp
  obtain ⟨t0, r0⟩ := readCompressedMessage_plain_total fl pathList
    ([128, 138, 132, i / 256, i % 256, 129] ++ enc) 0 0 rfl (by omega) (Or.inl rfl)
  obtain ⟨t1, r1⟩ := readCompressedMessage_plain_total fl pathList
    ([128, 138, 132, i / 256, i % 256, 129] ++ enc) 1 10 rfl (by omega) (Or.inr (by omega))
  have hp : decompressPath pathList
      (([128, 138, 132, i / 256, i % 256, 129] ++ enc).drop (2 + 1)) = some (quoted P) := by
    have e : i / 256 * 256 + i % 256 = i := by omega
    have hq : str "\"" = [34] := by decide
    simp only [decompressPath, List.cons_append, List.drop_succ_cons, List.drop_zero,
      List.getElem?_cons_zero, List.getElem?_cons_succ, Option.bind_eq_bind, Option.some_bind,
      e, hi, Option.pure_def, hq, quoted]
    rfl
  obtain ⟨t2, r2⟩ := readCompressedMessage_path_total fl pathList
    ([128, 138, 132, i / 256, i % 256, 129] ++ enc) 2 (quoted P) rfl hp (by rw [hlen]; omega)
  obtain ⟨v, hv⟩ := decompressValue_single fl enc [] henc
  rw [List.append_nil] at hv
  have hv2 : decompressValue fl
      (([128, 138, 132, i / 256, i % 256, 129] ++ enc).drop (5 + 1)) = some (v, enc.length) := by
    rw [← hv]
    rfl
  obtain ⟨t3, r3⟩ := readCompressedMessage_value_total fl pathList
    ([128, 138, 132, i / 256, i % 256, 129] ++ enc) 5 1 v enc.length (by simp)
    (Or.inr (Or.inl rfl)) hv2 (by rw [hlen]; omega)
  have hf : ([128, 138, 132, i / 256, i % 256, 129] ++ enc).length + 1
      = enc.length + 2 + 1 + 1 + 1 + 1 + 1 := by
    rw [hlen]
  rw [hf, decompressLoop_step fl pathList _ _ 0 _ _ _ (by rw [hlen]; omega) r0,
    decompressLoop_step fl pathList _ _ (0 + 1) _ _ _ (by rw [hlen]; omega) r1,
    decompressLoop_step fl pathList _ _ (0 + 1 + 1) _ _ _ (by rw [hlen]; omega) r2,
    decompressLoop_step fl pathList _ _ (0 + 1 + 1 + 3) _ _ _ (by rw [hlen]; omega) r3,
    decompressLoop_done fl pathList _ _ _ _ (by rw [hlen]; omega)]
  exact ⟨_, rfl⟩

/-- C25 as written fails: with the path list `["get"]` the path `get` stands at index 0, but
`"get"` is a dictionary token, so the literal is coded as the byte 138, not as a path index;
the output `[128, 138, 132, 138, 129, 144, 1]` is not what the claim says
(`[128, 138, 132, 0, 0, 129, 144, 1]`), and the closing log statement, which decompresses
it, faults on the path index `138 * 256 + 129`, so `CompressMessage` returns nothing.  With
the sorted list `["A", "A"]` the path `A` stands at index 1 too, but the search finds
index 0. -/
theorem CompressMessage_path_is_token :
    SortedPaths [str "get"] ∧ [str "get"][0]? = some (str "get")
      ∧ compressLoop ⟨fun _ => none, fun _ => [], fun _ => []⟩ [str "get"]
          (str "\x7b\"action\":\"get\",\"path\":\"get\",\"requestId\":\"1\"\x7d")
          ((str "\x7b\"action\":\"get\",\"path\":\"get\",\"requestId\":\"1\"\x7d").length + 1)
          { offset := 0, tokenState := 255, isArray := false, message2 := [] }
        = some [128, 138, 132, 138, 129, 144, 1]
      ∧ CompressMessage ⟨fun _ => none, fun _ => [], fun _ => []⟩ [str "get"]
          (str "\x7b\"action\":\"get\",\"path\":\"get\",\"requestId\":\"1\"\x7d") = none
      ∧ SortedPaths [str "A", str "A"] ∧ [str "A", str "A"][1]? = some (str "A")
      ∧ CompressMessage ⟨fun _ => none, fun _ => [], fun _ => []⟩
          [str "A", str "A"]
          (str "\x7b\"action\":\"get\",\"path\":\"A\",\"requestId\":\"1\"\x7d")
        = some [128, 138, 132, 0, 0, 129, 144, 1] := by
  refine ⟨?_, by decide, by decide, by decide, ?_, by decide, by decide⟩
  · unfold SortedPaths
    decide
  · unfold SortedPaths
    decide


/-- C25 (amended): for every path `P` without a quote mark that is no dictionary token and
stands at index `i < 65536` of the path list, sorted ascending without duplicates, and every
integer `N` with `|N| < 2^32` in canonical decimal, `CompressMessage` turns
`{"action":"get","path":"P","requestId":"N"}` into
`[128, 138, 132, i / 256, i mod 256, 129]` followed by `compressIntValue("N")`. -/
theorem CompressMessage_get_request (fl : FloatLib) (pathList : List Bytes) (P : Bytes)
    (i : Nat) (N : Int) (hs : SortedPaths pathList) (hnd : pathList.Nodup)
    (hi : pathList[i]? = some P) (h16 : i < 65536) (hq : 34 ∉ P) (hk : P ∉ codeList)
    (hN : -(2 ^ 32 : Int) < N ∧ N < 2 ^ 32) :
    ∃ c, compressIntValue (quoted (Itoa N)) = some c
      ∧ CompressMessage fl pathList
          (str "\x7b\"action\":\"get\",\"path\":" ++ quoted P ++ str ",\"requestId\":"
            ++ quoted (Itoa N) ++ str "\x7d")
        = some ([128, 138, 132, i / 256, i % 256, 129] ++ c) := by
  have hA : Atoi (Itoa N) = (N, true) := Atoi_Itoa N (by omega)
  have hc : compressIntValue (quoted (Itoa N)) = some (intEncoding N) :=
    compressIntValue_of_parse _ _ N (slice_quoted _) (by rw [hA]) hN
  refine ⟨intEncoding N, hc, ?_⟩
  have e1 : str "\x7b\"action\":\"get\",\"path\":"
      = tokensText [Token.byte 123, Token.literal (str "action"), Token.byte 58,
          Token.literal (str "get"), Token.byte 44, Token.literal (str "path"),
          Token.byte 58] := by decide
  have e2 : str ",\"requestId\":"
      = tokensText [Token.byte 44, Token.literal (str "requestId"), Token.byte 58] := by decide
  have e3 : str "\x7d" = tokensText [Token.byte 125] := by decide
  have e4 : ∀ t : Bytes, quoted t = tokensText [Token.literal t] := by
    intro t
    simp [tokensText, Token.bytes]
  have hm : str "\x7b\"action\":\"get\",\"path\":" ++ quoted P ++ str ",\"requestId\":"
        ++ quoted (Itoa N) ++ str "\x7d"
      = tokensText [Token.byte 123, Token.literal (str "action"), Token.byte 58,
          Token.literal (str "get"), Token.byte 44, Token.literal (str "path"), Token.byte 58,
          Token.literal P, Token.byte 44, Token.literal (str "requestId"), Token.byte 58,
          Token.literal (Itoa N), Token.byte 125] := by
    rw [e1, e2, e3, e4 P, e4 (Itoa N), ← tokensText_append, ← tokensText_append,
      ← tokensText_append, ← tokensText_append]
    rfl
  have hw : ∀ tok ∈ [Token.byte 123, Token.literal (str "action"), Token.byte 58,
          Token.literal (str "get"), Token.byte 44, Token.literal (str "path"), Token.byte 58,
          Token.literal P, Token.byte 44, Token.literal (str "requestId"), Token.byte 58,
          Token.literal (Itoa N), Token.byte 125], tok.WellFormed := by
    have w1 : 34 ∉ str "action" := by decide
    have w2 : 34 ∉ str "get" := by decide
    have w3 : 34 ∉ str "path" := by decide
    have w4 : 34 ∉ str "requestId" := by decide
    intro tok ht
    simp only [List.mem_cons, List.mem_singleton, List.not_mem_nil, or_false] at ht
    rcases ht with rfl | rfl | rfl | rfl | rfl | rfl | rfl | rfl | rfl | rfl | rfl | rfl | rfl
    all_goals first
      | (show (_ : Nat) ≠ 34; omega)
      | exact w1
      | exact w2
      | exact w3
      | exact w4
      | exact hq
      | exact Itoa_no_quote N
  have hloop := compressLoop_tokensText fl pathList _ hw
  rw [runTokens_get_request fl pathList _ _ _ _ P (Itoa N) [i / 256, i % 256] (intEncoding N)
    (by decide) (by decide) (by decide) (by decide)
    (getCodeListIndexFrom_not_mem P codeList 0 hk)
    (compressPath_at_index pathList P i hs hnd hi h16) (getCodeListIndex_Itoa N)
    (compressValue_Itoa fl N hN)] at hloop
  obtain ⟨d, hd⟩ := DecompressMessage_get_request fl pathList P i (intEncoding N) hi
    (decodable_int fl N hN)
  have hout : [128, 138, 132] ++ [i / 256, i % 256] ++ [129] ++ intEncoding N
      = [128, 138, 132, i / 256, i % 256, 129] ++ intEncoding N := rfl
  rw [hout] at hloop
  rw [hm]
  simp only [CompressMessage, hloop, hd, Option.bind_eq_bind, Option.some_bind,
    Option.pure_def]
  rw [if_neg (by simp)]

/-- The instance `Vehicle.Speed` at index 0 with request id `-70000`. -/
theorem CompressMessage_get_request_witness :
    ∃ c, compressIntValue (quoted (Itoa (-70000))) = some c
      ∧ CompressMessage ⟨fun _ => none, fun _ => [], fun _ => []⟩
          [str "Vehicle.Speed"]
          (str "\x7b\"action\":\"get\",\"path\":" ++ quoted (str "Vehicle.Speed")
            ++ str ",\"requestId\":" ++ quoted (Itoa (-70000)) ++ str "\x7d")
        = some ([128, 138, 132, 0 / 256, 0 % 256, 129] ++ c) :=
  CompressMessage_get_request _ [str "Vehicle.Speed"] (str "Vehicle.Speed") 0 (-70000)
    (by unfold SortedPaths; decide) (by decide) (by decide) (by decide) (by decide)
    (by decide) (by decide)

/-! ## An array of values in a message -/

theorem arrayText_tokens : ∀ ts : List Bytes, arrayText ts = tokensText (arrayTokens ts)
  | [] => rfl
  | [t] => by simp [arrayText, arrayTokens, tokensText, Token.bytes]
  | t :: u :: r => by
    rw [arrayText, arrayTokens, tokensText, tokensText, arrayText_tokens (u :: r)]
    simp [Token.bytes]

theorem valueLiteral_encodes (fl : FloatLib) (t : Bytes) (h : ValueLiteral fl t) :
    34 ∉ t ∧ getCodeListIndex t = 255
      ∧ ∃ c, compressValue fl (quoted t) = some c ∧ Decodable fl c := by
  rcases h with ⟨n, h1, h2, rfl⟩ | rfl | rfl | ⟨hne, hq, hk, h0⟩
  · exact ⟨Itoa_no_quote n, getCodeListIndex_Itoa n, _, compressValue_Itoa fl n ⟨h1, h2⟩,
      decodable_int fl n ⟨h1, h2⟩⟩
  · refine ⟨by decide, by decide, [151, 1], ?_, decodable_bool fl 1⟩
    have hA : (Atoi (str "true")).2 = false := by decide
    have hb : compressBoolValue (quoted (str "true")) = [151, 1] := by decide
    simp only [compressValue, slice_quoted, Option.bind_eq_bind, Option.some_bind,
      AnalyzeValueType, hA, true_or, if_true, hb, Option.pure_def]
    simp
  · refine ⟨by decide, by decide, [151, 0], ?_, decodable_bool fl 0⟩
    have hA : (Atoi (str "false")).2 = false := by decide
    have hb : compressBoolValue (quoted (str "false")) = [151, 0] := by decide
    simp only [compressValue, slice_quoted, Option.bind_eq_bind, Option.some_bind,
      AnalyzeValueType, hA, or_true, if_true, hb, Option.pure_def]
    simp
  · refine ⟨hq, getCodeListIndexFrom_not_mem t codeList 0 hk, compressOtherValue (quoted t),
      ?_, ?_⟩
    · simp only [compressValue, slice_quoted, Option.bind_eq_bind, Option.some_bind, h0,
        Option.pure_def]
      simp
    · cases t with
      | nil => exact absurd rfl hne
      | cons c cs =>
        exact decodable_other fl c cs (fun hm => hq (List.mem_cons_of_mem _ hm))


theorem runTokens_array (fl : FloatLib) (pathList : List Bytes) (total : Nat) :
    ∀ (ts : List Bytes) (cs : List Bytes) (o : Nat) (m2 : Bytes),
      List.Forall₂ (fun t c => compressValue fl (quoted t) = some c) ts cs →
      (∀ t ∈ ts, getCodeListIndex t = 255) →
      o + (tokensText (arrayTokens ts ++ [Token.byte 93, Token.byte 125])).length = total →
      runTokens fl pathList total ⟨o, 2, true, m2⟩
          (arrayTokens ts ++ [Token.byte 93, Token.byte 125])
        = some ⟨total, 2, false, m2 ++ cs.flatten ++ [93]⟩
  | [], cs, o, m2, hf, _, ht => by
    cases hf
    have h1 : o + 1 + 1 = total := by
      rw [← ht]
      simp [arrayTokens, tokensText, Token.bytes]
    rw [arrayTokens, List.nil_append, runTokens, Token.bytes, tokenStep_bracket_close,
      Option.some_bind, runTokens, Token.bytes, tokenStep_close _ _ _ _ _ _ _ _ h1,
      Option.some_bind, runTokens, h1]
    simp
  | [t], cs, o, m2, hf, hk, ht => by
    cases hf with
    | cons hc hr =>
      cases hr
      have h1 : o + (t.length + 2) + 1 + 1 = total := by
        rw [← ht]
        simp [arrayTokens, tokensText, Token.bytes, length_quoted]
        omega
      rw [arrayTokens, List.singleton_append, runTokens, Token.bytes,
        tokenStep_value fl pathList _ _ _ _ _ _ _ _ (hk t (List.mem_singleton_self t))
          (Or.inl rfl) hc,
        Option.some_bind, runTokens, Token.bytes, tokenStep_bracket_close,
        Option.some_bind, runTokens, Token.bytes, tokenStep_close _ _ _ _ _ _ _ _ h1,
        Option.some_bind, runTokens, h1]
      simp
  | t :: u :: r, cs, o, m2, hf, hk, ht => by
    cases hf with
    | cons hc hr =>
      rename_i c cs2
      have h1 : o + (t.length + 2) + 1
          + (tokensText (arrayTokens (u :: r) ++ [Token.byte 93, Token.byte 125])).length
          = total := by
        have e : tokensText (arrayTokens (t :: u :: r) ++ [Token.byte 93, Token.byte 125])
            = quoted t ++ ([44] ++ tokensText (arrayTokens (u :: r)
                ++ [Token.byte 93, Token.byte 125])) := rfl
        rw [e] at ht
        simp only [List.length_append, length_quoted, List.length_singleton] at ht
        omega
      have ih := runTokens_array fl pathList total (u :: r) cs2 (o + (t.length + 2) + 1)
        (m2 ++ c) hr (fun x hx => hk x (List.mem_cons_of_mem _ hx)) h1
      rw [arrayTokens, List.cons_append, List.cons_append, runTokens, Token.bytes,
        tokenStep_value fl pathList _ _ _ _ _ _ _ _ (hk t (List.mem_cons_self _ _))
          (Or.inl rfl) hc,
        Option.some_bind, runTokens, Token.bytes, tokenStep_comma, Option.some_bind]
      simp only [Bool.true_eq_false, if_false] 
      rw [ih]
      simp


theorem arrayTokens_mem : ∀ (ts : List Bytes) (tok : Token), tok ∈ arrayTokens ts →
    tok = Token.byte 44 ∨ ∃ t ∈ ts, tok = Token.literal t
  | [], tok, h => by simp [arrayTokens] at h
  | [t], tok, h => by
    simp only [arrayTokens, List.mem_singleton] at h
    exact Or.inr ⟨t, List.mem_singleton_self t, h⟩
  | t :: u :: r, tok, h => by
    simp only [arrayTokens, List.mem_cons] at h
    rcases h with h | h | h
    · exact Or.inr ⟨t, List.mem_cons_self _ _, h⟩
    · exact Or.inl h
    · rcases arrayTokens_mem (u :: r) tok (by simpa using h) with e | ⟨x, hx, e⟩
      · exact Or.inl e
      · exact Or.inr ⟨x, List.mem_cons_of_mem _ hx, e⟩

theorem valueLiterals_encode (fl : FloatLib) : ∀ ts : List Bytes,
    (∀ t ∈ ts, ValueLiteral fl t) →
    ∃ cs, List.Forall₂ (fun t c => compressValue fl (quoted t) = some c) ts cs
      ∧ ∀ c ∈ cs, Decodable fl c
  | [], _ => ⟨[], List.Forall₂.nil, by simp⟩
  | t :: r, h => by
    obtain ⟨_, _, c, hc, hd⟩ := valueLiteral_encodes fl t (h t (List.mem_cons_self _ _))
    obtain ⟨cs, hf, hds⟩ := valueLiterals_encode fl r (fun x hx => h x (List.mem_cons_of_mem _ hx))
    refine ⟨c :: cs, List.Forall₂.cons hc hf, ?_⟩
    intro x hx
    rcases List.mem_cons.mp hx with e | e
    · exact e ▸ hd
    · exact hds x e

theorem runTokens_value_array (fl : FloatLib) (pathList : List Bytes) (v : Bytes)
    (ts cs : List Bytes) (hv : getCodeListIndex v = 2)
    (hf : List.Forall₂ (fun t c => compressValue fl (quoted t) = some c) ts cs)
    (hk : ∀ t ∈ ts, getCodeListIndex t = 255) :
    (runTokens fl pathList
        (tokensText ([Token.byte 123, Token.literal v, Token.byte 58, Token.byte 91]
          ++ (arrayTokens ts ++ [Token.byte 93, Token.byte 125]))).length
        { offset := 0, tokenState := 255, isArray := false, message2 := [] }
        ([Token.byte 123, Token.literal v, Token.byte 58, Token.byte 91]
          ++ (arrayTokens ts ++ [Token.byte 93, Token.byte 125]))).map (fun s => s.message2)
      = some ([130, 91] ++ cs.flatten ++ [93]) := by
  have hcons : [Token.byte 123, Token.literal v, Token.byte 58, Token.byte 91]
        ++ (arrayTokens ts ++ [Token.byte 93, Token.byte 125])
      = Token.byte 123 :: Token.literal v :: Token.byte 58 :: Token.byte 91
          :: (arrayTokens ts ++ [Token.byte 93, Token.byte 125]) := rfl
  rw [hcons]
  have ht : 1 + (v.length + 2) + 1 + 1
      + (tokensText (arrayTokens ts ++ [Token.byte 93, Token.byte 125])).length
      = (tokensText (Token.byte 123 :: Token.literal v :: Token.byte 58 :: Token.byte 91
          :: (arrayTokens ts ++ [Token.byte 93, Token.byte 125]))).length := by
    rw [tokensText, tokensText, tokensText, tokensText]
    simp only [Token.bytes, length_quoted, List.length_append, List.length_cons,
      List.length_nil]
    omega
  have h := runTokens_array fl pathList _ ts cs (1 + (v.length + 2) + 1 + 1)
    ([] ++ [2 + 128] ++ [91]) hf hk ht
  rw [runTokens, Token.bytes, tokenStep_open, Option.some_bind,
    runTokens, Token.bytes, tokenStep_field fl pathList _ _ _ _ _ _ _ 2 hv (by omega),
    Option.some_bind, runTokens, Token.bytes, tokenStep_colon, Option.some_bind,
    runTokens, Token.bytes, tokenStep_bracket_open, Option.some_bind, h]
  rfl

theorem DecompressMessage_value_array (fl : FloatLib) (pathList : List Bytes)
    (cs : List Bytes) (hd : ∀ c ∈ cs, Decodable fl c) :
    ∃ d, DecompressMessage fl pathList ([130, 91] ++ cs.flatten ++ [93]) = some d := by
  apply DecompressMessage_of_loop
  intro lead
  have hlen : ([130, 91] ++ cs.flatten ++ [93]).length = cs.flatten.length + 3 := by
    simp
  obtain ⟨text, hv⟩ := decompressValue_array fl cs [] hd
  have hv2 : decompressValue fl (([130, 91] ++ cs.flatten ++ [93]).drop (0 + 1))
      = some (text, cs.flatten.length + 2) := by
    rw [← hv]
    simp
  obtain ⟨t0, r0⟩ := readCompressedMessage_value_total fl pathList
    ([130, 91] ++ cs.flatten ++ [93]) 0 2 text (cs.flatten.length + 2) (by simp)
    (Or.inl rfl) hv2 (by rw [hlen]; omega)
  have hf : ([130, 91] ++ cs.flatten ++ [93]).length + 1
      = cs.flatten.length + 2 + 1 + 1 := by
    rw [hlen]
  rw [hf, decompressLoop_step fl pathList _ _ 0 _ _ _ (by rw [hlen]; omega) r0,
    decompressLoop_done fl pathList _ _ _ _ (by rw [hlen]; omega)]
  exact ⟨_, rfl⟩

/-- C24: for every list of value literals that are integers of magnitude below `2^32`,
booleans or non-empty strings that are no dictionary tokens, `CompressMessage` turns
`{"value":[v1,...,vn]}` into `[130, '[']`, the results of `compressValue` on `v1` to `vn`
one after the other, and `']'`. -/
theorem CompressMessage_value_array (fl : FloatLib) (pathList : List Bytes)
    (ts : List Bytes) (h : ∀ t ∈ ts, ValueLiteral fl t) :
    ∃ cs, List.Forall₂ (fun t c => compressValue fl (quoted t) = some c) ts cs
      ∧ CompressMessage fl pathList (str "\x7b\"value\":[" ++ arrayText ts ++ str "]\x7d")
        = some ([130, 91] ++ cs.flatten ++ [93]) := by
  obtain ⟨cs, hf, hd⟩ := valueLiterals_encode fl ts h
  refine ⟨cs, hf, ?_⟩
  have e1 : str "\x7b\"value\":["
      = tokensText [Token.byte 123, Token.literal (str "value"), Token.byte 58,
          Token.byte 91] := by decide
  have e2 : str "]\x7d" = tokensText [Token.byte 93, Token.byte 125] := by decide
  have hm : str "\x7b\"value\":[" ++ arrayText ts ++ str "]\x7d"
      = tokensText ([Token.byte 123, Token.literal (str "value"), Token.byte 58,
          Token.byte 91] ++ (arrayTokens ts ++ [Token.byte 93, Token.byte 125])) := by
    rw [e1, e2, arrayText_tokens, tokensText_append, tokensText_append, List.append_assoc]
  have hw : ∀ tok ∈ [Token.byte 123, Token.literal (str "value"), Token.byte 58,
          Token.byte 91] ++ (arrayTokens ts ++ [Token.byte 93, Token.byte 125]),
      tok.WellFormed := by
    have w1 : 34 ∉ str "value" := by decide
    intro tok ht
    rcases List.mem_append.mp ht with h1 | h1
    · simp only [List.mem_cons, List.mem_singleton, List.not_mem_nil, or_false] at h1
      rcases h1 with rfl | rfl | rfl | rfl
      · show (123 : Nat) ≠ 34
        omega
      · exact w1
      · show (58 : Nat) ≠ 34
        omega
      · show (91 : Nat) ≠ 34
        omega
    · rcases List.mem_append.mp h1 with h2 | h2
      · rcases arrayTokens_mem ts tok h2 with rfl | ⟨t, ht2, rfl⟩
        · show (44 : Nat) ≠ 34
          omega
        · exact (valueLiteral_encodes fl t (h t ht2)).1
      · simp only [List.mem_cons, List.mem_singleton, List.not_mem_nil, or_false] at h2
        rcases h2 with rfl | rfl
        · show (93 : Nat) ≠ 34
          omega
        · show (125 : Nat) ≠ 34
          omega
  have hloop := compressLoop_tokensText fl pathList _ hw
  rw [runTokens_value_array fl pathList (str "value") ts cs (by decide) hf
    (fun t ht => (valueLiteral_encodes fl t (h t ht)).2.1)] at hloop
  obtain ⟨d, hdd⟩ := DecompressMessage_value_array fl pathList cs hd
  rw [hm]
  simp only [CompressMessage, hloop, hdd, Option.bind_eq_bind, Option.some_bind,
    Option.pure_def]
  rw [if_neg (by simp)]

/-- The array `["1","true","abc","-300"]` in a float library that accepts no text. -/
theorem CompressMessage_value_array_witness :
    ∃ cs, List.Forall₂ (fun t c =>
          compressValue ⟨fun _ => none, fun _ => [], fun _ => []⟩ (quoted t)
            = some c) [Itoa 1, str "true", str "abc", Itoa (-300)] cs
      ∧ CompressMessage ⟨fun _ => none, fun _ => [], fun _ => []⟩ []
          (str "\x7b\"value\":[" ++ arrayText [Itoa 1, str "true", str "abc", Itoa (-300)]
            ++ str "]\x7d")
        = some ([130, 91] ++ cs.flatten ++ [93]) :=
  CompressMessage_value_array _ [] [Itoa 1, str "true", str "abc", Itoa (-300)] (by
    intro t ht
    simp only [List.mem_cons, List.mem_singleton, List.not_mem_nil, or_false] at ht
    rcases ht with rfl | rfl | rfl | rfl
    · exact Or.inl ⟨1, by decide, by decide, rfl⟩
    · exact Or.inr (Or.inl rfl)
    · exact Or.inr (Or.inr (Or.inr ⟨by decide, by decide, by decide, by decide⟩))
    · exact Or.inl ⟨-300, by decide, by decide, rfl⟩)

/-! ## Paths and URLs -/

theorem stringsReplaceByte_back : ∀ p : Bytes, 47 ∉ p →
    stringsReplaceByte (stringsReplaceByte p 46 47) 47 46 = p
  | [], _ => rfl
  | b :: t, h => by
    have hb : b ≠ 47 := fun e => h (by simp [e])
    have ht : 47 ∉ t := fun e => h (List.mem_cons_of_mem _ e)
    have ih := stringsReplaceByte_back t ht
    unfold stringsReplaceByte at ih ⊢
    rw [List.map_cons, List.map_cons, ih]
    by_cases h46 : b = 46
    · simp [h46]
    · simp [h46, hb]

/-- C35: for every path `p` without the character `/`, `UrlToPath (PathToUrl p) = p`;
`PathToUrl` replaces every `.` by `/` behind a leading `/`, and `UrlToPath` replaces every
`/` by `.` and removes one leading `.`. -/
theorem UrlToPath_PathToUrl (p : Bytes) (h : 47 ∉ p) :
    UrlToPath (PathToUrl p) = p
      ∧ PathToUrl p = 47 :: p.map (fun b => if b = 46 then 47 else b)
      ∧ ∀ url : Bytes, UrlToPath (46 :: url) = url.map (fun b => if b = 47 then 46 else b) := by
  refine ⟨?_, rfl, ?_⟩
  · have e : stringsReplaceByte (PathToUrl p) 47 46
        = 46 :: stringsReplaceByte (stringsReplaceByte p 46 47) 47 46 := by
      simp [PathToUrl, stringsReplaceByte]
    rw [UrlToPath, e, stringsReplaceByte_back p h]
    simp [stringsTrimPrefixByte]
  · intro url
    simp [UrlToPath, stringsReplaceByte, stringsTrimPrefixByte]

/-- The instance `Vehicle.Cabin.Door` of the round trip through `/Vehicle/Cabin/Door`. -/
theorem UrlToPath_PathToUrl_witness :
    PathToUrl (str "Vehicle.Cabin.Door") = str "/Vehicle/Cabin/Door"
      ∧ UrlToPath (PathToUrl (str "Vehicle.Cabin.Door")) = str "Vehicle.Cabin.Door" :=
  ⟨by decide, (UrlToPath_PathToUrl (str "Vehicle.Cabin.Door") (by decide)).1⟩

/-! ## The outer braces -/

set_option maxRecDepth 100000 in
/-- C31 (evaluation at the failing inputs): the message `{"a":{"b":"c"}}` ends in a nested
object; `CompressMessage` drops only the last `}`, so the compressed form still ends with
`}`, `DecompressMessage` takes that for the outer brace and adds none: the text
`{"a":{"b":"c"}` comes back, with one closing brace where the message has two.  The message
`{"value":"125"}` is compressed to `[130, 144, 125]`, whose last payload byte is 0x7D: the
text `{"value":"125"` comes back, which does not end with `}`. -/
theorem DecompressMessage_closing_brace_lost (fl : FloatLib) (pathList : List Bytes) :
    CompressMessage fl pathList (str "\x7b\"a\":\x7b\"b\":\"c\"\x7d\x7d")
        = some (str "\"a\":\x7b\"b\":\"c\"\x7d")
      ∧ DecompressMessage fl pathList (str "\"a\":\x7b\"b\":\"c\"\x7d")
        = some (str "\x7b\"a\":\x7b\"b\":\"c\"\x7d")
      ∧ (str "\x7b\"a\":\x7b\"b\":\"c\"\x7d\x7d").count 125 = 2
      ∧ (str "\x7b\"a\":\x7b\"b\":\"c\"\x7d").count 125 = 1
      ∧ CompressMessage fl pathList (str "\x7b\"value\":\"125\"\x7d") = some [130, 144, 125]
      ∧ DecompressMessage fl pathList [130, 144, 125] = some (str "\x7b\"value\":\"125\"")
      ∧ (str "\x7b\"value\":\"125\"").getLast? = some 34 :=
  ⟨rfl, rfl, rfl, rfl, rfl, rfl, rfl⟩

/-! ## A key followed by an object -/

set_option maxRecDepth 100000 in
/-- On the wire byte of a dictionary entry below 15 without payload that is followed by the
byte `next`, `readCompressedMessage` adds a comma unless the entry is `action`, `filter` or
`authorization` or `next` is a closing brace or bracket: the byte before `next`, which the
last test of the code reads, is the entry's own wire byte. -/
theorem readCompressedMessage_plain_next (fl : FloatLib) (pathList : List Bytes)
    (message : Bytes) (offset i next : Nat) (hm : message[offset]? = some (128 + i))
    (hn : message[offset + 1]? = some next) (hi : i < 15) (hs : i = 0 ∨ 6 ≤ i) :
    readCompressedMessage fl pathList message offset
      = some (quoted (codeList.getD i []) ++ (if i < 10 then [58] else [])
          ++ (if i ≠ 0 ∧ i ≠ 8 ∧ i ≠ 9 ∧ next ≠ 125 ∧ next ≠ 93 then [44] else []), 1) := by
  have hge : 128 + i ≥ 128 := by omega
  have e1 : i < CODELISTKEYVALUES := by simp [CODELISTKEYVALUES]; omega
  have e2 : (128 + i < CODELISTKEYS + 128) ↔ i < 10 := by simp [CODELISTKEYS]; omega
  have e3 : ¬ (i = CODELISTINDEXPATH) := by simp [CODELISTINDEXPATH]; omega
  have e4 : ¬ (i = getCodeListIndex (str "ts")) := by
    have : getCodeListIndex (str "ts") = 3 := by decide
    omega
  have e5 : ¬ (i = CODELISTINDEXVALUE ∨ i = CODELISTINDEXREQID ∨ i = CODELISTINDEXSUBID) := by
    simp [CODELISTINDEXVALUE, CODELISTINDEXREQID, CODELISTINDEXSUBID]; omega
  have g0 : getCodeListIndex (str "action") = 0 := by decide
  have g8 : getCodeListIndex (str "filter") = 8 := by decide
  have g9 : getCodeListIndex (str "authorization") = 9 := by decide
  have hlen : i < codeList.length := by
    have : codeList.length = 26 := by decide
    omega
  have he : codeList[i]? = some (codeList[i]) := List.getElem?_eq_getElem hlen
  have hd : codeList.getD i [] = codeList[i] := by
    rw [List.getD_eq_getElem?_getD, he]
    rfl
  have hq : ∀ e : Bytes, [34] ++ e ++ [34] = quoted e := by
    intro e
    simp [quoted]
  have hoff : offset + 1 < message.length := by
    by_contra hc
    rw [List.getElem?_eq_none (by omega)] at hn
    exact Option.noConfusion hn
  have hne : offset + 1 ≠ message.length := by omega
  have hp : ¬ (128 + i = 123) ∧ ¬ (128 + i = 91) := by omega
  have ht : (if i < 10 then quoted codeList[i] ++ [58] else quoted codeList[i])
      = quoted codeList[i] ++ (if i < 10 then [58] else []) := by
    split_ifs
    · rfl
    · exact (List.append_nil _).symm
  simp only [readCompressedMessage, hm, Option.bind_eq_bind, Option.some_bind, hge, if_true,
    bsub_wire i (by omega), e1, e2, e3, e4, e5, if_false, he, Option.pure_def, true_and,
    hq, g0, g8, g9, hn, Nat.add_sub_cancel, ht, hd, ne_eq, hne, not_false_eq_true, and_true,
    hp, and_self]
  by_cases c1 : ¬ i = 0 ∧ ¬ i = 8 ∧ ¬ i = 9
  · by_cases c2 : ¬ next = 125 ∧ ¬ next = 93
    · have c3 : ¬ i = 0 ∧ ¬ i = 8 ∧ ¬ i = 9 ∧ ¬ next = 125 ∧ ¬ next = 93 :=
        ⟨c1.1, c1.2.1, c1.2.2, c2.1, c2.2⟩
      rw [if_pos c1, if_pos c2, if_pos c3]
    · have c3 : ¬ (¬ i = 0 ∧ ¬ i = 8 ∧ ¬ i = 9 ∧ ¬ next = 125 ∧ ¬ next = 93) :=
        fun h => c2 ⟨h.2.2.2.1, h.2.2.2.2⟩
      rw [if_pos c1, if_neg c2, if_neg c3, List.append_nil]
  · have c3 : ¬ (¬ i = 0 ∧ ¬ i = 8 ∧ ¬ i = 9 ∧ ¬ next = 125 ∧ ¬ next = 93) :=
      fun h => c1 ⟨h.1, h.2.1, h.2.2.1⟩
    rw [if_neg c1, if_neg c3, List.append_nil]

/-- C32 (the code at the failing inputs): the wire byte of `data` (134) or `dp` (135)
followed by `{` is decoded to the quoted key, a colon and a comma, so the text reads
`"data":,{`; for `action`, `filter` and `authorization`, which the comma test excludes by
name, the quoted key and the colon come back with no comma. -/
theorem readCompressedMessage_key_then_brace (fl : FloatLib) (pathList : List Bytes)
    (message : Bytes) (offset i : Nat) (hm : message[offset]? = some (128 + i))
    (hn : message[offset + 1]? = some 123) :
    ((i = 6 ∨ i = 7) → readCompressedMessage fl pathList message offset
        = some (quoted (codeList.getD i []) ++ [58] ++ [44], 1))
      ∧ ((i = 0 ∨ i = 8 ∨ i = 9) → readCompressedMessage fl pathList message offset
        = some (quoted (codeList.getD i []) ++ [58], 1)) := by
  constructor
  · intro h
    rw [readCompressedMessage_plain_next fl pathList message offset i 123 hm hn (by omega)
      (by omega), if_pos (by omega), if_pos ⟨by omega, by omega, by omega, by omega, by omega⟩]
  · intro h
    rw [readCompressedMessage_plain_next fl pathList message offset i 123 hm hn (by omega)
      (by omega), if_pos (by omega), if_neg (by omega), List.append_nil]

set_option maxRecDepth 100000 in
/-- The compressed form `[134, '{', "x":"y", '}']` of `{"data":{"x":"y"}}` and what the
decoder makes of it. -/
theorem readCompressedMessage_key_then_brace_witness :
    readCompressedMessage ⟨fun _ => none, fun _ => [], fun _ => []⟩ []
        ([134, 123] ++ str "\"x\":\"y\"" ++ [125]) 0 = some (str "\"data\":,", 1)
      ∧ DecompressMessage ⟨fun _ => none, fun _ => [], fun _ => []⟩ []
          ([134, 123] ++ str "\"x\":\"y\"" ++ [125])
        = some (str "\x7b\"data\":,\x7b\"x\":\"y\"\x7d") :=
  ⟨((readCompressedMessage_key_then_brace _ [] ([134, 123] ++ str "\"x\":\"y\"" ++ [125]) 0 6
      (by decide) (by decide)).1 (Or.inl rfl)).trans (by decide), by decide⟩

/-! ## An empty compressed message -/

set_option maxRecDepth 100000 in
/-- C33 (evaluation at the failing inputs): whenever the token loop of `CompressMessage`
ends with an empty output, the closing log statement divides by `len(message2) = 0` and
`CompressMessage` faults; so it does on the empty message, on `{}` and on a message of
spaces and commas, although the loop and `DecompressMessage` of the empty output do not
fault. -/
theorem CompressMessage_empty_output_faults (fl : FloatLib) (pathList : List Bytes) :
    (∀ message : Bytes,
        compressLoop fl pathList message (message.length + 1)
            { offset := 0, tokenState := 255, isArray := false, message2 := [] } = some [] →
        CompressMessage fl pathList message = none)
      ∧ DecompressMessage fl pathList [] = some []
      ∧ compressLoop fl pathList [] 1
          { offset := 0, tokenState := 255, isArray := false, message2 := [] } = some []
      ∧ CompressMessage fl pathList [] = none
      ∧ compressLoop fl pathList (str "\x7b\x7d") 3
          { offset := 0, tokenState := 255, isArray := false, message2 := [] } = some []
      ∧ CompressMessage fl pathList (str "\x7b\x7d") = none
      ∧ compressLoop fl pathList (str " , ") 4
          { offset := 0, tokenState := 255, isArray := false, message2 := [] } = some []
      ∧ CompressMessage fl pathList (str " , ") = none := by
  refine ⟨?_, rfl, rfl, rfl, rfl, rfl, rfl, rfl⟩
  intro message h
  simp [CompressMessage, h, DecompressMessage]

/-! ## Termination of the codec loops -/

/-- A loop whose rounds decrease a measure does not use up a bound above the measure. -/
theorem runLoop_within_fuel {σ ρ : Type} (round : σ → Option (σ ⊕ ρ)) (μ : σ → Nat)
    (hdec : ∀ s s2, round s = some (Sum.inl s2) → μ s2 < μ s) :
    ∀ (fuel : Nat) (s : σ), μ s < fuel → runLoop round fuel s ≠ Outcome.outOfFuel
  | 0, s, h => absurd h (Nat.not_lt_zero _)
  | fuel + 1, s, h => by
    unfold runLoop
    cases hr : round s with
    | none => simp
    | some x =>
      cases x with
      | inr r => simp
      | inl s2 =>
        have := hdec s s2 hr
        exact runLoop_within_fuel round μ hdec fuel s2 (by omega)

theorem compressLoop_runLoop (fl : FloatLib) (pathList : List Bytes) (message : Bytes) :
    ∀ (fuel : Nat) (st : CompressState),
      compressLoop fl pathList message fuel st
        = (runLoop (compressRound fl pathList message) fuel st).toOption
  | 0, _ => rfl
  | fuel + 1, st => by
    unfold compressLoop runLoop compressRound
    by_cases h : st.offset < message.length
    · simp only [h, if_true]
      cases hs : compressStep fl pathList message st with
      | none => rfl
      | some st2 =>
        simp only [Option.map_some', Option.bind_eq_bind, Option.some_bind]
        exact compressLoop_runLoop fl pathList message fuel st2
    · simp only [h, if_false]
      rfl

theorem decompressLoop_runLoop (fl : FloatLib) (pathList : List Bytes) (message : Bytes) :
    ∀ (fuel offset : Nat) (message2 : Bytes),
      decompressLoop fl pathList message fuel offset message2
        = (runLoop (decompressRound fl pathList message) fuel (offset, message2)).toOption
  | 0, _, _ => rfl
  | fuel + 1, offset, message2 => by
    unfold decompressLoop runLoop decompressRound
    by_cases h : offset < message.length
    · simp only [h, if_true]
      cases hs : readCompressedMessage fl pathList message offset with
      | none => rfl
      | some r =>
        simp only [Option.map_some', Option.bind_eq_bind, Option.some_bind]
        exact decompressLoop_runLoop fl pathList message fuel _ _
    · simp only [h, if_false]
      rfl


theorem decompressValueLoop_runLoop (fl : FloatLib) (valueCompressed : Bytes) :
    ∀ (fuel index : Nat) (text : Bytes),
      decompressValueLoop fl valueCompressed fuel index text
        = (runLoop (valueRound fl valueCompressed) fuel (index, text)).toOption
  | 0, _, _ => rfl
  | fuel + 1, index, text => by
    unfold decompressValueLoop runLoop valueRound
    cases hc : valueCompressed[index]? with
    | none => rfl
    | some c =>
      simp only [Option.bind_eq_bind, Option.some_bind, Option.pure_def]
      by_cases h1 : c = 91 ∨ c = 93 ∨ c = 44 ∨ c = 123
      · simp only [h1, if_true]
        by_cases h2 : c = 93 ∨ c = 123
        · simp only [h2, if_true]
          rfl
        · simp only [h2, if_false]
          exact decompressValueLoop_runLoop fl valueCompressed fuel _ _
      · simp only [h1, if_false]
        cases hs : sliceFrom valueCompressed index with
        | none => rfl
        | some rest =>
          simp only [Option.some_bind]
          cases hd : decompressOneValue fl rest with
          | none => rfl
          | some r =>
            obtain ⟨one, n⟩ := r
            simp only [Option.some_bind]
            by_cases h0 : index = 0
            · simp only [h0, if_true]
              rfl
            · simp only [h0, if_false]
              exact decompressValueLoop_runLoop fl valueCompressed fuel _ _

theorem readUncompressedMessage_length (message : Bytes) (offset : Nat) (token : Bytes)
    (h : readUncompressedMessage message offset = some token) : 1 ≤ token.length := by
  unfold readUncompressedMessage at h
  cases hc : message[offset]? with
  | none => simp [hc] at h
  | some c =>
    simp only [hc, Option.bind_eq_bind, Option.some_bind, Option.pure_def] at h
    split at h
    · unfold slice at h
      split at h
      · rename_i hle
        cases Option.some.inj h
        have hn : offset + 1 ≤ NextQuoteMark message (offset + 1) := by
          unfold NextQuoteMark
          cases hq : nextQuoteFrom (message.drop (offset + 1)) (offset + 1) with
          | none => simp
          | some k =>
            have hge : ∀ (l : Bytes) (i k : Nat), nextQuoteFrom l i = some k → i ≤ k := by
              intro l
              induction l with
              | nil => intro i k hk; simp [nextQuoteFrom] at hk
              | cons b t ih =>
                intro i k hk
                unfold nextQuoteFrom at hk
                split at hk
                · cases Option.some.inj hk
                  exact Nat.le_refl _
                · have := ih (i + 1) k hk
                  omega
            simpa using hge _ _ _ hq
        simp only [List.length_drop, List.length_take]
        omega
      · exact Option.noConfusion h
    · cases Option.some.inj h
      simp

theorem stringsIndex_ge (c : Nat) : ∀ s : Bytes, -1 ≤ stringsIndex s c
  | [] => by simp [stringsIndex]
  | b :: t => by
    have ih := stringsIndex_ge c t
    unfold stringsIndex
    split
    · omega
    · simp only []
      split <;> omega

theorem decompressOneValue_bytes (fl : FloatLib) (valueCompressed v : Bytes) (n : Nat)
    (h : decompressOneValue fl valueCompressed = some (v, n)) : 1 ≤ n := by
  unfold decompressOneValue at h
  simp only [Option.bind_eq_bind, Option.pure_def] at h
  obtain ⟨b0, -, h⟩ := Option.bind_eq_some.mp h
  obtain ⟨tag, -, h⟩ := Option.bind_eq_some.mp h
  split_ifs at h
  all_goals first
    | (obtain ⟨b1, -, h⟩ := Option.bind_eq_some.mp h
       obtain ⟨b2, -, h⟩ := Option.bind_eq_some.mp h
       obtain ⟨b3, -, h⟩ := Option.bind_eq_some.mp h
       obtain ⟨b4, -, h⟩ := Option.bind_eq_some.mp h
       cases Option.some.inj h
       omega)
    | (obtain ⟨b1, -, h⟩ := Option.bind_eq_some.mp h
       obtain ⟨b2, -, h⟩ := Option.bind_eq_some.mp h
       obtain ⟨b3, -, h⟩ := Option.bind_eq_some.mp h
       cases Option.some.inj h
       omega)
    | (obtain ⟨b1, -, h⟩ := Option.bind_eq_some.mp h
       obtain ⟨b2, -, h⟩ := Option.bind_eq_some.mp h
       cases Option.some.inj h
       omega)
    | (obtain ⟨b1, -, h⟩ := Option.bind_eq_some.mp h
       cases Option.some.inj h
       omega)
    | (obtain ⟨rest, -, h⟩ := Option.bind_eq_some.mp h
       obtain ⟨text, -, h⟩ := Option.bind_eq_some.mp h
       cases Option.some.inj h
       have := stringsIndex_ge 34 rest
       omega)


theorem valueRound_advance (fl : FloatLib) (valueCompressed : Bytes) (s : Nat × Bytes)
    (x : (Nat × Bytes) ⊕ (Bytes × Nat)) (h : valueRound fl valueCompressed s = some x) :
    match x with
    | Sum.inl s2 => s.1 < s2.1
    | Sum.inr r => s.1 < r.2 := by
  unfold valueRound at h
  simp only [Option.bind_eq_bind, Option.pure_def] at h
  obtain ⟨c, -, h⟩ := Option.bind_eq_some.mp h
  split_ifs at h
  · cases Option.some.inj h
    exact Nat.lt_succ_self _
  · cases Option.some.inj h
    exact Nat.lt_succ_self _
  · obtain ⟨rest, -, h⟩ := Option.bind_eq_some.mp h
    obtain ⟨r, hr, h⟩ := Option.bind_eq_some.mp h
    obtain ⟨one, n⟩ := r
    have hn := decompressOneValue_bytes fl rest one n hr
    split_ifs at h
    all_goals
      cases Option.some.inj h
      show s.1 < s.1 + n
      omega
  · obtain ⟨rest, -, h⟩ := Option.bind_eq_some.mp h
    obtain ⟨r, hr, h⟩ := Option.bind_eq_some.mp h
    obtain ⟨one, n⟩ := r
    have hn := decompressOneValue_bytes fl rest one n hr
    split_ifs at h
    all_goals
      cases Option.some.inj h
      show s.1 < s.1 + n
      omega

theorem runLoop_value_bytes (fl : FloatLib) (valueCompressed : Bytes) :
    ∀ (fuel : Nat) (s : Nat × Bytes) (v : Bytes) (n : Nat),
      runLoop (valueRound fl valueCompressed) fuel s = Outcome.returned (v, n) → s.1 < n
  | 0, _, _, _, h => by simp [runLoop] at h
  | fuel + 1, s, v, n, h => by
    unfold runLoop at h
    cases hr : valueRound fl valueCompressed s with
    | none => simp [hr] at h
    | some x =>
      have ha := valueRound_advance fl valueCompressed s x hr
      cases x with
      | inr r =>
        simp only [hr, Outcome.returned.injEq] at h
        subst h
        exact ha
      | inl s2 =>
        simp only [hr] at h
        have := runLoop_value_bytes fl valueCompressed fuel s2 v n h
        have ha2 : s.1 < s2.1 := ha
        omega

theorem decompressValue_bytes (fl : FloatLib) (valueCompressed v : Bytes) (n : Nat)
    (h : decompressValue fl valueCompressed = some (v, n)) : 1 ≤ n := by
  rw [decompressValue, decompressValueLoop_runLoop] at h
  cases hr : runLoop (valueRound fl valueCompressed) (valueCompressed.length + 1) (0, []) with
  | returned r =>
    rw [hr] at h
    cases Option.some.inj h
    have := runLoop_value_bytes fl valueCompressed _ _ v n hr
    omega
  | faulted => rw [hr] at h; exact Option.noConfusion h
  | outOfFuel => rw [hr] at h; exact Option.noConfusion h

set_option maxRecDepth 100000 in
theorem readCompressedMessage_bytes (fl : FloatLib) (pathList : List Bytes)
    (message : Bytes) (offset : Nat) (tok : Bytes) (n : Nat)
    (h : readCompressedMessage fl pathList message offset = some (tok, n)) : 1 ≤ n := by
  unfold readCompressedMessage at h
  cases hm0 : message[offset]? with
  | none =>
    rw [hm0] at h
    exact Option.noConfusion h
  | some m =>
    by_cases hm : m ≥ 128
    · by_cases hkv : bsub m 128 < CODELISTKEYVALUES
      · cases he : codeList[bsub m 128]? with
        | none =>
          simp only [hm0, hm, hkv, he, Option.bind_eq_bind, Option.some_bind,
            Option.none_bind, Option.pure_def, if_true] at h
          exact Option.noConfusion h
        | some entry =>
          simp only [hm0, hm, hkv, he, Option.bind_eq_bind, Option.some_bind,
            Option.pure_def, if_true, true_and] at h
          by_cases c1 : bsub m 128 = CODELISTINDEXPATH
          · rw [if_pos c1] at h
            obtain ⟨a, -, h⟩ := Option.bind_eq_some.mp h
            obtain ⟨p, -, h⟩ := Option.bind_eq_some.mp h
            rcases comma_tail _ _ _ _ _ _ h with r | r
            · have := congrArg Prod.snd r
              simp only at this
              omega
            · have := congrArg Prod.snd r
              simp only at this
              omega
          rw [if_neg c1] at h
          by_cases c2 : bsub m 128 = getCodeListIndex (str "ts")
          · rw [if_pos c2] at h
            obtain ⟨a, -, h⟩ := Option.bind_eq_some.mp h
            obtain ⟨p, -, h⟩ := Option.bind_eq_some.mp h
            rcases comma_tail _ _ _ _ _ _ h with r | r
            · have := congrArg Prod.snd r
              simp only at this
              omega
            · have := congrArg Prod.snd r
              simp only at this
              omega
          rw [if_neg c2] at h
          by_cases c3 : bsub m 128 = CODELISTINDEXVALUE ∨ bsub m 128 = CODELISTINDEXREQID
              ∨ bsub m 128 = CODELISTINDEXSUBID
          · rw [if_pos c3] at h
            obtain ⟨a, -, h⟩ := Option.bind_eq_some.mp h
            obtain ⟨p, -, h⟩ := Option.bind_eq_some.mp h
            rcases comma_tail _ _ _ _ _ _ h with r | r
            · have := congrArg Prod.snd r
              simp only at this
              omega
            · have := congrArg Prod.snd r
              simp only at this
              omega
          rw [if_neg c3] at h
          rcases comma_tail _ _ _ _ _ _ h with r | r
          · have := congrArg Prod.snd r
            simp only at this
            omega
          · have := congrArg Prod.snd r
            simp only at this
            omega
      · simp only [hm0, hm, hkv, Option.bind_eq_bind, Option.some_bind,
          Option.pure_def, if_true, if_false, false_and] at h
        by_cases c1 : bsub m 128 = CODELISTINDEXPATH
        · rw [if_pos c1] at h
          obtain ⟨a, -, h⟩ := Option.bind_eq_some.mp h
          obtain ⟨p, -, h⟩ := Option.bind_eq_some.mp h
          have := congrArg Prod.snd (Option.some.inj h)
          simp only at this
          omega
        rw [if_neg c1] at h
        by_cases c2 : bsub m 128 = getCodeListIndex (str "ts")
        · rw [if_pos c2] at h
          obtain ⟨a, -, h⟩ := Option.bind_eq_some.mp h
          obtain ⟨p, -, h⟩ := Option.bind_eq_some.mp h
          have := congrArg Prod.snd (Option.some.inj h)
          simp only at this
          omega
        rw [if_neg c2] at h
        by_cases c3 : bsub m 128 = CODELISTINDEXVALUE ∨ bsub m 128 = CODELISTINDEXREQID
            ∨ bsub m 128 = CODELISTINDEXSUBID
        · rw [if_pos c3] at h
          obtain ⟨a, -, h⟩ := Option.bind_eq_some.mp h
          obtain ⟨p, -, h⟩ := Option.bind_eq_some.mp h
          have := congrArg Prod.snd (Option.some.inj h)
          simp only at this
          omega
        rw [if_neg c3] at h
        have := congrArg Prod.snd (Option.some.inj h)
        simp only at this
        omega
    · simp only [hm0, hm, Option.bind_eq_bind, Option.some_bind, Option.pure_def,
        if_false] at h
      split_ifs at h
      · have := congrArg Prod.snd (Option.some.inj h)
        simp only at this
        omega
      · have := congrArg Prod.snd (Option.some.inj h)
        simp only at this
        omega

theorem compressStep_advance (fl : FloatLib) (pathList : List Bytes) (message : Bytes)
    (st st2 : CompressState) (h : compressStep fl pathList message st = some st2) :
    st.offset < st2.offset := by
  rw [compressStep_tokenStep] at h
  obtain ⟨token, ht, h⟩ := Option.bind_eq_some.mp h
  have h1 := readUncompressedMessage_length message st.offset token ht
  have h2 := tokenStep_offset fl pathList _ _ st st2 token h
  omega


theorem valueRound_inBounds (fl : FloatLib) (valueCompressed : Bytes) (s : Nat × Bytes)
    (x : (Nat × Bytes) ⊕ (Bytes × Nat)) (h : valueRound fl valueCompressed s = some x) :
    s.1 < valueCompressed.length := by
  unfold valueRound at h
  by_contra hc
  rw [List.getElem?_eq_none (by omega)] at h
  exact Option.noConfusion h

/-- C34: the codec loops terminate.  Every token read by `readUncompressedMessage` has at
least 1 byte, every call of `readCompressedMessage` reports at least 1 byte read, and every
round of `decompressValue` that goes on advances the index by at least 1; so the loops of
`decompressValue`, `CompressMessage` and `DecompressMessage`, run with a bound of
`len + 1` rounds (`len` rounds of the body and the final test), never use up the bound:
they return or a round faults. -/
theorem codec_loops_terminate (fl : FloatLib) (pathList : List Bytes) :
    (∀ (message : Bytes) (offset : Nat) (token : Bytes),
        readUncompressedMessage message offset = some token → 1 ≤ token.length)
      ∧ (∀ (message : Bytes) (offset : Nat) (tok : Bytes) (n : Nat),
          readCompressedMessage fl pathList message offset = some (tok, n) → 1 ≤ n)
      ∧ (∀ (valueCompressed : Bytes) (s s2 : Nat × Bytes),
          valueRound fl valueCompressed s = some (Sum.inl s2) → s.1 + 1 ≤ s2.1)
      ∧ (∀ valueCompressed : Bytes,
          decompressValue fl valueCompressed
              = (runLoop (valueRound fl valueCompressed) (valueCompressed.length + 1)
                  (0, [])).toOption
            ∧ runLoop (valueRound fl valueCompressed) (valueCompressed.length + 1) (0, [])
              ≠ Outcome.outOfFuel)
      ∧ (∀ message : Bytes,
          compressLoop fl pathList message (message.length + 1)
                { offset := 0, tokenState := 255, isArray := false, message2 := [] }
              = (runLoop (compressRound fl pathList message) (message.length + 1)
                  { offset := 0, tokenState := 255, isArray := false,
                    message2 := [] }).toOption
            ∧ runLoop (compressRound fl pathList message) (message.length + 1)
                { offset := 0, tokenState := 255, isArray := false, message2 := [] }
              ≠ Outcome.outOfFuel)
      ∧ (∀ message lead : Bytes,
          decompressLoop fl pathList message (message.length + 1) 0 lead
              = (runLoop (decompressRound fl pathList message) (message.length + 1)
                  (0, lead)).toOption
            ∧ runLoop (decompressRound fl pathList message) (message.length + 1) (0, lead)
              ≠ Outcome.outOfFuel) := by
  refine ⟨readUncompressedMessage_length, readCompressedMessage_bytes fl pathList, ?_, ?_, ?_,
    ?_⟩
  · intro vc s s2 h
    exact valueRound_advance fl vc s _ h
  · intro vc
    refine ⟨decompressValueLoop_runLoop fl vc _ 0 [], ?_⟩
    apply runLoop_within_fuel _ (fun s => vc.length - s.1)
    · intro s s2 h
      have h1 : s.1 < s2.1 := valueRound_advance fl vc s _ h
      have h2 := valueRound_inBounds fl vc s _ h
      show vc.length - s2.1 < vc.length - s.1
      omega
    · show vc.length - 0 < vc.length + 1
      omega
  · intro message
    refine ⟨compressLoop_runLoop fl pathList message _ _, ?_⟩
    apply runLoop_within_fuel _ (fun st => message.length - st.offset)
    · intro st st2 h
      unfold compressRound at h
      split at h
      · rename_i hlt
        obtain ⟨st3, hs, he⟩ := Option.map_eq_some'.mp h
        have e : st3 = st2 := Sum.inl.inj he
        rw [e] at hs
        have := compressStep_advance fl pathList message st st2 hs
        show message.length - st2.offset < message.length - st.offset
        omega
      · cases Option.some.inj h
    · show message.length - 0 < message.length + 1
      omega
  · intro message lead
    refine ⟨decompressLoop_runLoop fl pathList message _ 0 lead, ?_⟩
    apply runLoop_within_fuel _ (fun s => message.length - s.1)
    · intro s s2 h
      unfold decompressRound at h
      split at h
      · rename_i hlt
        obtain ⟨r, hs, he⟩ := Option.map_eq_some'.mp h
        cases Sum.inl.inj he
        have := readCompressedMessage_bytes fl pathList message s.1 r.1 r.2 hs
        show message.length - (s.1 + r.2) < message.length - s.1
        omega
      · cases Option.some.inj h
    · show message.length - 0 < message.length + 1
      omega

/-! ## Token signature: the encoding of the signature -/

theorem stringsLastIndex_absent (q : Nat) : ∀ b : Bytes, q ∉ b → stringsLastIndex b q = -1
  | [], _ => rfl
  | x :: t, h => by
    have hx : x ≠ q := fun e => h (by simp [e])
    have ht : q ∉ t := fun e => h (List.mem_cons_of_mem _ e)
    simp [stringsLastIndex, stringsLastIndex_absent q t ht, hx]

theorem stringsLastIndex_last (q : Nat) (b : Bytes) (hb : q ∉ b) : ∀ a : Bytes,
    stringsLastIndex (a ++ q :: b) q = (a.length : Int)
  | [] => by
    simp [stringsLastIndex, stringsLastIndex_absent q b hb]
  | x :: t => by
    have ih := stringsLastIndex_last q b hb t
    rw [List.cons_append, stringsLastIndex, ih]
    simp only [List.length_cons]
    push_cast
    have h0 : (0 : Int) ≤ (t.length : Int) := by omega
    simp only [h0, if_true]

theorem base64UrlAlphabet_no_dot (i : Nat) : base64UrlAlphabet.getD i 0 ≠ 46 := by
  by_cases h : i < 64
  · have hall : ∀ j < 64, base64UrlAlphabet.getD j 0 ≠ 46 := by decide
    exact hall i h
  · have hl : base64UrlAlphabet.length = 64 := by decide
    rw [List.getD_eq_default _ _ (by omega)]
    omega

theorem base64RawUrl_no_dot : ∀ l : Bytes, 46 ∉ base64RawUrl l
  | [] => by simp [base64RawUrl]
  | [a] => by
    simp only [base64RawUrl, List.mem_cons, List.mem_singleton, List.not_mem_nil, or_false,
      not_or]
    exact ⟨fun e => base64UrlAlphabet_no_dot _ e.symm, fun e => base64UrlAlphabet_no_dot _ e.symm⟩
  | [a, b] => by
    simp only [base64RawUrl, List.mem_cons, List.mem_singleton, List.not_mem_nil, or_false,
      not_or]
    exact ⟨fun e => base64UrlAlphabet_no_dot _ e.symm, fun e => base64UrlAlphabet_no_dot _ e.symm,
      fun e => base64UrlAlphabet_no_dot _ e.symm⟩
  | a :: b :: c :: rest => by
    have ih := base64RawUrl_no_dot rest
    simp only [base64RawUrl, List.mem_cons, not_or]
    exact ⟨fun e => base64UrlAlphabet_no_dot _ e.symm, fun e => base64UrlAlphabet_no_dot _ e.symm,
      fun e => base64UrlAlphabet_no_dot _ e.symm, fun e => base64UrlAlphabet_no_dot _ e.symm, ih⟩

/-- C20 as written fails: with a stand-in MAC function of 32-byte output, the token
`a.b` ++ `.` ++ `GenerateHmac("a.b", "k")`, which carries the raw MAC after the dot, is
rejected by `VerifyTokenSignature`; so is every such token, for every MAC function of
32-byte output, every message and every key. -/
theorem VerifyTokenSignature_raw_mac_rejected :
    (GenerateHmac (fun _ _ => List.replicate 32 65) (str "a.b") (str "k")).length = 32
      ∧ VerifyTokenSignature (fun _ _ => List.replicate 32 65)
          (str "a.b" ++ str "." ++ GenerateHmac (fun _ _ => List.replicate 32 65) (str "a.b")
            (str "k")) (str "k") = false
      ∧ ∀ (hmac : Bytes → Bytes → Bytes) (message key : Bytes),
          (∀ k m, (hmac k m).length = 32) →
          VerifyTokenSignature hmac (message ++ str "." ++ GenerateHmac hmac message key) key
            = false :=
  ⟨by decide,
    VerifyTokenSignature_rejects_GenerateHmac (fun _ _ => List.replicate 32 65) (str "a.b")
      (str "k") (fun _ _ => by simp),
    fun hmac message key h => VerifyTokenSignature_rejects_GenerateHmac hmac message key h⟩

/-- C20 (amended): `VerifyTokenSignature` accepts the token that carries the signature in
the encoding it compares with: for every MAC function, message and key, the token
`message ++ "." ++ base64url(GenerateHmac(message, key))`, with `base64.RawURLEncoding` of
the raw MAC after the dot, is accepted with the same key. -/
theorem VerifyTokenSignature_accepts_base64url (hmac : Bytes → Bytes → Bytes)
    (message key : Bytes) :
    VerifyTokenSignature hmac
        (message ++ str "." ++ base64RawUrl (GenerateHmac hmac message key)) key = true := by
  have hdot : str "." = [46] := by decide
  have hshape : message ++ str "." ++ base64RawUrl (GenerateHmac hmac message key)
      = message ++ 46 :: base64RawUrl (hmac key message) := by
    simp [hdot, GenerateHmac]
  have hidx := stringsLastIndex_last 46 (base64RawUrl (hmac key message))
    (base64RawUrl_no_dot _) message
  have hne : ¬ ((message.length : Int) = -1) := by omega
  have ht : (message ++ 46 :: base64RawUrl (hmac key message)).take message.length
      = message := take_append_len _ _ _ rfl
  have hd : (message ++ 46 :: base64RawUrl (hmac key message)).drop (message.length + 1)
      = base64RawUrl (hmac key message) := by
    rw [← List.drop_drop, drop_append_len _ _ _ rfl]
    rfl
  rw [hshape]
  unfold VerifyTokenSignature
  simp only [hidx, hne, if_false, Int.toNat_ofNat, ht, hd, decide_True]

end Utils
